import Mathlib

/-!
Shallow embedding of the storage-engine core of the BusTub-derived repository:
the LRU-K replacer (src/buffer/lru_k_replacer.cpp), the buffer pool manager
(src/buffer/buffer_pool_manager.cpp), the B+ tree node pages
(src/storage/page/b_plus_tree_leaf_page.cpp, b_plus_tree_internal_page.cpp)
and the B+ tree index (src/storage/index/b_plus_tree.cpp).

Modelling conventions:
- C++ machine integers are modelled as `Nat`/`Int`; none of the operations
  modelled here overflow for the inputs we consider (timestamps, sizes and
  page ids are small nonnegative quantities; `page_id_t` is `Int` with the
  `INVALID_PAGE_ID` sentinel `-1`).
- Fallible or undefined behaviour is modelled with `Option`: a result of
  `none` marks an execution in which the C++ code fails a `BUSTUB_ASSERT`,
  dereferences an invalid iterator, or loops forever; `some` carries the
  state produced by a run that returns normally.
- `std::list` is a `List` whose head is the C++ `begin()`.
  `std::unordered_map` keys are modelled as the list of inserted keys
  (lookup by first match; keys are unique in all reachable states).
-/

namespace BusTub

/-! ## LRU-K replacer (src/buffer/lru_k_replacer.cpp)

`LRUKNode` carries a frame id, the access history (front = newest, trimmed
to the newest `k` entries by `AddHistory`) and the evictable flag.  The class
member `k_` is the same for every node of one replacer, so we keep it in the
replacer structure rather than in each node. -/

structure LRUKNode where
  fid : Nat
  history : List Nat
  evictable : Bool
deriving DecidableEq

/-- LRUKNode::AddHistory: `if (history_.size() >= k_) history_.pop_back(); history_.push_front(timestamp);` -/
def addHistory (k : Nat) (ts : Nat) (n : LRUKNode) : LRUKNode :=
  { n with history := ts :: (if k ≤ n.history.length then n.history.dropLast else n.history) }

/-- GetKHistory is declared in the (absent) header lru_k_replacer.h.
Modelled from the spec: the victim in the at-least-k list is the evictable
node "whose oldest-of-the-last-k timestamp is smallest", so `GetKHistory`
returns the oldest timestamp still stored in the node's history (the history
is trimmed to the newest `k` entries, newest first). -/
def kHistory (n : LRUKNode) : Nat := n.history.getLastD 0

/-- State of `LRUKReplacer`.  `store` is the key set of `node_store_`
(the map from frame id to a `std::list` iterator); `lessK`/`moreK` are
`node_list_less_k_` / `node_list_more_k_`, head = `begin()`. -/
structure LRUKReplacer where
  lessK : List LRUKNode
  moreK : List LRUKNode
  store : List Nat
  currSize : Int
  currTimestamp : Nat
  replacerSize : Nat
  k : Nat
deriving DecidableEq

/-- LRUKReplacer::LRUKReplacer(num_frames, k). -/
def initReplacer (numFrames k : Nat) : LRUKReplacer :=
  { lessK := [], moreK := [], store := [], currSize := 0, currTimestamp := 0,
    replacerSize := numFrames, k := k }

/-- Dereference the iterator stored in `node_store_`: the node with this
frame id, in the less-than-k list (`true`) or the at-least-k list (`false`).
`none` means the stored iterator is dangling (the node is on neither list). -/
def locate (r : LRUKReplacer) (fid : Nat) : Option (Bool × LRUKNode) :=
  match r.lessK.find? (fun n => n.fid == fid) with
  | some n => some (true, n)
  | none =>
    match r.moreK.find? (fun n => n.fid == fid) with
    | some n => some (false, n)
    | none => none

/-- Replace the node with the given frame id in place (the C++ code mutates
the node through its iterator wherever it currently sits). -/
def replaceNode (l : List LRUKNode) (fid : Nat) (n' : LRUKNode) : List LRUKNode :=
  l.map (fun m => if m.fid == fid then n' else m)

/-- Remove the node with the given frame id (C++ `list::erase` on its iterator). -/
def eraseNode (l : List LRUKNode) (fid : Nat) : List LRUKNode :=
  l.eraseP (fun m => m.fid == fid)

/-- LRUKReplacer::RecordAccess.  `none` models the `BUSTUB_ASSERT` on
`frame_id >= replacer_size_` and the undefined behaviour of dereferencing a
dangling `node_store_` iterator (possible because `Remove` erases the list
node but never erases the map entry).  The comparisons with `k_ - 1` are the
C++ ones for `k_ >= 1` (all uses have `k >= 1`). -/
def recordAccess (r : LRUKReplacer) (fid : Nat) : Option LRUKReplacer :=
  if r.replacerSize ≤ fid then none
  else if fid ∈ r.store then
    match locate r fid with
    | none => none
    | some (inLess, n) =>
      let n' := addHistory r.k r.currTimestamp n
      let r' :=
        if n.history.length + 1 < r.k then
          -- splice to the front of the less-than-k list; UB unless the node is there
          if inLess then some { r with lessK := n' :: eraseNode r.lessK fid } else none
        else if n.history.length + 1 = r.k then
          -- splice to the end of the at-least-k list; UB unless the node is in less-than-k
          if inLess then some { r with lessK := eraseNode r.lessK fid, moreK := r.moreK ++ [n'] }
          else none
        else
          some (if inLess then { r with lessK := replaceNode r.lessK fid n' }
                else { r with moreK := replaceNode r.moreK fid n' })
      r'.map (fun s => { s with currTimestamp := s.currTimestamp + 1 })
  else
    some { r with lessK := { fid := fid, history := [r.currTimestamp], evictable := true } :: r.lessK,
                  store := fid :: r.store,
                  currSize := r.currSize + 1,
                  currTimestamp := r.currTimestamp + 1 }

/-- LRUKReplacer::SetEvictable.  On a frame id that is not in `node_store_`,
`node_store_[frame_id]` default-constructs a singular iterator which is then
dereferenced: undefined behaviour, modelled as `none`. -/
def setEvictable (r : LRUKReplacer) (fid : Nat) (flag : Bool) : Option LRUKReplacer :=
  if r.replacerSize ≤ fid then none
  else if fid ∈ r.store then
    match locate r fid with
    | none => none
    | some (inLess, n) =>
      let n' := { n with evictable := flag }
      let size' := if n.evictable ≠ flag then (if flag then r.currSize + 1 else r.currSize - 1)
                   else r.currSize
      some (if inLess then { r with lessK := replaceNode r.lessK fid n', currSize := size' }
            else { r with moreK := replaceNode r.moreK fid n', currSize := size' })
  else none

/-- LRUKReplacer::RecordAccessAndSetEvictable.  Note two faithful details:
this overload performs no bound assertion on `frame_id`, and in the
new-node branch it increments `curr_size_` and then sets the evictable flag
without adjusting `curr_size_` back when the flag is `false`. -/
def recordAccessAndSetEvictable (r : LRUKReplacer) (fid : Nat) (flag : Bool) :
    Option LRUKReplacer :=
  if fid ∈ r.store then
    match locate r fid with
    | none => none
    | some (inLess, n) =>
      let n0 := addHistory r.k r.currTimestamp n
      let n' := { n0 with evictable := flag }
      let size' := if n.evictable ≠ flag then (if flag then r.currSize + 1 else r.currSize - 1)
                   else r.currSize
      let r' :=
        if n.history.length + 1 < r.k then
          if inLess then some { r with lessK := n' :: eraseNode r.lessK fid, currSize := size' }
          else none
        else if n.history.length + 1 = r.k then
          if inLess then
            some { r with lessK := eraseNode r.lessK fid, moreK := r.moreK ++ [n'],
                          currSize := size' }
          else none
        else
          some (if inLess then { r with lessK := replaceNode r.lessK fid n', currSize := size' }
                else { r with moreK := replaceNode r.moreK fid n', currSize := size' })
      r'.map (fun s => { s with currTimestamp := s.currTimestamp + 1 })
  else
    some { r with lessK := { fid := fid, history := [r.currTimestamp], evictable := flag } :: r.lessK,
                  store := fid :: r.store,
                  currSize := r.currSize + 1,
                  currTimestamp := r.currTimestamp + 1 }

/-- The selection loop of `Evict` over the at-least-k list: starting from
`begin()`, replace the candidate whenever the node is evictable and has a
strictly smaller `GetKHistory` (or the candidate is not evictable). -/
def selectMoreK (h : LRUKNode) (t : List LRUKNode) : LRUKNode :=
  t.foldl (fun best cur =>
    if cur.evictable && (decide (kHistory cur < kHistory best) || !best.evictable)
    then cur else best) h

/-- LRUKReplacer::Evict.  Returns `some (victim?, state)` for a normal
return; `none` models the reverse-iterator overrun: when the less-than-k
list is nonempty but holds no evictable node, the loop
`while (!evict_iter->GetEvictable()) ++evict_iter;` walks past `rend()`. -/
def evict (r : LRUKReplacer) : Option (Option Nat × LRUKReplacer) :=
  if r.currSize ≤ 0 then some (none, r)
  else
    match r.lessK with
    | ln :: lt =>
      match (ln :: lt).reverse.find? (fun n => n.evictable) with
      | some n =>
        some (some n.fid,
          { r with lessK := eraseNode r.lessK n.fid, store := r.store.erase n.fid,
                   currSize := r.currSize - 1 })
      | none => none
    | [] =>
      match r.moreK with
      | mn :: mt =>
        let pick := selectMoreK mn mt
        if pick.evictable then
          some (some pick.fid,
            { r with moreK := eraseNode r.moreK pick.fid, store := r.store.erase pick.fid,
                     currSize := r.currSize - 1 })
        else some (none, r)
      | [] => some (none, r)

/-- LRUKReplacer::Remove.  Faithful details: the assertion that the node is
evictable, the choice of which list to erase from by `GetHistorySize() >= k_`
(erasing through an iterator of the other list is UB, modelled `none`), and
the absence of any `node_store_.erase(frame_id)`: the map entry survives. -/
def removeFrame (r : LRUKReplacer) (fid : Nat) : Option LRUKReplacer :=
  if r.replacerSize ≤ fid then none
  else if fid ∈ r.store then
    match locate r fid with
    | none => none
    | some (inLess, n) =>
      if !n.evictable then none
      else if r.k ≤ n.history.length then
        if inLess then none
        else some { r with moreK := eraseNode r.moreK fid, currSize := r.currSize - 1 }
      else
        if inLess then some { r with lessK := eraseNode r.lessK fid, currSize := r.currSize - 1 }
        else none
  else some r

/-! ## Buffer pool manager (src/buffer/buffer_pool_manager.cpp)

The `Page` class lives in a header that is not part of the sources; its
fields are the frame metadata of the spec (§3: `page_id` with sentinel
INVALID = -1, `pin_count`, `is_dirty`, and a page-sized buffer).  The buffer
contents are abstracted to a single `Int` token; `ResetMemory` writes `0`.

Modelled from the spec: a freshly constructed frame holds no page
(`page_id = INVALID_PAGE_ID = -1`, pin count 0, clean, zeroed buffer), and
`next_page_id_` starts at 0 so that `AllocatePage` returns the monotonically
increasing ids 0, 1, 2, ... -/

structure Page where
  pageId : Int
  pinCount : Int
  isDirty : Bool
  data : Int
deriving DecidableEq

def initPage : Page := { pageId := -1, pinCount := 0, isDirty := false, data := 0 }

/-- State of `BufferPoolManager`.  `pages` is the frame array (index =
frame id), `diskWrites` is the ordered log of `disk_manager_->WritePage`
calls as pairs (page id, written data). -/
structure BufferPoolManager where
  poolSize : Nat
  pages : List Page
  pageTable : List (Int × Nat)
  freeList : List Nat
  replacer : LRUKReplacer
  nextPageId : Int
  diskWrites : List (Int × Int)
deriving DecidableEq

/-- BufferPoolManager::BufferPoolManager: `pool_size` frames, all on the
free list, replacer over `pool_size` frames with parameter `replacer_k`. -/
def initBPM (poolSize replacerK : Nat) : BufferPoolManager :=
  { poolSize := poolSize, pages := List.replicate poolSize initPage,
    pageTable := [], freeList := List.range poolSize,
    replacer := initReplacer poolSize replacerK, nextPageId := 0, diskWrites := [] }

def pageAt (b : BufferPoolManager) (f : Nat) : Page := b.pages.getD f initPage

def setPageAt (b : BufferPoolManager) (f : Nat) (p : Page) : BufferPoolManager :=
  { b with pages := b.pages.set f p }

def logWrite (b : BufferPoolManager) (pid : Int) (d : Int) : BufferPoolManager :=
  { b with diskWrites := b.diskWrites ++ [(pid, d)] }

def tableLookup (b : BufferPoolManager) (pid : Int) : Option Nat :=
  (b.pageTable.find? (fun e => e.1 == pid)).map (fun e => e.2)

def tableErase (b : BufferPoolManager) (pid : Int) : BufferPoolManager :=
  { b with pageTable := b.pageTable.eraseP (fun e => e.1 == pid) }

/-- BufferPoolManager::GetFreeFrameLF: pop the free list, else evict; on a
successful eviction, erase the victim's page id from the page table.
`none` propagates undefined behaviour from `Evict`. -/
def getFreeFrameLF (b : BufferPoolManager) : Option (Option Nat × BufferPoolManager) :=
  match b.freeList with
  | f :: rest => some (some f, { b with freeList := rest })
  | [] =>
    match evict b.replacer with
    | none => none
    | some (none, r') => some (none, { b with replacer := r' })
    | some (some f, r') =>
      some (some f, tableErase { b with replacer := r' } (pageAt b f).pageId)

/-- BufferPoolManager::AllocatePage: `return next_page_id_++;`. -/
def allocatePage (b : BufferPoolManager) : Int × BufferPoolManager :=
  (b.nextPageId, { b with nextPageId := b.nextPageId + 1 })

/-- BufferPoolManager::NewPage.  Result `some (frame?, out_page_id, state)`:
`frame? = none` is the `nullptr` return with `*page_id` set to the second
component.  `none` models assertion failure or UB inside the replacer. -/
def newPage (b : BufferPoolManager) : Option (Option Nat × Int × BufferPoolManager) :=
  match getFreeFrameLF b with
  | none => none
  | some (none, b1) => some (none, -1, b1)
  | some (some f, b1) =>
    let (pidNew, b2) := allocatePage b1
    if pidNew == -1 then some (none, -1, b2)
    else
      let pg := pageAt b2 f
      if pg.pinCount != 0 then none
      else
        let b3 := if pg.isDirty then logWrite b2 pg.pageId pg.data else b2
        let b4 := setPageAt b3 f { pageId := pidNew, pinCount := 1, isDirty := false, data := 0 }
        match recordAccessAndSetEvictable b4.replacer f false with
        | none => none
        | some r' =>
          some (some f, pidNew,
            { b4 with replacer := r', pageTable := b4.pageTable ++ [(pidNew, f)] })

/-- BufferPoolManager::FetchPage. -/
def fetchPage (b : BufferPoolManager) (pid : Int) : Option (Option Nat × BufferPoolManager) :=
  match tableLookup b pid with
  | some f =>
    let pg := pageAt b f
    let b1 := setPageAt b f { pg with pinCount := pg.pinCount + 1 }
    match recordAccessAndSetEvictable b1.replacer f false with
    | none => none
    | some r' => some (some f, { b1 with replacer := r' })
  | none =>
    match getFreeFrameLF b with
    | none => none
    | some (none, b1) => some (none, b1)
    | some (some f, b1) =>
      let pg := pageAt b1 f
      let b2 := if pg.isDirty then logWrite b1 pg.pageId pg.data else b1
      -- disk_manager_->ReadPage(page_id, data): the fetched contents are not
      -- tracked by this model; the buffer token records the page id read.
      let b3 := setPageAt b2 f { pageId := pid, pinCount := 1, isDirty := false, data := pid }
      match recordAccessAndSetEvictable b3.replacer f false with
      | none => none
      | some r' => some (some f, { b3 with replacer := r', pageTable := b3.pageTable ++ [(pid, f)] })

/-- BufferPoolManager::UnpinPage.  Note the faithful final step
`page->is_dirty_ = is_dirty;`: a plain assignment, not an OR-assignment. -/
def unpinPage (b : BufferPoolManager) (pid : Int) (isDirty : Bool) :
    Option (Bool × BufferPoolManager) :=
  match tableLookup b pid with
  | none => some (false, b)
  | some f =>
    let pg := pageAt b f
    if pg.pinCount = 0 then some (false, b)
    else
      let pg1 : Page := { pg with pinCount := pg.pinCount - 1 }
      let step : Option BufferPoolManager :=
        if pg1.pinCount = 0 then
          match setEvictable b.replacer f true with
          | none => none
          | some r' => some { b with replacer := r' }
        else some b
      match step with
      | none => none
      | some b1 => some (true, setPageAt b1 f { pg1 with isDirty := isDirty })

/-- BufferPoolManager::FlushPage. -/
def flushPage (b : BufferPoolManager) (pid : Int) : Bool × BufferPoolManager :=
  match tableLookup b pid with
  | none => (false, b)
  | some f =>
    let pg := pageAt b f
    (true, setPageAt (logWrite b pid pg.data) f { pg with isDirty := false })

/-- BufferPoolManager::FlushAllPages: for every frame index `i` in
`[0, pool_size)`, unconditionally `WritePage(page->GetPageId(), page->GetData())`
and clear the dirty flag — including frames on the free list. -/
def flushAllPages (b : BufferPoolManager) : BufferPoolManager :=
  { b with pages := b.pages.map (fun p => { p with isDirty := false }),
           diskWrites := b.diskWrites ++ b.pages.map (fun p => (p.pageId, p.data)) }

/-- BufferPoolManager::DeletePage.  Faithful details: flush-if-dirty, erase
the page-table entry, `replacer_->Remove(frame_id)` (which can assert),
push the frame on the free list, `ResetMemory`, zero the pin count, clear
the dirty flag — and leave `page_id_` untouched. -/
def deletePage (b : BufferPoolManager) (pid : Int) : Option (Bool × BufferPoolManager) :=
  match tableLookup b pid with
  | none => some (true, b)
  | some f =>
    let pg := pageAt b f
    if 0 < pg.pinCount then some (false, b)
    else
      let b1 := if pg.isDirty then logWrite b pid pg.data else b
      let b2 := tableErase b1 pid
      match removeFrame b2.replacer f with
      | none => none
      | some r' =>
        some (true,
          setPageAt { b2 with replacer := r', freeList := b2.freeList ++ [f] } f
            { pg with data := 0, pinCount := 0, isDirty := false })

/-! ## Raw node-page slot arrays (src/storage/page/b_plus_tree_leaf_page.cpp)

For the page-level claim about `MergeToRight` we model the slot array
`array_` exactly as C++ memory: a total function from the (possibly
negative) slot index to a pair, together with the stored size.  Writes at
any index, including out-of-range ones, are visible in the resulting
function. -/

structure RawLeaf (V : Type) where
  data : Int → Int × V
  size : Nat
  nextPageId : Int

/-- A single array store `array_[j] = p`. -/
def writeSlot {V : Type} (d : Int → Int × V) (j : Int) (p : Int × V) : Int → Int × V :=
  fun i => if i = j then p else d i

/-- BPlusTreeLeafPage::MergeToRight(brother_page_right), called as
`cur->MergeToRight(right)` where `cur` is the left page:

  int merge_index = right->GetSize() + GetSize();
  int j = merge_index;
  for (int i = right->GetSize() - 1; i >= 0; --i) right->array_[--j] = right->array_[i];
  for (int i = GetSize(); i >= 0; i--)          right->array_[--j] = array_[i];
  right->SetSize(merge_index);

The first loop runs `j` from `a+b-1` down to `a` writing `right[a+i] = right[i]`
(reads of the current array; the earlier writes in this loop never touch a
slot later read).  The second loop starts at `i = GetSize()` (one past the
last live slot of the left page) and runs down to `i = 0`, so it performs
`a+1` stores at indices `a-1, a-2, ..., 0, -1`.
`BPlusTreeInternalPage::MergeToRight` is the identical code. -/
def mergeToRight {V : Type} (left right : RawLeaf V) : RawLeaf V :=
  let a : Int := left.size
  let d1 := (List.range right.size).reverse.foldl
    (fun d i => writeSlot d (a + (i : Int)) (d (i : Int))) right.data
  let d2 := (List.range (left.size + 1)).reverse.foldl
    (fun d i => writeSlot d ((i : Int) - 1) (left.data (i : Int))) d1
  { data := d2, size := right.size + left.size, nextPageId := right.nextPageId }

/-! ## B+ tree index (src/storage/index/b_plus_tree.cpp)

The forest of node pages reachable from the header's `root_page_id` is
modelled as an inductive tree: a leaf page is its list of live
`(key, value)` slots in array order; an internal page is its list of live
`(key, child)` slots in array order (slot 0's key is physically present but
semantically unused; a freshly initialised internal page has the zeroed key
`0` in slot 0 because `NewPage` zeroes the frame).  The keys are the
`GenericKey`/`GenericComparator` instantiation over a signed integer,
modelled as `Int`.  Page ids and the buffer-pool plumbing do not appear:
every fetched page is represented by its node, and `NewPageGuarded` is
assumed to succeed (its failure asserts or makes `Insert` return false
before any mutation).  The `next_page_id_` leaf chain is maintained by
`SplitTo` but never consulted by the operations modelled here, so it is
omitted. -/

inductive BPTree (V : Type) where
  | leaf (ps : List (Int × V))
  | node (es : List (Int × BPTree V))

/-- The two size bounds of the tree; these are the values stored in
`leaf_max_size_` / `internal_max_size_`, which the constructor
(b_plus_tree.cpp lines 18-19) sets to the *configured* maxima plus one. -/
structure BPTCfg where
  leafMax : Nat
  internalMax : Nat
deriving DecidableEq

/-- BPlusTree::BPlusTree: `leaf_max_size_(leaf_max_size + 1),
internal_max_size_(internal_max_size + 1)`. -/
def treeCfg (leafMaxSize internalMaxSize : Nat) : BPTCfg :=
  { leafMax := leafMaxSize + 1, internalMax := internalMaxSize + 1 }

/-- BPlusTreePage::GetMinSize lives in the absent b_plus_tree_page sources.
Modelled from the spec: the minimum is the ceiling of the configured
maximum over two, and the stored `max_size_` is the configured maximum plus
one, so `GetMinSize() = ceil((max_size_ - 1) / 2) = max_size_ / 2` with C++
integer division. -/
def minSize (maxSize : Nat) : Nat := maxSize / 2

/-- BPlusTree::UpperBound(LeafPage): first index with `key[index] > key`
(linear scan with `comparator_(page->KeyAt(index), key) <= 0`). -/
def leafUB {V : Type} (ps : List (Int × V)) (k : Int) : Nat :=
  (ps.takeWhile (fun p => p.1 ≤ k)).length

/-- BPlusTree::UpperBound(InternalPage): the same scan starting at index 1. -/
def internalUB {V : Type} (es : List (Int × BPTree V)) (k : Int) : Nat :=
  1 + ((es.drop 1).takeWhile (fun e => e.1 ≤ k)).length

/-- Child pointer at slot `i` (`ValueAt(i)` followed by fetching the page). -/
def childAt {V : Type} (es : List (Int × BPTree V)) (i : Nat) : BPTree V :=
  (es.getD i (0, .leaf [])).2

theorem internalUB_le {V : Type} (e : Int × BPTree V) (t : List (Int × BPTree V)) (k : Int) :
    internalUB (e :: t) k ≤ (e :: t).length := by
  have h := (List.takeWhile_sublist (fun x : Int × BPTree V => decide (x.1 ≤ k))
    (l := t)).length_le
  simp only [internalUB, List.drop_succ_cons, List.drop_zero, List.length_cons]
  omega

theorem sizeOf_snd_lt {α β : Type _} [SizeOf α] [SizeOf β] (p : α × β) :
    sizeOf p.2 < sizeOf p := by
  cases p with
  | mk a b => simp

theorem sizeOf_childAt_lt {V : Type} (es : List (Int × BPTree V)) (i : Nat)
    (h : i < es.length) : sizeOf (childAt es i) < sizeOf es := by
  have hg : es.getD i (0, .leaf []) = es[i] := List.getD_eq_getElem es _ h
  have hm : es[i] ∈ es := List.getElem_mem h
  have h1 : sizeOf es[i] < sizeOf es := List.sizeOf_lt_of_mem hm
  have h2 : sizeOf (childAt es i) < sizeOf es[i] := by
    rw [childAt, hg]; exact sizeOf_snd_lt es[i]
  omega

/-- BPlusTree::GetValue: descend with `UpperBound(key) - 1`, then collect the
values of every matching slot of the leaf.  Descending from an internal page
with no live slot would read a stale child pointer; internal pages always
have at least one slot, and that degenerate read is modelled as the empty
result. -/
def getValue {V : Type} : BPTree V → Int → List V
  | .leaf ps, k => (ps.filter (fun p => p.1 == k)).map (fun p => p.2)
  | .node [], _ => []
  | .node (e :: t), k => getValue (childAt (e :: t) (internalUB (e :: t) k - 1)) k
termination_by t _ => sizeOf t
decreasing_by
  have hub := internalUB_le e t k
  have hge : 1 ≤ internalUB (e :: t) k := Nat.le_add_right 1 _
  have hlt : internalUB (e :: t) k - 1 < (e :: t).length := by
    simp only [List.length_cons] at hub ⊢
    omega
  have := sizeOf_childAt_lt (e :: t) _ hlt
  simp at this ⊢
  omega

/-- BPlusTree::GetValue including the root lookup through the header page:
result flag and collected values. -/
def getValueTree {V : Type} (root : Option (BPTree V)) (k : Int) : Bool × List V :=
  match root with
  | none => (false, [])
  | some t => (!(getValue t k).isEmpty, getValue t k)

/-- Key stored at slot `i` of an entry list (`KeyAt(i)` for a live slot). -/
def keyAtE {V : Type} (es : List (Int × BPTree V)) (i : Nat) : Int :=
  (es.getD i (0, .leaf [])).1

/-- BPlusTree::InsertRecursively, modelled functionally.  The result is the
updated subtree, the pending promotion produced when this node split (the
separator key and the new right sibling, which the C++ code inserts into
`ctx.write_set_.back()` from within this invocation; the model hands it to
the caller, who owns that page), and the boolean `success`.

The parameter `hdr` models the out-of-bounds read in the duplicate check:
when `UpperBound` returns 0 the code compares `KeyAt(-1)` with the probe
key, and `array_[-1]` overlays the page header, so the value read is some
function of the leaf page's header fields; the development quantifies over
this function.  `InsertAt`'s index-range check (`index < 0 || index > size`)
never fires because `UpperBound` returns an index in `[0, size]`. -/
def insertRec {V : Type} (cfg : BPTCfg) (hdr : List (Int × V) → Int) :
    BPTree V → Int → V → BPTree V × Option (Int × BPTree V) × Bool
  | .leaf ps, k, v =>
    let idx := leafUB ps k
    let prev := if idx = 0 then hdr ps else (ps.getD (idx - 1) (0, v)).1
    if prev = k then (.leaf ps, none, false)
    else if cfg.leafMax ≤ ps.length then (.leaf ps, none, false)
    else
      let ps' := ps.insertIdx idx (k, v)
      if ps'.length < cfg.leafMax then (.leaf ps', none, true)
      else
        let start := ps'.length / 2
        (.leaf (ps'.take start), some (((ps'.drop start).headD (k, v)).1, .leaf (ps'.drop start)),
          true)
  | .node [], _, _ => (.node [], none, false)
  | .node (e :: t), k, v =>
    let es := e :: t
    let idx := internalUB es k
    let (child', promo, succ) := insertRec cfg hdr (childAt es (idx - 1)) k v
    let es1 := es.set (idx - 1) (keyAtE es (idx - 1), child')
    let res : List (Int × BPTree V) × Bool :=
      match promo with
      | none => (es1, succ)
      | some (sep, nn) =>
        if cfg.internalMax ≤ es1.length then (es1, false)
        else (es1.insertIdx (internalUB es1 sep) (sep, nn), true)
    if res.1.length < cfg.internalMax ∨ res.2 = false then (.node res.1, none, res.2)
    else
      let start := res.1.length / 2
      (.node (res.1.take start),
        some (((res.1.drop start).headD e).1, .node (res.1.drop start)), res.2)
termination_by t _ _ => sizeOf t
decreasing_by
  have hub := internalUB_le e t k
  have hlt : internalUB (e :: t) k - 1 < (e :: t).length := by
    simp only [List.length_cons] at hub ⊢
    omega
  have := sizeOf_childAt_lt (e :: t) _ hlt
  simp at this ⊢
  omega

/-- BPlusTree::Insert: the empty-tree case allocates a fresh root leaf and
performs `InsertAt(key, value, 0)` on it; otherwise the recursive insert
runs, and a promotion surviving to the root builds a new root internal page
(`Init` gives it one zeroed slot; `SetValueAt(old_root, 0)` then
`success = InsertAt(sep, new_page_id, 1)`) and stores its id in the header. -/
def insertTree {V : Type} (cfg : BPTCfg) (hdr : List (Int × V) → Int)
    (root : Option (BPTree V)) (k : Int) (v : V) : Option (BPTree V) × Bool :=
  match root with
  | none =>
    if cfg.leafMax = 0 then (some (.leaf []), false) else (some (.leaf [(k, v)]), true)
  | some t =>
    match insertRec cfg hdr t k v with
    | (t', none, succ) => (some t', succ)
    | (t', some (sep, nn), _) =>
      if cfg.internalMax ≤ 1 then (some (.node [(0, t')]), false)
      else (some (.node [(0, t'), (sep, nn)]), true)

/-! ### Remove

`RemoveRecursively` on a leaf child is executed with the father's page in
`ctx.write_set_.back()` and mutates the father and a sibling in place, so
the model inlines the leaf child's invocation into the father's step.  A
result of `none` marks an execution that does not return: every merge path
ends in `while (!bpm_->DeletePage(page_id_to_fetch)) {}`, and `DeletePage`
returns `false` forever because `cur_guard` — still in scope — keeps a pin
on that very page (only the root-collapse path drops `cur_guard` first).
`none` also covers two executions that are unreachable from well-formed
trees and are not modelled further: reinterpreting an internal sibling page
as a leaf, and the borrow/merge repair of an underflowing *internal* node,
which can only be entered after a merge removed an entry from it — and
merges never return. -/

/-- The deletion loops of the leaf case: `lowerbound` scans while
`key < k`, `upperbound` continues while `key <= k`, and the shift loop drops
slots `[lowerbound, upperbound)`. -/
def leafDelete {V : Type} (ps : List (Int × V)) (k : Int) : List (Int × V) :=
  let lb := (ps.takeWhile (fun p => p.1 < k)).length
  let ub := lb + ((ps.drop lb).takeWhile (fun p => p.1 ≤ k)).length
  ps.take lb ++ ps.drop ub

/-- The value of `cur_page_leaf->KeyAt(0)` after the deletion: the shift
loop never writes slot 0 when it empties the page (that needs
`lowerbound = 0` and `upperbound = size`), so slot 0 then still holds the
first pair the page had before the deletion. -/
def keyAt0AfterDelete {V : Type} [Inhabited V] (ps ps' : List (Int × V)) : Int :=
  match ps' with
  | p :: _ => p.1
  | [] => (ps.headD (0, default)).1

/-- The leaf child's borrow-from-right attempt
(`cur->BorrowFromRight(right, cnt)` then
`father->SetKeyAt(right->KeyAt(0), index + 1)` on success).
Result: `none` = UB (sibling is not a leaf page), `some none` = borrow
refused, `some (some es')` = success with the father updated. -/
def leafBorrowRight {V : Type} [Inhabited V] (minL : Nat) (es1 : List (Int × BPTree V))
    (j : Nat) (ps' : List (Int × V)) (cnt : Nat) :
    Option (Option (List (Int × BPTree V))) :=
  if j + 1 < es1.length then
    match childAt es1 (j + 1) with
    | .node _ => none
    | .leaf rps =>
      if cnt + minL ≤ rps.length then
        let cur' := ps' ++ rps.take cnt
        let rps' := rps.drop cnt
        some (some ((es1.set j (keyAtE es1 j, .leaf cur')).set (j + 1)
          ((rps'.headD (0, default)).1, .leaf rps')))
      else some none
  else some none

/-- The full leaf-child invocation of RemoveRecursively: delete, return if
the size is still at least `min_size`, otherwise borrow from the left
sibling, else from the right sibling, else hang in a merge (`none`).
When the node has no sibling at all (a one-child father), all four repair
branches are skipped and the function returns with the leaf underfull. -/
def leafChildStep {V : Type} [Inhabited V] (cfg : BPTCfg) (es : List (Int × BPTree V))
    (idx : Nat) (ps : List (Int × V)) (k : Int) : Option (List (Int × BPTree V)) :=
  let minL := minSize cfg.leafMax
  let ps' := leafDelete ps k
  let es1 := es.set idx (keyAtE es idx, .leaf ps')
  if minL ≤ ps'.length then some es1
  else
    let key0 := keyAt0AfterDelete ps ps'
    let j := internalUB es1 key0 - 1
    let cnt := minL - ps'.length
    if 0 < j then
      match childAt es1 (j - 1) with
      | .node _ => none
      | .leaf lps =>
        if cnt + minL ≤ lps.length then
          let cur' := lps.drop (lps.length - cnt) ++ ps'
          let lps' := lps.take (lps.length - cnt)
          some ((es1.set (j - 1) (keyAtE es1 (j - 1), .leaf lps')).set j
            ((cur'.headD (0, default)).1, .leaf cur'))
        else
          match leafBorrowRight minL es1 j ps' cnt with
          | none => none
          | some (some es2) => some es2
          | some none => none
    else
      match leafBorrowRight minL es1 j ps' cnt with
      | none => none
      | some (some es2) => some es2
      | some none => if j + 1 < es1.length then none else some es1

mutual

/-- One internal-page step of RemoveRecursively: descend with
`UpperBound(key) - 1`; a leaf child's whole invocation is inlined (it
mutates this page through `ctx.write_set_`); an internal child recurses. -/
def removeNodeStep {V : Type} [Inhabited V] (cfg : BPTCfg)
    (es : List (Int × BPTree V)) (k : Int) : Option (List (Int × BPTree V)) :=
  match es with
  | [] => none
  | e :: t =>
    let idx := internalUB (e :: t) k - 1
    match _h : childAt (e :: t) idx with
    | .leaf ps => leafChildStep cfg (e :: t) idx ps k
    | .node ces =>
      match removeRec cfg (.node ces) k with
      | none => none
      | some c' => some ((e :: t).set idx (keyAtE (e :: t) idx, c'))
termination_by sizeOf es
decreasing_by
  have hub := internalUB_le e t k
  have hlt : internalUB (e :: t) k - 1 < (e :: t).length := by
    simp only [List.length_cons] at hub ⊢
    omega
  have hch := sizeOf_childAt_lt (e :: t) _ hlt
  rw [_h] at hch
  simp at hch ⊢
  omega

/-- BPlusTree::RemoveRecursively on a non-root internal page: perform the
step, then check this page's own size.  Merges are the only operations that
shrink an internal page and they never return, so the borrow/merge repair
of an internal page is dead code (`none`).  A bare leaf never reaches this
function (its invocation is inlined into the father's step). -/
def removeRec {V : Type} [Inhabited V] (cfg : BPTCfg) :
    BPTree V → Int → Option (BPTree V)
  | .leaf ps, _ => some (.leaf ps)
  | .node es, k =>
    match removeNodeStep cfg es k with
    | none => none
    | some es' =>
      if minSize cfg.internalMax ≤ es'.length then some (.node es') else none
termination_by t _ => sizeOf t
decreasing_by
  simp

end

/-- BPlusTree::Remove at the root: an empty tree returns immediately; a root
leaf deletes in place and sets the header's root id to INVALID when it
becomes empty; a root internal page steps, then promotes its only child
and frees itself when its size drops below 2 (this path does drop
`cur_guard` before `DeletePage`, so it returns). -/
def removeTree {V : Type} [Inhabited V] (cfg : BPTCfg) (root : Option (BPTree V))
    (k : Int) : Option (Option (BPTree V)) :=
  match root with
  | none => some none
  | some (.leaf ps) =>
    let ps' := leafDelete ps k
    if ps'.length = 0 then some none else some (some (.leaf ps'))
  | some (.node es) =>
    match removeNodeStep cfg es k with
    | none => none
    | some es' =>
      if es'.length < 2 then some (some (childAt es' 0)) else some (some (.node es'))

/-! ### Operation sequences -/

/-- One committed index operation. -/
inductive TreeOp (V : Type) where
  | ins (k : Int) (v : V)
  | rem (k : Int)

/-- Apply one operation to the tree state (the header's root).  Insert
always returns; Remove diverges (`none`) exactly on the merge paths. -/
def applyOp {V : Type} [Inhabited V] (cfg : BPTCfg) (hdr : List (Int × V) → Int)
    (s : Option (BPTree V)) : TreeOp V → Option (Option (BPTree V))
  | .ins k v => some (insertTree cfg hdr s k v).1
  | .rem k => removeTree cfg s k

/-- Run a sequence of operations from the freshly constructed (empty) tree;
`none` when some operation never returns. -/
def applyOps {V : Type} [Inhabited V] (cfg : BPTCfg) (hdr : List (Int × V) → Int)
    (ops : List (TreeOp V)) : Option (Option (BPTree V)) :=
  ops.foldlM (applyOp cfg hdr) none

/-- Run a sequence of inserts from the freshly constructed (empty) tree. -/
def applyInserts {V : Type} (cfg : BPTCfg) (hdr : List (Int × V) → Int)
    (l : List (Int × V)) : Option (BPTree V) :=
  l.foldl (fun s kv => (insertTree cfg hdr s kv.1 kv.2).1) none

/-! ### Well-formedness

The invariants of spec §3/§8 for one node page, phrased with an interval of
admissible keys: keys of a subtree below the separator `key[i]` and a next
separator `key[i+1]` lie in `[key[i], key[i+1])`.  All predicates are
Bool-valued so that concrete instances are decidable. -/

/-- Strictly ascending list of keys. -/
def ascB : List Int → Bool
  | [] => true
  | [_] => true
  | a :: b :: t => decide (a < b) && ascB (b :: t)

def inLoB (lo : Option Int) (k : Int) : Bool :=
  match lo with
  | none => true
  | some l => decide (l ≤ k)

def inHiB (hi : Option Int) (k : Int) : Bool :=
  match hi with
  | none => true
  | some h => decide (k < h)

/-- Strict lower bound for a separator key: the separator of a child must
lie strictly above the previous separator (keys equal to the previous
separator belong to the previous child). -/
def sepLoB (lo : Option Int) (s : Int) : Bool :=
  match lo with
  | none => true
  | some l => decide (l < s)

def allInB (lo hi : Option Int) (ks : List Int) : Bool :=
  ks.all (fun k1 => inLoB lo k1 && inHiB hi k1)

mutual

/-- Well-formed subtree within the key interval `[lo, hi)`: leaf keys are
strictly ascending and inside the interval; internal pages have their
children separated by ascending in-interval separator keys; and every page
respects the size bounds (non-root pages hold at least `GetMinSize()` and
strictly fewer than `max_size_` entries; a root leaf is nonempty; a root
internal page has at least two children). -/
def wfB {V : Type} (cfg : BPTCfg) (isRoot : Bool) (lo hi : Option Int) :
    BPTree V → Bool
  | .leaf ps =>
    ascB (ps.map Prod.fst) && allInB lo hi (ps.map Prod.fst) &&
      (if isRoot then decide (1 ≤ ps.length) else decide (minSize cfg.leafMax ≤ ps.length)) &&
      decide (ps.length < cfg.leafMax)
  | .node [] => false
  | .node (e :: t) =>
    (if isRoot then decide (2 ≤ (e :: t).length)
     else decide (minSize cfg.internalMax ≤ (e :: t).length)) &&
      decide ((e :: t).length < cfg.internalMax) && wfSeqB cfg lo hi e.2 t
termination_by t => sizeOf t
decreasing_by
  have := sizeOf_snd_lt e
  simp
  omega

/-- The chain of children of an internal page: the running child is
well-formed on `[lo, s)` where `s` is the next separator, each separator
lies in `[lo, hi)`, and the last child is well-formed on `[lo, hi)`. -/
def wfSeqB {V : Type} (cfg : BPTCfg) (lo hi : Option Int) :
    BPTree V → List (Int × BPTree V) → Bool
  | c, [] => wfB cfg false lo hi c
  | c, (s, c2) :: rest =>
    sepLoB lo s && inHiB hi s && wfB cfg false lo (some s) c &&
      wfSeqB cfg (some s) hi c2 rest
termination_by c l => sizeOf c + sizeOf l
decreasing_by
  all_goals simp
  all_goals omega

end

/-- Well-formed tree state (header root id plus the forest below it). -/
def wfTreeB {V : Type} (cfg : BPTCfg) : Option (BPTree V) → Bool
  | none => true
  | some t => wfB cfg true none none t

/-- Every node except possibly the root has its size within
`[mnL, ubL)` (leaves) respectively `[mnI, ubI)` (internal pages). -/
def sizesOkB {V : Type} (mnL ubL mnI ubI : Nat) : Bool → BPTree V → Bool
  | isRoot, .leaf ps =>
    isRoot || (decide (mnL ≤ ps.length) && decide (ps.length < ubL))
  | isRoot, .node es =>
    (isRoot || (decide (mnI ≤ es.length) && decide (es.length < ubI))) &&
      es.attach.all (fun x => sizesOkB mnL ubL mnI ubI false x.1.2)
termination_by _ t => sizeOf t
decreasing_by
  have h1 := List.sizeOf_lt_of_mem x.2
  have h2 := sizeOf_snd_lt x.1
  simp
  omega

/-- The size invariant exactly as the claim states it: every non-root node
holds at least `⌈max/2⌉` and strictly fewer than `max` entries, where `max`
is the *configured* maximum (`max_size_ - 1`). -/
def claimSizesB {V : Type} (cfg : BPTCfg) : Option (BPTree V) → Bool
  | none => true
  | some t =>
    sizesOkB (minSize cfg.leafMax) (cfg.leafMax - 1)
      (minSize cfg.internalMax) (cfg.internalMax - 1) true t

/-- The amended size invariant: every non-root node holds at least
`⌈max/2⌉` and at most `max` entries (strictly fewer than `max_size_`). -/
def storedSizesB {V : Type} (cfg : BPTCfg) : Option (BPTree V) → Bool
  | none => true
  | some t =>
    sizesOkB (minSize cfg.leafMax) cfg.leafMax
      (minSize cfg.internalMax) cfg.internalMax true t

/-- Size bounds of one subtree against the stored maxima; `r = false`
means the subtree hangs below the root, so its own size is bounded too. -/
def szOkB {V : Type} (cfg : BPTCfg) (r : Bool) (t : BPTree V) : Bool :=
  sizesOkB (minSize cfg.leafMax) cfg.leafMax
    (minSize cfg.internalMax) cfg.internalMax r t

/-- Upper size bound of the root page itself (the invariant the code
maintains for the root, used to strengthen the induction: a root leaf also
stays below `leaf_max_size_` and a root internal page below
`internal_max_size_`). -/
def rootUpperB {V : Type} (cfg : BPTCfg) : BPTree V → Bool
  | .leaf ps => decide (ps.length < cfg.leafMax)
  | .node es => decide (es.length < cfg.internalMax)

/-- Lower size bound of the root page: a root internal page keeps at least
two children (it is born with two by the root split, inserts only grow it,
and the terminating remove paths never shrink an internal page). -/
def rootLowerB {V : Type} : BPTree V → Bool
  | .leaf _ => true
  | .node es => decide (2 ≤ es.length)

/-- The inductive size invariant: non-root bounds everywhere plus the
root's own bounds. -/
def treeSizeInvB {V : Type} (cfg : BPTCfg) : Option (BPTree V) → Bool
  | none => true
  | some t => szOkB cfg true t && rootUpperB cfg t && rootLowerB t

/-- Lower end of the admissible key interval of child `i` of an internal
page: the separator at slot `i`, or the page's own lower bound for the
first child (slot 0's key is dead storage). -/
def loAt {V : Type} (lo : Option Int) (es : List (Int × BPTree V)) (i : Nat) : Option Int :=
  if i = 0 then lo else some (keyAtE es i)

/-- Upper end of the admissible key interval of child `i`: the separator at
slot `i + 1`, or the page's own upper bound for the last child. -/
def hiAt {V : Type} (hi : Option Int) (es : List (Int × BPTree V)) (i : Nat) : Option Int :=
  if i + 1 < es.length then some (keyAtE es (i + 1)) else hi

/-- Indexed reading of `wfSeqB`: every child is well-formed on its slot's
key interval, and every live separator lies strictly above its predecessor
and below the page's upper bound. -/
def SeqWF {V : Type} (cfg : BPTCfg) (lo hi : Option Int)
    (es : List (Int × BPTree V)) : Prop :=
  (∀ i, i < es.length → wfB cfg false (loAt lo es i) (hiAt hi es i) (childAt es i) = true) ∧
  (∀ i, 1 ≤ i → i < es.length →
    sepLoB (loAt lo es (i - 1)) (keyAtE es i) = true ∧ inHiB hi (keyAtE es i) = true)

/-- `SeqWF` with the well-formedness of the child at slot `exc` excused
(the separator constraints still hold everywhere): the state of an internal
page while its underflowing child is being repaired. -/
def SeqWFx {V : Type} (cfg : BPTCfg) (lo hi : Option Int)
    (es : List (Int × BPTree V)) (exc : Nat) : Prop :=
  (∀ i, i < es.length → i ≠ exc →
    wfB cfg false (loAt lo es i) (hiAt hi es i) (childAt es i) = true) ∧
  (∀ i, 1 ≤ i → i < es.length →
    sepLoB (loAt lo es (i - 1)) (keyAtE es i) = true ∧ inHiB hi (keyAtE es i) = true)

/-! ### Concrete states used by the claim theorems -/

/-- A pool of one frame after `new_page → p0; unpin(p0, dirty=true);
fetch_page(p0)`: page 0 resident in frame 0, pinned once, dirty. -/
def bpmPinnedDirty : Option BufferPoolManager :=
  (newPage (initBPM 1 2)).bind fun r =>
    (unpinPage r.2.2 0 true).bind fun u =>
      (fetchPage u.2 0).map fun fr => fr.2

/-- A left leaf page holding the single pair (10, 100); slot 1 holds stale
bytes (99, 99) one past the live region. -/
def rawLeft : RawLeaf Int :=
  { data := fun i => if i = 0 then (10, 100) else (99, 99), size := 1, nextPageId := -1 }

/-- Its right sibling, holding the single pair (20, 200); all other slots
(including slot -1, which overlays the page header) hold zero bytes. -/
def rawRight : RawLeaf Int :=
  { data := fun i => if i = 0 then (20, 200) else (0, 0), size := 1, nextPageId := 3 }

/-- The buffer pool state after `new_page → p0; unpin(p0, false)` on a pool
of one frame: page 0 resident in frame 0, clean, pin count 0, its replacer
node evictable. -/
def bpmUnpinned : BufferPoolManager :=
  { poolSize := 1, pages := [{ pageId := 0, pinCount := 0, isDirty := false, data := 0 }],
    pageTable := [(0, 0)], freeList := [],
    replacer := { lessK := [{ fid := 0, history := [0], evictable := true }], moreK := [],
                  store := [0], currSize := 2, currTimestamp := 1, replacerSize := 1, k := 2 },
    nextPageId := 1, diskWrites := [] }

/-- Most recent recorded access of a node (front of the history). -/
def lastAccess (n : LRUKNode) : Nat := n.history.headD 0

/-- Number of evictable tracked nodes (what `curr_size_` is meant to count). -/
def evictableCount (r : LRUKReplacer) : Nat :=
  (r.lessK ++ r.moreK).countP (fun n => n.evictable)

/-- A list of nodes ordered by strictly decreasing most-recent access: the
order `RecordAccess` maintains for the less-than-k list (new and
re-accessed nodes are spliced to the front with a fresh timestamp). -/
def descByLastB : List LRUKNode → Bool
  | [] => true
  | [_] => true
  | a :: b :: t => decide (lastAccess b < lastAccess a) && descByLastB (b :: t)

/-- All `(key, value)` pairs stored in the leaves below a node, in leaf
order (the tree's contents). -/
def treePairs {V : Type} : BPTree V → List (Int × V)
  | .leaf ps => ps
  | .node es => (es.attach.map (fun x => treePairs x.1.2)).flatten
termination_by t => sizeOf t
decreasing_by
  have h1 := List.sizeOf_lt_of_mem x.2
  have h2 := sizeOf_snd_lt x.1
  simp
  omega

/-- Contents of a tree state. -/
def rootPairs {V : Type} : Option (BPTree V) → List (Int × V)
  | none => []
  | some t => treePairs t

/-- Lower size bounds only: every non-root node holds at least
`GetMinSize()` entries; the root bounds are the parameters `rlb` (leaf
root) and `rnb` (internal root).  With `rlb = rnb = 0` this is exactly the
validity notion of the claim ("every non-root node holding at least
min_size entries"); with `rlb = 1, rnb = 2` it adds the root conditions
maintained by the tree operations. -/
def minOkB {V : Type} (cfg : BPTCfg) (rlb rnb : Nat) : Bool → BPTree V → Bool
  | isRoot, .leaf ps => decide ((if isRoot then rlb else minSize cfg.leafMax) ≤ ps.length)
  | isRoot, .node es =>
    decide ((if isRoot then rnb else minSize cfg.internalMax) ≤ es.length) &&
      es.attach.all (fun x => minOkB cfg rlb rnb false x.1.2)
termination_by _ t => sizeOf t
decreasing_by
  have h1 := List.sizeOf_lt_of_mem x.2
  have h2 := sizeOf_snd_lt x.1
  simp
  omega

/-- Validity of a tree state. -/
def minOkTreeB {V : Type} (cfg : BPTCfg) (rlb rnb : Nat) : Option (BPTree V) → Bool
  | none => true
  | some t => minOkB cfg rlb rnb true t

/-- A replacer state with an evictable node on each list: frame 0 accessed
twice with k = 2 (at-least-k), frames 1 and 2 accessed once each. -/
def replacerW : LRUKReplacer :=
  { lessK := [{ fid := 2, history := [3], evictable := true },
              { fid := 1, history := [1], evictable := true }],
    moreK := [{ fid := 0, history := [2, 0], evictable := true }],
    store := [0, 1, 2], currSize := 3, currTimestamp := 4, replacerSize := 3, k := 2 }

/-! # Theorems -/

theorem find?_eraseP_eq_none {α : Type _} (p : α → Bool) (l : List α)
    (h : l.countP p ≤ 1) : (l.eraseP p).find? p = none := by
  induction l with
  | nil => simp
  | cons a t ih =>
    by_cases hp : p a
    · rw [List.eraseP_cons_of_pos hp]
      rw [List.countP_cons_of_pos p t hp] at h
      have ht : t.countP p = 0 := by omega
      rw [List.find?_eq_none]
      intro x hx hpx
      have := (List.countP_eq_zero.mp ht) x hx
      simp [hpx] at this
    · rw [List.eraseP_cons_of_neg hp, List.find?_cons_of_neg _ hp]
      rw [List.countP_cons_of_neg p t hp] at h
      exact ih h

theorem countP_pos_of_find? {α : Type _} {p : α → Bool} {l : List α} {x : α}
    (h : l.find? p = some x) : 1 ≤ l.countP p := by
  have hm := List.mem_of_find?_eq_some h
  have hp := List.find?_some h
  have : 0 < l.countP p := List.countP_pos_iff.mpr ⟨x, hm, hp⟩
  omega

/-- C8.  `DeletePage(p)` returns true with no state change when `p` is not
resident; returns false with no state change when resident and pinned;
otherwise it writes the frame back iff dirty, removes `p` from the page
table, removes the frame's replacer node, resets the frame's buffer, pin
count and dirty flag, pushes the frame onto the free list, and returns true.
The third part carries the state-sanity hypotheses that hold in every
reachable pool: the frame index is in range, the replacer tracks it with an
evictable node on the list matching its history length, and page table and
replacer lists hold no duplicate entries for this page/frame. -/
theorem deletePage_spec (b : BufferPoolManager) (pid : Int) :
    (tableLookup b pid = none → deletePage b pid = some (true, b)) ∧
    (∀ f, tableLookup b pid = some f → 0 < (pageAt b f).pinCount →
      deletePage b pid = some (false, b)) ∧
    (∀ f inLess n, tableLookup b pid = some f → (pageAt b f).pinCount ≤ 0 →
      f < b.pages.length → f < b.replacer.replacerSize → f ∈ b.replacer.store →
      locate b.replacer f = some (inLess, n) → n.evictable = true →
      (if inLess then n.history.length < b.replacer.k else b.replacer.k ≤ n.history.length) →
      (b.replacer.lessK ++ b.replacer.moreK).countP (fun m => m.fid == f) ≤ 1 →
      b.pageTable.countP (fun e => e.1 == pid) ≤ 1 →
      (deletePage b pid).map (fun r =>
          (r.1, tableLookup r.2 pid, r.2.freeList, pageAt r.2 f, locate r.2.replacer f,
            r.2.diskWrites)) =
        some (true, none, b.freeList ++ [f],
          { pageId := (pageAt b f).pageId, pinCount := 0, isDirty := false, data := 0 },
          none,
          if (pageAt b f).isDirty then b.diskWrites ++ [(pid, (pageAt b f).data)]
          else b.diskWrites)) := by
  refine ⟨fun h => ?_, fun f hf hpin => ?_,
    fun f inLess n hf hpin hfl hfr hst hloc hev hk hcnt htb => ?_⟩
  · simp [deletePage, h]
  · simp [deletePage, hf, hpin]
  · have hcl : b.replacer.lessK.countP (fun m => m.fid == f) +
        b.replacer.moreK.countP (fun m => m.fid == f) ≤ 1 := by
      rw [← List.countP_append]
      exact hcnt
    have hfr' : ¬ b.replacer.replacerSize ≤ f := by omega
    have hremove : removeFrame b.replacer f =
        some (if inLess then
          { b.replacer with lessK := eraseNode b.replacer.lessK f, currSize := b.replacer.currSize - 1 }
        else
          { b.replacer with moreK := eraseNode b.replacer.moreK f, currSize := b.replacer.currSize - 1 }) := by
      cases inLess with
      | true =>
        simp only [if_pos] at hk ⊢
        simp [removeFrame, hfr', hst, hloc, hev, Nat.not_le.mpr hk]
      | false =>
        simp only [Bool.false_eq_true, if_false] at hk ⊢
        simp [removeFrame, hfr', hst, hloc, hev, hk]
    have hfindL : inLess = true →
        ∃ m, b.replacer.lessK.find? (fun x => x.fid == f) = some m := by
      intro hless
      rw [locate] at hloc
      cases hfind : b.replacer.lessK.find? (fun x => x.fid == f) with
      | none =>
        rw [hfind] at hloc
        cases hfind2 : b.replacer.moreK.find? (fun x => x.fid == f) with
        | none => rw [hfind2] at hloc; exact absurd hloc (by simp)
        | some m => rw [hfind2] at hloc; simp at hloc; simp [hless] at hloc
      | some m => exact ⟨m, rfl⟩
    have hfindM : inLess = false →
        (b.replacer.lessK.find? (fun x => x.fid == f) = none ∧
          ∃ m, b.replacer.moreK.find? (fun x => x.fid == f) = some m) := by
      intro hless
      rw [locate] at hloc
      cases hfind : b.replacer.lessK.find? (fun x => x.fid == f) with
      | none =>
        refine ⟨rfl, ?_⟩
        rw [hfind] at hloc
        cases hfind2 : b.replacer.moreK.find? (fun x => x.fid == f) with
        | none => rw [hfind2] at hloc; exact absurd hloc (by simp)
        | some m => exact ⟨m, rfl⟩
      | some m => rw [hfind] at hloc; simp at hloc; simp [hloc.1] at hless
    have hlocnone : locate (if inLess then
          { b.replacer with lessK := eraseNode b.replacer.lessK f, currSize := b.replacer.currSize - 1 }
        else
          { b.replacer with moreK := eraseNode b.replacer.moreK f, currSize := b.replacer.currSize - 1 }) f
        = none := by
      cases inLess with
      | true =>
        obtain ⟨m, hm⟩ := hfindL rfl
        have h1 : 1 ≤ b.replacer.lessK.countP (fun x => x.fid == f) := countP_pos_of_find? hm
        have hmk : b.replacer.moreK.countP (fun x => x.fid == f) = 0 := by omega
        have hmknone : b.replacer.moreK.find? (fun x => x.fid == f) = none := by
          rw [List.find?_eq_none]
          intro x hx hpx
          have := (List.countP_eq_zero.mp hmk) x hx
          simp [hpx] at this
        simp only [if_pos, locate, eraseNode]
        rw [find?_eraseP_eq_none _ _ (by omega), hmknone]
      | false =>
        obtain ⟨hln, m, hm⟩ := hfindM rfl
        simp only [Bool.false_eq_true, if_false, locate, eraseNode]
        rw [hln, find?_eraseP_eq_none _ _ (by omega)]
    have htbnone : (b.pageTable.eraseP (fun e => e.1 == pid)).find? (fun e => e.1 == pid)
        = none := find?_eraseP_eq_none _ _ htb
    by_cases hd : (pageAt b f).isDirty
    · simp only [deletePage, hf]
      rw [if_neg (by omega : ¬ 0 < (pageAt b f).pinCount)]
      simp only [hd, if_true, logWrite, tableErase, setPageAt]
      rw [hremove]
      simp only [Option.map_some', Option.some.injEq, Prod.mk.injEq]
      refine ⟨by trivial, ?_, by trivial, ?_, ?_, by trivial⟩
      · simp [tableLookup, htbnone]
      · rw [pageAt]
        rw [List.getD_eq_getElem _ _ (by simpa using hfl)]
        simp [List.getElem_set_self]
      · exact hlocnone
    · have hd' : (pageAt b f).isDirty = false := by simpa using hd
      simp only [deletePage, hf]
      rw [if_neg (by omega : ¬ 0 < (pageAt b f).pinCount)]
      simp only [hd', Bool.false_eq_true, if_false, tableErase, setPageAt]
      rw [hremove]
      simp only [Option.map_some', Option.some.injEq, Prod.mk.injEq]
      refine ⟨by trivial, ?_, by trivial, ?_, ?_, by trivial⟩
      · simp [tableLookup, htbnone]
      · rw [pageAt]
        rw [List.getD_eq_getElem _ _ (by simpa using hfl)]
        simp [List.getElem_set_self]
      · exact hlocnone

/-- Witness for C8: deleting page 0 from `bpmUnpinned` (resident, clean,
unpinned frame 0). -/
theorem deletePage_spec_witness :
    (deletePage bpmUnpinned 0).map (fun r =>
        (r.1, tableLookup r.2 0, r.2.freeList, pageAt r.2 0, locate r.2.replacer 0,
          r.2.diskWrites)) =
      some (true, none, bpmUnpinned.freeList ++ [0],
        { pageId := (pageAt bpmUnpinned 0).pageId, pinCount := 0, isDirty := false, data := 0 },
        none,
        if (pageAt bpmUnpinned 0).isDirty then
          bpmUnpinned.diskWrites ++ [(0, (pageAt bpmUnpinned 0).data)]
        else bpmUnpinned.diskWrites) :=
  (deletePage_spec bpmUnpinned 0).2.2 0 true { fid := 0, history := [0], evictable := true }
    rfl (by decide) (by decide) (by decide) (by decide) rfl rfl (by decide) (by decide) (by decide)


/-- C3.  The claim says `UnpinPage(p, is_dirty)` sets the frame's dirty flag
to the OR of its previous value and `is_dirty`, so unpinning with `false`
must leave an already-dirty frame dirty.  The code
(buffer_pool_manager.cpp line 140) executes `page->is_dirty_ = is_dirty;`,
a plain assignment: on the reachable state `bpmPinnedDirty` (frame dirty,
pin count 1), `UnpinPage(0, false)` returns true, drops the pin to 0, and
clears the dirty flag. -/
theorem unpin_false_clears_dirty_flag :
    bpmPinnedDirty.map (fun b => (pageAt b 0).isDirty) = some true ∧
    bpmPinnedDirty.bind (fun b => (unpinPage b 0 false).map fun u =>
      (u.1, (pageAt u.2 0).pinCount, (pageAt u.2 0).isDirty)) = some (true, 0, false) := by
  exact ⟨rfl, rfl⟩

/-- C4.  The claim: `MergeToRight` on a left leaf with `a` pairs and a right
sibling with `b` pairs leaves the right page with the left's `a` pairs
followed by the right's `b` pairs in slots `0..a+b-1`, touching no other
slot.  The code's second copy loop starts at `i = GetSize()` instead of
`GetSize() - 1`: with `a = b = 1` the result drops the left page's pair
from the live region (slot 0 receives one-past-the-end stale bytes instead)
and stores the left page's pair at slot `-1`, which overlays the right
page's header. -/
theorem mergeToRight_misplaces_pairs :
    (mergeToRight rawLeft rawRight).size = 2 ∧
    (mergeToRight rawLeft rawRight).data 0 = (99, 99) ∧
    (mergeToRight rawLeft rawRight).data 1 = (20, 200) ∧
    (mergeToRight rawLeft rawRight).data (-1) = (10, 100) ∧
    rawRight.data (-1) = (0, 0) := by
  exact ⟨rfl, rfl, rfl, rfl, rfl⟩

/-- C6.  The claim: every replacer operation preserves "frame in the node
map iff its node is on exactly one list", and after `Remove(f)` the frame is
untracked, so a following `RecordAccess(f)` creates a fresh node.
The code of `Remove` erases the list node but never calls
`node_store_.erase(frame_id)`: after `RecordAccess(0); Remove(0)` the map
still contains frame 0 while both lists are empty, and the next
`RecordAccess(0)` takes the existing-node branch and dereferences the
dangling iterator instead of creating a node. -/
theorem remove_leaves_dangling_store_entry :
    (((recordAccess (initReplacer 2 2) 0).bind fun r1 => removeFrame r1 0).map
      (fun r => (r.store, r.lessK.length, r.moreK.length)) = some ([0], 0, 0)) ∧
    (((recordAccess (initReplacer 2 2) 0).bind fun r1 => removeFrame r1 0).bind
      (fun r => recordAccess r 0)) = none := by
  exact ⟨rfl, rfl⟩

/-- C7.  The claim: `FlushAllPages` writes exactly the resident frames and
no `write_page` is issued for a free-list frame (page id INVALID).  The
code loops over all `pool_size` frames unconditionally: on a freshly
constructed pool of one frame (frame 0 free, `page_id_ = -1`),
`FlushAllPages` issues `write_page(-1, ...)`. -/
theorem flushAll_writes_free_frames :
    (initBPM 1 2).freeList = [0] ∧
    (pageAt (initBPM 1 2) 0).pageId = -1 ∧
    (flushAllPages (initBPM 1 2)).diskWrites = [(-1, 0)] := by
  exact ⟨rfl, rfl, rfl⟩

/-- C9.  The claim: with the free list empty and no evictable frame,
`NewPage` returns null and stores INVALID; in particular with
`pool_size = 1`, `new_page → p0` (pinned) followed by `new_page` returns
null.  In the code, the first `new_page` calls
`RecordAccessAndSetEvictable(0, false)`, whose new-node branch increments
`curr_size_` and then clears the evictable flag without decrementing, so
the second `new_page` enters `Evict` with `curr_size_ = 1` and the backward
scan of the less-than-k list never finds an evictable node and overruns
`rend()` — undefined behaviour (modelled `none`) instead of a null return. -/
theorem second_newPage_overruns_replacer_scan :
    ((newPage (initBPM 1 2)).map (fun r =>
      (r.1, r.2.1, (pageAt r.2.2 0).pinCount, r.2.2.replacer.currSize,
        r.2.2.replacer.lessK.map (fun n => n.evictable)))) =
      some (some 0, 0, 1, 1, [false]) ∧
    (newPage (initBPM 1 2)).bind (fun r => newPage r.2.2) = none := by
  exact ⟨rfl, rfl⟩

theorem descByLastB_tail {a : LRUKNode} {t : List LRUKNode}
    (h : descByLastB (a :: t) = true) : descByLastB t = true := by
  cases t with
  | nil => rfl
  | cons b t' =>
    rw [descByLastB] at h
    exact (Bool.and_eq_true_iff.mp h).2

theorem descByLastB_head {a : LRUKNode} {t : List LRUKNode}
    (h : descByLastB (a :: t) = true) : ∀ u ∈ t, lastAccess u < lastAccess a := by
  induction t generalizing a with
  | nil => intro u hu; simp at hu
  | cons b t' ih =>
    intro u hu
    rw [descByLastB] at h
    have h' := Bool.and_eq_true_iff.mp h
    have hba : lastAccess b < lastAccess a := of_decide_eq_true h'.1
    rcases List.mem_cons.mp hu with rfl | hu'
    · exact hba
    · exact lt_trans (ih h'.2 u hu') hba

/-- The backward scan of the less-than-k list finds its last evictable
node; under the maintained recency order that is the evictable node whose
most recent access is oldest. -/
theorem reverse_find?_evictable {l : List LRUKNode}
    (hdesc : descByLastB l = true) (hex : ∃ n ∈ l, n.evictable = true) :
    ∃ v, l.reverse.find? (fun n => n.evictable) = some v ∧ v ∈ l ∧ v.evictable = true ∧
      ∀ u ∈ l, u.evictable = true → lastAccess v ≤ lastAccess u := by
  induction l with
  | nil => simp at hex
  | cons a t ih =>
    by_cases ht : ∃ n ∈ t, n.evictable = true
    · obtain ⟨v, hfind, hmem, hev, hmin⟩ := ih (descByLastB_tail hdesc) ht
      refine ⟨v, ?_, List.mem_cons_of_mem _ hmem, hev, ?_⟩
      · rw [List.reverse_cons, List.find?_append, hfind]
        rfl
      · intro u hu huev
        rcases List.mem_cons.mp hu with rfl | hu'
        · have := descByLastB_head hdesc v hmem
          omega
        · exact hmin u hu' huev
    · have haev : a.evictable = true := by
        obtain ⟨n, hn, hnev⟩ := hex
        rcases List.mem_cons.mp hn with rfl | hn'
        · exact hnev
        · exact absurd ⟨n, hn', hnev⟩ ht
      have htnone : t.reverse.find? (fun n => n.evictable) = none := by
        rw [List.find?_eq_none]
        intro x hx hpx
        exact ht ⟨x, List.mem_reverse.mp hx, hpx⟩
      refine ⟨a, ?_, List.mem_cons_self a t, haev, ?_⟩
      · rw [List.reverse_cons, List.find?_append, htnone]
        simp [haev]
      · intro u hu huev
        rcases List.mem_cons.mp hu with rfl | hu'
        · exact le_refl _
        · exact absurd ⟨u, hu', huev⟩ ht

/-- The selection loop over the at-least-k list returns a member; when an
evictable node exists it returns an evictable node of minimal
`GetKHistory`. -/
theorem selectMoreK_spec (h : LRUKNode) (t : List LRUKNode) :
    selectMoreK h t ∈ h :: t ∧
      ((∃ u ∈ h :: t, u.evictable = true) →
        (selectMoreK h t).evictable = true ∧
          ∀ u ∈ h :: t, u.evictable = true → kHistory (selectMoreK h t) ≤ kHistory u) := by
  induction t generalizing h with
  | nil =>
    refine ⟨List.mem_cons_self h [], fun hex => ?_⟩
    obtain ⟨u, hu, huev⟩ := hex
    have hu' : u = h := by simpa using hu
    subst hu'
    refine ⟨by simpa [selectMoreK] using huev, ?_⟩
    intro u2 hu2 _
    have hu2' : u2 = u := by simpa using hu2
    subst hu2'
    exact le_refl _
  | cons c t' ih =>
    have hstep : selectMoreK h (c :: t') = selectMoreK
        (if c.evictable && (decide (kHistory c < kHistory h) || !h.evictable) then c else h) t' := by
      rw [selectMoreK, selectMoreK, List.foldl_cons]
    by_cases hcond : (c.evictable && (decide (kHistory c < kHistory h) || !h.evictable)) = true
    · rw [hstep, if_pos hcond]
      obtain ⟨hmem, hmin⟩ := ih c
      constructor
      · rcases List.mem_cons.mp hmem with hh | hh
        · rw [hh]; exact List.mem_cons_of_mem _ (List.mem_cons_self c t')
        · exact List.mem_cons_of_mem _ (List.mem_cons_of_mem _ hh)
      · intro _
        have hcev : c.evictable = true := (Bool.and_eq_true_iff.mp hcond).1
        obtain ⟨hev, hmin'⟩ := hmin ⟨c, List.mem_cons_self c t', hcev⟩
        refine ⟨hev, ?_⟩
        intro u hu huev
        rcases List.mem_cons.mp hu with rfl | hu'
        · -- u = h: either h not evictable (vacuous use) or kHistory c < kHistory h
          have hor := (Bool.and_eq_true_iff.mp hcond).2
          rcases Bool.or_eq_true_iff.mp hor with hlt | hne
          · have hch : kHistory c < kHistory u := of_decide_eq_true hlt
            have := hmin' c (List.mem_cons_self c t') hcev
            omega
          · rw [Bool.not_eq_true'] at hne
            rw [hne] at huev
            exact absurd huev (by simp)
        · exact hmin' u hu' huev
    · rw [hstep, if_neg hcond]
      obtain ⟨hmem, hmin⟩ := ih h
      constructor
      · rcases List.mem_cons.mp hmem with hh | hh
        · rw [hh]; exact List.mem_cons_self h _
        · exact List.mem_cons_of_mem _ (List.mem_cons_of_mem _ hh)
      · intro hex
        have hne : c.evictable = false ∨ (h.evictable = true ∧ kHistory h ≤ kHistory c) := by
          by_cases hc : c.evictable = true
          · right
            have : ¬ (decide (kHistory c < kHistory h) || !h.evictable) = true := by
              intro hx
              exact hcond (by rw [Bool.and_eq_true_iff]; exact ⟨hc, hx⟩)
            rw [Bool.or_eq_true_iff] at this
            push_neg at this
            obtain ⟨h1, h2⟩ := this
            refine ⟨by simpa using h2, ?_⟩
            have := of_decide_eq_false (Bool.not_eq_true _ ▸ h1 : decide (kHistory c < kHistory h) = false)
            omega
          · exact Or.inl (by simpa using hc)
        have hex' : ∃ u ∈ h :: t', u.evictable = true := by
          obtain ⟨u, hu, huev⟩ := hex
          rcases List.mem_cons.mp hu with rfl | hu'
          · exact ⟨u, List.mem_cons_self u t', huev⟩
          · rcases List.mem_cons.mp hu' with rfl | hu''
            · rcases hne with hc | ⟨hh1, _⟩
              · rw [hc] at huev; exact absurd huev (by simp)
              · exact ⟨h, List.mem_cons_self h t', hh1⟩
            · exact ⟨u, List.mem_cons_of_mem _ hu'', huev⟩
        obtain ⟨hev, hmin'⟩ := hmin hex'
        refine ⟨hev, ?_⟩
        intro u hu huev
        rcases List.mem_cons.mp hu with rfl | hu'
        · exact hmin' u (List.mem_cons_self u t') huev
        · rcases List.mem_cons.mp hu' with rfl | hu''
          · rcases hne with hc | ⟨hh1, hh2⟩
            · rw [hc] at huev; exact absurd huev (by simp)
            · have := hmin' h (List.mem_cons_self h t') hh1
              omega
          · exact hmin' u (List.mem_cons_of_mem _ hu'') huev

theorem eraseNode_fid_notin {l : List LRUKNode} {v : LRUKNode}
    (hnd : (l.map LRUKNode.fid).Nodup) (hv : v ∈ l) :
    ∀ m ∈ eraseNode l v.fid, m.fid ≠ v.fid := by
  induction l with
  | nil => simp [eraseNode]
  | cons a t ih =>
    rw [List.map_cons, List.nodup_cons] at hnd
    by_cases ha : (a.fid == v.fid) = true
    · rw [eraseNode, List.eraseP_cons]
      simp only [ha, cond_true]
      intro m hm hmv
      have hav : a.fid = v.fid := by simpa using ha
      exact hnd.1 (by rw [hav, ← hmv]; exact List.mem_map_of_mem _ hm)
    · rw [eraseNode, List.eraseP_cons]
      have ha' : (a.fid == v.fid) = false := by simpa using ha
      simp only [ha', cond_false]
      intro m hm
      rcases List.mem_cons.mp hm with rfl | hm'
      · simpa using ha
      · have hvt : v ∈ t := by
          rcases List.mem_cons.mp hv with rfl | h2
          · exact absurd (by simp : (v.fid == v.fid) = true) ha
          · exact h2
        exact ih hnd.2 hvt m hm'

/-- C2 counterexample.  With `k = 3` run `RecordAccess(0); RecordAccess(1);
RecordAccess(0)`.  Both frames are evictable with fewer than `k` recorded
accesses (backward k-distance +∞); the claim breaks the tie by the earliest
oldest recorded access, which picks frame 0 (oldest access 0 versus frame
1's oldest access 1).  The code keeps the less-than-k list in
most-recently-accessed-first order (`[0 (history [2,0]), 1 (history [1])]`)
and scans it from the back, so `Evict` returns frame 1. -/
theorem evict_tiebreak_counterexample :
    ((recordAccess (initReplacer 2 3) 0).bind fun a =>
      (recordAccess a 1).bind fun b => recordAccess b 0).map
        (fun r => ((evict r).map Prod.fst,
          r.lessK.map (fun n => (n.fid, n.history, n.evictable)), r.moreK.length))
      = some (some (some 1), [(0, [2, 0], true), (1, [1], true)], 0) := by
  rfl

/-- C2 (amended).  For a replacer state whose `curr_size_` agrees with the
number of evictable nodes, whose less-than-k list is in
most-recently-accessed-first order with no duplicate frame ids: if no
evictable node exists, `Evict` fails and changes nothing; if one exists and
the less-than-k list, when nonempty, holds at least one evictable node
(otherwise the backward scan overruns the list), `Evict` succeeds and
removes the victim; the victim is the evictable less-than-k node whose most
recent access is oldest when that list is nonempty, and otherwise the
evictable at-least-k node whose k-th most recent access timestamp
(`GetKHistory`) is smallest. -/
theorem evict_spec (r : LRUKReplacer)
    (hsize : r.currSize = (evictableCount r : Int))
    (hdesc : descByLastB r.lessK = true)
    (hnd : ((r.lessK ++ r.moreK).map LRUKNode.fid).Nodup)
    (hscan : r.lessK = [] ∨ ∃ n ∈ r.lessK, n.evictable = true) :
    (evictableCount r = 0 → evict r = some (none, r)) ∧
    (0 < evictableCount r →
      ∃ v r', evict r = some (some v.fid, r') ∧ v.evictable = true ∧
        (r.lessK ≠ [] →
          v ∈ r.lessK ∧ ∀ u ∈ r.lessK, u.evictable = true → lastAccess v ≤ lastAccess u) ∧
        (r.lessK = [] →
          v ∈ r.moreK ∧ ∀ u ∈ r.moreK, u.evictable = true → kHistory v ≤ kHistory u) ∧
        (∀ m ∈ r'.lessK ++ r'.moreK, m.fid ≠ v.fid) ∧
        r'.currSize = r.currSize - 1 ∧ r'.store = r.store.erase v.fid) := by
  have hndL : (r.lessK.map LRUKNode.fid).Nodup := by
    rw [List.map_append, List.nodup_append] at hnd
    exact hnd.1
  have hndM : (r.moreK.map LRUKNode.fid).Nodup := by
    rw [List.map_append, List.nodup_append] at hnd
    exact hnd.2.1
  have hdisj : ∀ x ∈ r.lessK.map LRUKNode.fid, x ∉ r.moreK.map LRUKNode.fid := by
    rw [List.map_append, List.nodup_append] at hnd
    exact fun x hx hy => hnd.2.2 hx hy
  constructor
  · intro h0
    rw [evict, if_pos (by rw [hsize, h0]; rfl)]
  · intro hpos
    have hnz : ¬ r.currSize ≤ 0 := by
      rw [hsize]
      omega
    by_cases hemp : r.lessK = []
    · have hmk : ∃ n ∈ r.moreK, n.evictable = true := by
        have hc : 0 < r.moreK.countP (fun n => n.evictable) := by
          have h2 := hpos
          rw [evictableCount, hemp, List.nil_append] at h2
          exact h2
        obtain ⟨x, hx, hpx⟩ := List.countP_pos_iff.mp hc
        exact ⟨x, hx, hpx⟩
      have hmne : r.moreK ≠ [] := by
        obtain ⟨n, hn, _⟩ := hmk
        exact List.ne_nil_of_mem hn
      obtain ⟨mn, mt, hmK⟩ := List.exists_cons_of_ne_nil hmne
      obtain ⟨hmem, hsel⟩ := selectMoreK_spec mn mt
      obtain ⟨hev, hmin⟩ := hsel (hmK ▸ hmk)
      refine ⟨selectMoreK mn mt,
        { r with moreK := eraseNode r.moreK (selectMoreK mn mt).fid, store := r.store.erase (selectMoreK mn mt).fid, currSize := r.currSize - 1 },
        ?_, hev, fun hne => absurd hemp hne, fun _ => ?_, ?_, ?_, ?_⟩
      · simp only [evict, hemp, hmK, if_neg hnz]
        rw [if_pos hev]
      · rw [hmK]
        exact ⟨hmem, hmin⟩
      · intro m hm
        rcases List.mem_append.mp hm with hm1 | hm1
        · rw [hemp] at hm1
          simp [eraseNode] at hm1
        · have hmemr : selectMoreK mn mt ∈ r.moreK := by rw [hmK]; exact hmem
          exact eraseNode_fid_notin hndM hmemr m (by simpa using hm1)
      · rfl
      · rfl
    · have hex : ∃ n ∈ r.lessK, n.evictable = true := by
        rcases hscan with h | h
        · exact absurd h hemp
        · exact h
      obtain ⟨ln, lt, hlK⟩ := List.exists_cons_of_ne_nil hemp
      obtain ⟨v, hfind, hmem, hev, hmin⟩ := reverse_find?_evictable hdesc hex
      refine ⟨v,
        { r with lessK := eraseNode r.lessK v.fid, store := r.store.erase v.fid, currSize := r.currSize - 1 },
        ?_, hev, fun _ => ⟨hmem, hmin⟩, fun h2 => absurd h2 hemp, ?_, ?_, ?_⟩
      · have hfind' : List.find? (fun n => n.evictable) (ln :: lt).reverse = some v := by
          rw [← hlK]
          exact hfind
        simp only [evict, hlK, if_neg hnz, hfind']
      · intro m hm
        rcases List.mem_append.mp hm with hm1 | hm1
        · exact eraseNode_fid_notin hndL hmem m (by simpa using hm1)
        · intro hmv
          exact hdisj v.fid (List.mem_map_of_mem _ hmem)
            (by rw [← hmv]; exact List.mem_map_of_mem _ (by simpa using hm1))
      · rfl
      · rfl

/-- Witness for C2: `evict_spec` applied to `replacerW`. -/
theorem evict_spec_witness :
    ∃ v r', evict replacerW = some (some v.fid, r') ∧ v.evictable = true ∧
      (replacerW.lessK ≠ [] →
        v ∈ replacerW.lessK ∧
          ∀ u ∈ replacerW.lessK, u.evictable = true → lastAccess v ≤ lastAccess u) ∧
      (replacerW.lessK = [] →
        v ∈ replacerW.moreK ∧
          ∀ u ∈ replacerW.moreK, u.evictable = true → kHistory v ≤ kHistory u) ∧
      (∀ m ∈ r'.lessK ++ r'.moreK, m.fid ≠ v.fid) ∧
      r'.currSize = replacerW.currSize - 1 ∧ r'.store = replacerW.store.erase v.fid :=
  (evict_spec replacerW (by decide) (by decide) (by decide)
    (Or.inr ⟨{ fid := 2, history := [3], evictable := true }, by decide, rfl⟩)).2 (by decide)

theorem set_getElem_self {α : Type _} (l : List α) (i : Nat) (h : i < l.length) :
    l.set i l[i] = l := by
  apply List.ext_getElem
  · simp
  · intro n h1 h2
    rw [List.getElem_set]
    split
    · rename_i heq
      subst heq
      rfl
    · rfl

theorem childAt_eq_getElem {V : Type} (es : List (Int × BPTree V)) (i : Nat)
    (h : i < es.length) : childAt es i = es[i].2 := by
  rw [childAt, List.getD_eq_getElem es _ h]

theorem keyAtE_eq_getElem {V : Type} (es : List (Int × BPTree V)) (i : Nat)
    (h : i < es.length) : keyAtE es i = es[i].1 := by
  rw [keyAtE, List.getD_eq_getElem es _ h]

theorem set_keyCh_self {V : Type} (es : List (Int × BPTree V)) (i : Nat)
    (h : i < es.length) : es.set i (keyAtE es i, childAt es i) = es := by
  rw [keyAtE_eq_getElem es i h, childAt_eq_getElem es i h, Prod.mk.eta, set_getElem_self es i h]

theorem internalUB_pred_lt {V : Type} (e : Int × BPTree V) (t : List (Int × BPTree V))
    (k : Int) : internalUB (e :: t) k - 1 < (e :: t).length := by
  have hub := internalUB_le e t k
  simp only [List.length_cons] at hub ⊢
  omega

theorem head_drop_takeWhile {α : Type _} (p : α → Bool) (l : List α) :
    ∀ x ∈ (l.drop (l.takeWhile p).length).head?, ¬ p x = true := by
  induction l with
  | nil => simp
  | cons a t ih =>
    by_cases hp : p a = true
    · simp only [List.takeWhile_cons_of_pos hp, List.length_cons, List.drop_succ_cons]
      exact ih
    · simp only [List.takeWhile_cons_of_neg hp, List.length_nil, List.drop_zero]
      intro x hx
      simp only [List.head?_cons, Option.mem_def, Option.some.injEq] at hx
      rw [← hx]
      exact hp

theorem leafDelete_absent {V : Type} {ps : List (Int × V)} {k : Int}
    (h : ∀ p ∈ ps, p.1 ≠ k) : leafDelete ps k = ps := by
  have hnil : ((ps.drop ((ps.takeWhile (fun p => p.1 < k)).length)).takeWhile
      (fun p => p.1 ≤ k)) = [] := by
    cases hrest : ps.drop ((ps.takeWhile (fun p => decide (p.1 < k))).length) with
    | nil => rfl
    | cons r0 rt =>
      have hhd := head_drop_takeWhile (fun p => decide (p.1 < k)) ps r0
      rw [hrest] at hhd
      have hnlt : ¬ (r0.1 < k) := by
        have := hhd (by simp)
        simpa using this
      have hmem : r0 ∈ ps := by
        have : r0 ∈ ps.drop ((ps.takeWhile (fun p => decide (p.1 < k))).length) := by
          rw [hrest]
          exact List.mem_cons_self r0 rt
        exact List.drop_subset _ ps this
      have hne := h r0 hmem
      rw [List.takeWhile_cons_of_neg (by simp; omega)]
  simp only [leafDelete, hnil, List.length_nil, Nat.add_zero, List.take_append_drop]

theorem treePairs_child_mem {V : Type} (es : List (Int × BPTree V)) (i : Nat)
    (h : i < es.length) {p : Int × V} (hp : p ∈ treePairs (childAt es i)) :
    p ∈ treePairs (BPTree.node es) := by
  rw [treePairs, List.mem_flatten]
  refine ⟨treePairs (childAt es i), ?_, hp⟩
  rw [childAt_eq_getElem es i h]
  have hm := List.mem_attach es ⟨es[i], List.getElem_mem h⟩
  exact List.mem_map_of_mem _ hm

theorem minOkB_node_parts {V : Type} {cfg : BPTCfg} {rlb rnb : Nat} {isRoot : Bool}
    {es : List (Int × BPTree V)} (h : minOkB cfg rlb rnb isRoot (.node es) = true) :
    ((if isRoot then rnb else minSize cfg.internalMax) ≤ es.length) ∧
      ∀ x ∈ es, minOkB cfg rlb rnb false x.2 = true := by
  rw [minOkB, Bool.and_eq_true_iff] at h
  refine ⟨by simpa using h.1, ?_⟩
  intro x hx
  have := List.all_eq_true.mp h.2 ⟨x, hx⟩ (List.mem_attach es ⟨x, hx⟩)
  simpa using this

theorem minOkB_leaf_len {V : Type} {cfg : BPTCfg} {rlb rnb : Nat} {isRoot : Bool}
    {ps : List (Int × V)} (h : minOkB cfg rlb rnb isRoot (.leaf ps) = true) :
    (if isRoot then rlb else minSize cfg.leafMax) ≤ ps.length := by
  rw [minOkB] at h
  simpa using h

/-- Key step for C10: on a nonempty internal entry list whose children are
valid and none of whose stored keys equals `k`, one RemoveRecursively step
returns the list unchanged. -/
theorem removeNodeStep_absent {V : Type} [Inhabited V] (cfg : BPTCfg) (k : Int)
    (hmin : 1 ≤ minSize cfg.internalMax) :
    ∀ n (es : List (Int × BPTree V)), sizeOf es ≤ n → es ≠ [] →
      (∀ x ∈ es, minOkB cfg 1 2 false x.2 = true) →
      (∀ x ∈ es, ∀ p ∈ treePairs x.2, p.1 ≠ k) →
      removeNodeStep cfg es k = some es := by
  intro n
  induction n with
  | zero =>
    intro es hsz hne _ _
    cases es with
    | nil => exact absurd rfl hne
    | cons a t => simp at hsz
  | succ n ih =>
    intro es hsz hne hch habs
    obtain ⟨e, t, rfl⟩ := List.exists_cons_of_ne_nil hne
    have hidx := internalUB_pred_lt e t k
    have hxmem : (e :: t)[internalUB (e :: t) k - 1] ∈ e :: t := List.getElem_mem hidx
    have hcheq : childAt (e :: t) (internalUB (e :: t) k - 1)
        = (e :: t)[internalUB (e :: t) k - 1].2 := childAt_eq_getElem _ _ hidx
    rw [removeNodeStep]
    split
    next ps hct =>
      have hvch := hch _ hxmem
      rw [← hcheq, hct] at hvch
      have habs' : ∀ p ∈ ps, p.1 ≠ k := by
        intro p hp
        have h2 := habs _ hxmem p
        rw [← hcheq, hct] at h2
        exact h2 (by rw [treePairs]; exact hp)
      have hld : leafDelete ps k = ps := leafDelete_absent habs'
      have hlen : minSize cfg.leafMax ≤ ps.length := by simpa using minOkB_leaf_len hvch
      simp only [leafChildStep]
      rw [hld, if_pos hlen, ← hct, set_keyCh_self _ _ hidx]
    next ces hct =>
      have hvch := hch _ hxmem
      rw [← hcheq, hct] at hvch
      obtain ⟨hclen, hcch⟩ := minOkB_node_parts hvch
      have hclen' : minSize cfg.internalMax ≤ ces.length := by simpa using hclen
      have hcne : ces ≠ [] := by
        intro hnil
        rw [hnil] at hclen'
        simp at hclen'
        omega
      have hsz2 : sizeOf ces ≤ n := by
        have h1 := sizeOf_childAt_lt (e :: t) (internalUB (e :: t) k - 1) hidx
        rw [hct] at h1
        simp at h1 hsz
        omega
      have habs2 : ∀ x ∈ ces, ∀ p ∈ treePairs x.2, p.1 ≠ k := by
        intro x hx p hp
        have h2 := habs _ hxmem p
        rw [← hcheq, hct] at h2
        apply h2
        have hi : ∃ i, ∃ hi : i < ces.length, ces[i] = x := List.mem_iff_getElem.mp hx
        obtain ⟨i, hilt, rfl⟩ := hi
        exact treePairs_child_mem ces i hilt (by rw [childAt_eq_getElem ces i hilt]; exact hp)
      have hstep := ih ces hsz2 hcne hcch habs2
      have hrec : removeRec cfg (BPTree.node ces) k = some (BPTree.node ces) := by
        rw [removeRec.eq_def]
        simp only [hstep]
        exact if_pos hclen'
      simp only [hrec]
      rw [← hct, set_keyCh_self _ _ hidx]

/-- C10 counterexample.  The claim's own notion of validity only bounds
non-root nodes, so a one-child internal root above a healthy leaf is a
valid state (with configured leaf max 1 the leaf min size is 1).  Removing
the absent key 3 from that state triggers the code's root-collapse branch
(b_plus_tree.cpp lines 741-748): the root internal page has size 1 < 2, so
the header's root_page_id is redirected to the only child and the old root
page is freed — the state changes although the key was absent. -/
theorem remove_absent_changes_degenerate_root :
    minOkTreeB (treeCfg 1 3) 0 0
      (some (BPTree.node [(0, BPTree.leaf [(5, (55 : Int))])])) = true ∧
    (rootPairs (some (BPTree.node [(0, BPTree.leaf [(5, (55 : Int))])]))).map Prod.fst = [5] ∧
    removeTree (treeCfg 1 3) (some (BPTree.node [(0, BPTree.leaf [(5, (55 : Int))])])) 3
      = some (some (BPTree.leaf [(5, (55 : Int))])) ∧
    some (some (BPTree.leaf [(5, (55 : Int))]))
      ≠ some (some (BPTree.node [(0, BPTree.leaf [(5, (55 : Int))])])) := by
  refine ⟨?_, ?_, ?_, ?_⟩
  · simp [minOkTreeB, minOkB, minSize, treeCfg]
  · simp [rootPairs, treePairs]
  · simp [removeTree, removeNodeStep, leafChildStep, leafDelete, internalUB, childAt, keyAtE,
      minSize, treeCfg, keyAt0AfterDelete, leafBorrowRight]
  · simp

/-- C10 (amended).  For every valid tree state — every non-root node holds
at least `GetMinSize()` entries, a leaf root is nonempty and an internal
root has at least two children — and every key `k` stored nowhere in the
tree, Remove(k) returns leaving the tree (all node contents and the
header's root page id) unchanged. -/
theorem remove_absent_unchanged {V : Type} [Inhabited V] (cfg : BPTCfg)
    (root : Option (BPTree V)) (k : Int)
    (hmin : 1 ≤ minSize cfg.internalMax)
    (hval : minOkTreeB cfg 1 2 root = true)
    (habs : ∀ p ∈ rootPairs root, p.1 ≠ k) :
    removeTree cfg root k = some root := by
  match root with
  | none => rfl
  | some (.leaf ps) =>
    have habs' : ∀ p ∈ ps, p.1 ≠ k := by
      intro p hp
      exact habs p (by rw [rootPairs, treePairs]; exact hp)
    have hld : leafDelete ps k = ps := leafDelete_absent habs'
    have hlen : 1 ≤ ps.length := by
      have := @minOkB_leaf_len V cfg 1 2 true ps (by simpa [minOkTreeB] using hval)
      simpa using this
    rw [removeTree]
    rw [hld, if_neg (by omega)]
  | some (.node es) =>
    have hv : minOkB cfg 1 2 true (BPTree.node es) = true := by
      simpa [minOkTreeB] using hval
    obtain ⟨hlen, hch⟩ := minOkB_node_parts hv
    have hne : es ≠ [] := by
      intro hnil
      rw [hnil] at hlen
      simp at hlen
    have habs2 : ∀ x ∈ es, ∀ p ∈ treePairs x.2, p.1 ≠ k := by
      intro x hx p hp
      apply habs
      rw [rootPairs]
      obtain ⟨i, hilt, rfl⟩ := List.mem_iff_getElem.mp hx
      exact treePairs_child_mem es i hilt (by rw [childAt_eq_getElem es i hilt]; exact hp)
    have hstep := removeNodeStep_absent cfg k hmin (sizeOf es) es (le_refl _) hne hch habs2
    have h2 : ¬ (es.length < 2) := by
      simp at hlen
      omega
    rw [removeTree]
    simp only [hstep, if_neg h2]

/-- Witness for C10: removing the absent key 10 from a well-formed
two-leaf tree with configured maxima 3/3. -/
theorem remove_absent_unchanged_witness :
    removeTree (treeCfg 3 3)
      (some (BPTree.node [(0, BPTree.leaf [(1, (1 : Int)), (2, 2)]),
        (3, BPTree.leaf [(3, 3), (4, 4), (5, 5)])])) 10
      = some (some (BPTree.node [(0, BPTree.leaf [(1, (1 : Int)), (2, 2)]),
        (3, BPTree.leaf [(3, 3), (4, 4), (5, 5)])])) :=
  remove_absent_unchanged (treeCfg 3 3) _ 10 (by simp [minSize, treeCfg])
    (by simp [minOkTreeB, minOkB, minSize, treeCfg])
    (by simp [rootPairs, treePairs])

/-! ### Size-invariant lemmas -/

theorem sizesOkB_leaf_iff {V : Type} {mnL ubL mnI ubI : Nat} {r : Bool} {ps : List (Int × V)} :
    sizesOkB mnL ubL mnI ubI r (.leaf ps) = true ↔
      (r = true ∨ (mnL ≤ ps.length ∧ ps.length < ubL)) := by
  rw [sizesOkB]
  cases r <;> simp

theorem sizesOkB_node_iff {V : Type} {mnL ubL mnI ubI : Nat} {r : Bool}
    {es : List (Int × BPTree V)} :
    sizesOkB mnL ubL mnI ubI r (.node es) = true ↔
      ((r = true ∨ (mnI ≤ es.length ∧ es.length < ubI)) ∧
        ∀ x ∈ es, sizesOkB mnL ubL mnI ubI false x.2 = true) := by
  rw [sizesOkB, Bool.and_eq_true_iff]
  constructor
  · intro h
    refine ⟨by cases r with | true => simp | false => simpa using h.1, ?_⟩
    intro x hx
    have := List.all_eq_true.mp h.2 ⟨x, hx⟩ (List.mem_attach es ⟨x, hx⟩)
    simpa using this
  · rintro ⟨h1, h2⟩
    constructor
    · cases r with
      | true => simp
      | false => simpa using h1.resolve_left (by simp)
    · rw [List.all_eq_true]
      intro y _
      simpa using h2 y.1 y.2

theorem szOkB_leaf_iff {V : Type} {cfg : BPTCfg} {r : Bool} {ps : List (Int × V)} :
    szOkB cfg r (.leaf ps) = true ↔
      (r = true ∨ (minSize cfg.leafMax ≤ ps.length ∧ ps.length < cfg.leafMax)) := by
  rw [szOkB]; exact sizesOkB_leaf_iff

theorem szOkB_node_iff {V : Type} {cfg : BPTCfg} {r : Bool} {es : List (Int × BPTree V)} :
    szOkB cfg r (.node es) = true ↔
      ((r = true ∨ (minSize cfg.internalMax ≤ es.length ∧ es.length < cfg.internalMax)) ∧
        ∀ x ∈ es, szOkB cfg false x.2 = true) := by
  rw [szOkB]
  constructor
  · intro h
    obtain ⟨h1, h2⟩ := sizesOkB_node_iff.mp h
    exact ⟨h1, fun x hx => h2 x hx⟩
  · intro ⟨h1, h2⟩
    exact sizesOkB_node_iff.mpr ⟨h1, fun x hx => h2 x hx⟩

theorem rootUpperB_of_strict {V : Type} {cfg : BPTCfg} {t : BPTree V}
    (h : szOkB cfg false t = true) : rootUpperB cfg t = true := by
  cases t with
  | leaf ps =>
    have h2 := (szOkB_leaf_iff.mp h).resolve_left (by simp)
    rw [rootUpperB]
    simpa using h2.2
  | node es =>
    have h2 := (szOkB_node_iff.mp h).1.resolve_left (by simp)
    rw [rootUpperB]
    simpa using h2.2

theorem szOkB_any_of_strict {V : Type} {cfg : BPTCfg} {t : BPTree V}
    (h : szOkB cfg false t = true) (r : Bool) : szOkB cfg r t = true := by
  cases r with
  | false => exact h
  | true =>
    cases t with
    | leaf ps => exact szOkB_leaf_iff.mpr (.inl rfl)
    | node es => exact szOkB_node_iff.mpr ⟨.inl rfl, (szOkB_node_iff.mp h).2⟩

theorem leafDelete_length_le {V : Type} (ps : List (Int × V)) (k : Int) :
    (leafDelete ps k).length ≤ ps.length := by
  have h1 : (ps.takeWhile (fun p => p.1 < k)).length ≤ ps.length :=
    (List.takeWhile_sublist _).length_le
  simp only [leafDelete, List.length_append, List.length_take, List.length_drop]
  omega

theorem internalUB_le_len {V : Type} (es : List (Int × BPTree V)) (k : Int)
    (h : es ≠ []) : internalUB es k ≤ es.length := by
  match es with
  | [] => exact absurd rfl h
  | e :: t => exact internalUB_le e t k

/-- InsertRecursively keeps every page within the stored size bounds: the
updated subtree satisfies the same bounds as the input (`r = true` for the
root, which has no lower bound of its own), a split always hands back two
halves satisfying the full non-root bounds, and when no promotion escapes,
an internal page can only have grown. -/
theorem insertRec_sizes {V : Type} (cfg : BPTCfg) (hdr : List (Int × V) → Int)
    (hL : 2 ≤ cfg.leafMax) (hI : 4 ≤ cfg.internalMax) (k : Int) (v : V) :
    ∀ n (t : BPTree V) (r : Bool) (t' : BPTree V) (promo : Option (Int × BPTree V))
      (succ : Bool), sizeOf t ≤ n →
      szOkB cfg r t = true → rootUpperB cfg t = true →
      insertRec cfg hdr t k v = (t', promo, succ) →
      szOkB cfg r t' = true ∧ rootUpperB cfg t' = true ∧
      (∀ sep nn, promo = some (sep, nn) →
        szOkB cfg false t' = true ∧ szOkB cfg false nn = true) ∧
      (promo = none → rootLowerB t = true → rootLowerB t' = true) := by
  intro n
  induction n with
  | zero =>
    intro t r t' promo succ hsz
    cases t <;> simp at hsz
  | succ n ih =>
    intro t r t' promo succ hsz hok hup heq
    match t with
    | .leaf ps =>
      have hup' : ps.length < cfg.leafMax := by
        rw [rootUpperB] at hup
        simpa using hup
      have hub : leafUB ps k ≤ ps.length := (List.takeWhile_sublist _).length_le
      have hlen : (ps.insertIdx (leafUB ps k) (k, v)).length = ps.length + 1 :=
        List.length_insertIdx _ _ hub
      simp only [insertRec] at heq
      by_cases hdup :
          (if leafUB ps k = 0 then hdr ps else (ps.getD (leafUB ps k - 1) (0, v)).1) = k
      · rw [if_pos hdup] at heq
        simp only [Prod.mk.injEq] at heq
        obtain ⟨rfl, rfl, rfl⟩ := heq
        refine ⟨hok, hup, ?_, ?_⟩
        · intro sep nn h
          simp at h
        · intro _ hl
          exact hl
      · rw [if_neg hdup, if_neg (by omega : ¬ cfg.leafMax ≤ ps.length)] at heq
        rw [hlen] at heq
        by_cases hsp : ps.length + 1 < cfg.leafMax
        · rw [if_pos hsp] at heq
          simp only [Prod.mk.injEq] at heq
          obtain ⟨rfl, rfl, rfl⟩ := heq
          refine ⟨?_, ?_, ?_, ?_⟩
          · rw [szOkB_leaf_iff]
            rcases szOkB_leaf_iff.mp hok with hr | hb
            · exact .inl hr
            · exact .inr ⟨by rw [hlen]; omega, by rw [hlen]; exact hsp⟩
          · simp only [rootUpperB, hlen, decide_eq_true_eq]
            exact hsp
          · intro sep nn h
            simp at h
          · intro _ _
            rw [rootLowerB]
        · rw [if_neg hsp] at heq
          have hLM : ps.length + 1 = cfg.leafMax := by omega
          simp only [Prod.mk.injEq] at heq
          obtain ⟨rfl, rfl, rfl⟩ := heq
          have htk : szOkB cfg false
              (BPTree.leaf ((ps.insertIdx (leafUB ps k) (k, v)).take ((ps.length + 1) / 2)))
              = true := by
            rw [szOkB_leaf_iff]
            refine .inr ⟨?_, ?_⟩ <;> simp [List.length_take, hlen, minSize] <;> omega
          refine ⟨szOkB_any_of_strict htk r, ?_, ?_, ?_⟩
          · exact rootUpperB_of_strict htk
          · intro sep nn h
            simp only [Option.some.injEq, Prod.mk.injEq] at h
            obtain ⟨rfl, rfl⟩ := h.2
            refine ⟨htk, ?_⟩
            rw [szOkB_leaf_iff]
            refine .inr ⟨?_, ?_⟩ <;> simp [List.length_drop, hlen, minSize] <;> omega
          · intro h _
            simp at h
    | .node [] =>
      simp only [insertRec, Prod.mk.injEq] at heq
      obtain ⟨rfl, rfl, rfl⟩ := heq
      refine ⟨hok, hup, ?_, ?_⟩
      · intro sep nn h
        simp at h
      · intro _ hl
        exact hl
    | .node (e :: t0) =>
      have hup' : t0.length + 1 < cfg.internalMax := by
        rw [rootUpperB] at hup
        simpa using hup
      obtain ⟨hlen0, hch⟩ := szOkB_node_iff.mp hok
      have hidx : internalUB (e :: t0) k - 1 < (e :: t0).length := internalUB_pred_lt e t0 k
      have hcheq : childAt (e :: t0) (internalUB (e :: t0) k - 1)
          = (e :: t0)[internalUB (e :: t0) k - 1].2 := childAt_eq_getElem _ _ hidx
      have hchok : szOkB cfg false (childAt (e :: t0) (internalUB (e :: t0) k - 1)) = true := by
        rw [hcheq]
        exact hch _ (List.getElem_mem hidx)
      have hszc : sizeOf (childAt (e :: t0) (internalUB (e :: t0) k - 1)) ≤ n := by
        have h1 := sizeOf_childAt_lt (e :: t0) _ hidx
        simp at hsz h1
        omega
      rcases hcr : insertRec cfg hdr (childAt (e :: t0) (internalUB (e :: t0) k - 1)) k v
        with ⟨c', promo0, succ0⟩
      obtain ⟨IH1, IH2, IH3, IH4⟩ :=
        ih _ false _ _ _ hszc hchok (rootUpperB_of_strict hchok) hcr
      have hmem1 : ∀ x ∈ (e :: t0).set (internalUB (e :: t0) k - 1)
          (keyAtE (e :: t0) (internalUB (e :: t0) k - 1), c'), szOkB cfg false x.2 = true := by
        intro x hx
        rcases List.mem_or_eq_of_mem_set hx with hx' | rfl
        · exact hch x hx'
        · exact IH1
      rcases promo0 with _ | ⟨sep0, nn0⟩
      · simp only [insertRec, hcr] at heq
        rw [if_pos (Or.inl (by simp [List.length_set]; omega))] at heq
        simp only [Prod.mk.injEq] at heq
        obtain ⟨rfl, rfl, rfl⟩ := heq
        refine ⟨?_, ?_, ?_, ?_⟩
        · rw [szOkB_node_iff]
          refine ⟨?_, hmem1⟩
          rcases hlen0 with hr | hb
          · exact .inl hr
          · exact .inr (by simpa [List.length_set] using hb)
        · rw [rootUpperB]
          simp [List.length_set]
          omega
        · intro sep nn h
          simp at h
        · intro _ hl
          rw [rootLowerB] at hl ⊢
          simpa [List.length_set] using hl
      · simp only [insertRec, hcr] at heq
        obtain ⟨IHs1, IHs2⟩ := IH3 sep0 nn0 rfl
        rw [if_neg (by simp [List.length_set]; omega :
          ¬ cfg.internalMax ≤ ((e :: t0).set (internalUB (e :: t0) k - 1)
            (keyAtE (e :: t0) (internalUB (e :: t0) k - 1), c')).length)] at heq
        set es1 := (e :: t0).set (internalUB (e :: t0) k - 1)
          (keyAtE (e :: t0) (internalUB (e :: t0) k - 1), c') with hes1
        have hlen1 : es1.length = t0.length + 1 := by
          rw [hes1]
          simp [List.length_set]
        have hne1 : es1 ≠ [] := List.ne_nil_of_length_pos (by omega)
        have hInsLen : (es1.insertIdx (internalUB es1 sep0) (sep0, nn0)).length
            = es1.length + 1 :=
          List.length_insertIdx _ _ (internalUB_le_len _ _ hne1)
        have hmemIns : ∀ x ∈ es1.insertIdx (internalUB es1 sep0) (sep0, nn0),
            szOkB cfg false x.2 = true := by
          intro x hx
          rcases (List.mem_insertIdx (internalUB_le_len _ _ hne1)).mp hx with rfl | hx'
          · exact IHs2
          · exact hmem1 x hx'
        by_cases hsp : es1.length + 1 < cfg.internalMax
        · rw [if_pos (Or.inl (by rw [hInsLen]; exact hsp))] at heq
          simp only [Prod.mk.injEq] at heq
          obtain ⟨rfl, rfl, rfl⟩ := heq
          refine ⟨?_, ?_, ?_, ?_⟩
          · rw [szOkB_node_iff]
            refine ⟨?_, hmemIns⟩
            rcases hlen0 with hr | hb
            · exact .inl hr
            · refine .inr ⟨?_, ?_⟩ <;> rw [hInsLen] <;> simp [List.length_set] at hb ⊢ <;> omega
          · rw [rootUpperB]
            simp only [hInsLen, decide_eq_true_eq]
            exact hsp
          · intro sep nn h
            simp at h
          · intro _ hl
            rw [rootLowerB] at hl ⊢
            rw [hInsLen]
            simp [List.length_set] at hl ⊢
            omega
        · have hM : es1.length + 1 = cfg.internalMax := by
            simp [List.length_set] at hlen1
            omega
          rw [if_neg (by simp [hInsLen]; omega)] at heq
          rw [hInsLen] at heq
          simp only [Prod.mk.injEq] at heq
          obtain ⟨rfl, rfl, rfl⟩ := heq
          have htk : szOkB cfg false (BPTree.node
              ((es1.insertIdx (internalUB es1 sep0) (sep0, nn0)).take ((es1.length + 1) / 2)))
              = true := by
            rw [szOkB_node_iff]
            refine ⟨.inr ⟨?_, ?_⟩, ?_⟩
            · simp [List.length_take, hInsLen, minSize]
              omega
            · simp [List.length_take, hInsLen]
              omega
            · intro x hx
              exact hmemIns x (List.take_subset _ _ hx)
          refine ⟨szOkB_any_of_strict htk r, rootUpperB_of_strict htk, ?_, ?_⟩
          · intro sep nn h
            simp only [Option.some.injEq, Prod.mk.injEq] at h
            obtain ⟨rfl, rfl⟩ := h.2
            refine ⟨htk, ?_⟩
            rw [szOkB_node_iff]
            refine ⟨.inr ⟨?_, ?_⟩, ?_⟩
            · simp [List.length_drop, hInsLen, minSize]
              omega
            · simp [List.length_drop, hInsLen]
              omega
            · intro x hx
              exact hmemIns x (List.drop_subset _ _ hx)
          · intro h _
            simp at h

/-- Insert keeps the inductive size invariant of the whole tree state. -/
theorem insertTree_sizeInv {V : Type} (cfg : BPTCfg) (hdr : List (Int × V) → Int)
    (hL : 2 ≤ cfg.leafMax) (hI : 4 ≤ cfg.internalMax) (s : Option (BPTree V)) (k : Int) (v : V)
    (h : treeSizeInvB cfg s = true) :
    treeSizeInvB cfg (insertTree cfg hdr s k v).1 = true := by
  match s with
  | none =>
    rw [insertTree, if_neg (by omega : ¬ cfg.leafMax = 0)]
    rw [treeSizeInvB]
    simp only [Bool.and_eq_true]
    refine ⟨⟨szOkB_leaf_iff.mpr (.inl rfl), ?_⟩, ?_⟩
    · rw [rootUpperB]
      simp
      omega
    · rw [rootLowerB]
  | some t =>
    rw [treeSizeInvB] at h
    simp only [Bool.and_eq_true] at h
    obtain ⟨⟨hok, hup⟩, hlow⟩ := h
    rcases hcr : insertRec cfg hdr t k v with ⟨t', promo, succ⟩
    obtain ⟨IH1, IH2, IH3, IH4⟩ :=
      insertRec_sizes cfg hdr hL hI k v (sizeOf t) t true t' promo succ (le_refl _) hok hup hcr
    rcases promo with _ | ⟨sep, nn⟩
    · simp only [insertTree, hcr]
      rw [treeSizeInvB]
      simp only [Bool.and_eq_true]
      exact ⟨⟨IH1, IH2⟩, IH4 rfl hlow⟩
    · obtain ⟨hstrict, hnn⟩ := IH3 sep nn rfl
      simp only [insertTree, hcr]
      rw [if_neg (by omega : ¬ cfg.internalMax ≤ 1)]
      rw [treeSizeInvB]
      simp only [Bool.and_eq_true]
      refine ⟨⟨?_, ?_⟩, ?_⟩
      · rw [szOkB_node_iff]
        refine ⟨.inl rfl, ?_⟩
        intro x hx
        simp only [List.mem_cons, List.not_mem_nil, or_false] at hx
        rcases hx with rfl | rfl
        · exact hstrict
        · exact hnn
      · rw [rootUpperB]
        simp
        omega
      · rw [rootLowerB]
        simp

/-- RemoveRecursively on an internal page returns only when the step
returned and the page is still at least half full. -/
theorem removeRec_node_some {V : Type} [Inhabited V] {cfg : BPTCfg}
    {ces : List (Int × BPTree V)} {k : Int} {c' : BPTree V}
    (h : removeRec cfg (BPTree.node ces) k = some c') :
    ∃ ces', removeNodeStep cfg ces k = some ces' ∧
      minSize cfg.internalMax ≤ ces'.length ∧ c' = BPTree.node ces' := by
  rw [removeRec.eq_def] at h
  rcases hstep : removeNodeStep cfg ces k with _ | ces'
  · simp only [hstep] at h
    exact Option.noConfusion h
  · simp only [hstep] at h
    by_cases hms : minSize cfg.internalMax ≤ ces'.length
    · rw [if_pos hms] at h
      simp only [Option.some.injEq] at h
      exact ⟨ces', rfl, hms, h.symm⟩
    · rw [if_neg hms] at h
      exact Option.noConfusion h

/-- A successful borrow from the right sibling keeps the father's size and
all its children within the stored bounds. -/
theorem leafBorrowRight_sizes {V : Type} [Inhabited V] {cfg : BPTCfg} (hL : 2 ≤ cfg.leafMax)
    (es1 : List (Int × BPTree V)) (j : Nat) (ps1 : List (Int × V)) (cnt : Nat)
    (hcnt : cnt + ps1.length = minSize cfg.leafMax)
    (hch : ∀ x ∈ es1, szOkB cfg false x.2 = true) :
    ∀ es2, leafBorrowRight (minSize cfg.leafMax) es1 j ps1 cnt = some (some es2) →
      es2.length = es1.length ∧ ∀ x ∈ es2, szOkB cfg false x.2 = true := by
  intro es2 h
  have hms1 : 1 ≤ minSize cfg.leafMax := by rw [minSize]; omega
  have hms2 : minSize cfg.leafMax < cfg.leafMax := by rw [minSize]; omega
  by_cases hj : j + 1 < es1.length
  · cases hc : childAt es1 (j + 1) with
    | node ces =>
      rw [leafBorrowRight] at h
      simp only [if_pos hj, hc] at h
      exact Option.noConfusion h
    | leaf rps =>
      have hcm : szOkB cfg false (BPTree.leaf rps) = true := by
        rw [← hc, childAt_eq_getElem es1 (j + 1) hj]
        exact hch _ (List.getElem_mem hj)
      have hrb := (szOkB_leaf_iff.mp hcm).resolve_left (by simp)
      rw [leafBorrowRight] at h
      simp only [if_pos hj, hc] at h
      by_cases hb : cnt + minSize cfg.leafMax ≤ rps.length
      · rw [if_pos hb] at h
        simp only [Option.some.injEq] at h
        subst h
        constructor
        · simp [List.length_set]
        · intro x hx
          rcases List.mem_or_eq_of_mem_set hx with hx1 | rfl
          · rcases List.mem_or_eq_of_mem_set hx1 with hx2 | rfl
            · exact hch x hx2
            · show szOkB cfg false (BPTree.leaf (ps1 ++ rps.take cnt)) = true
              rw [szOkB_leaf_iff]
              refine .inr ⟨?_, ?_⟩ <;> simp [List.length_append, List.length_take] <;> omega
          · show szOkB cfg false (BPTree.leaf (rps.drop cnt)) = true
            rw [szOkB_leaf_iff]
            refine .inr ⟨?_, ?_⟩ <;> simp [List.length_drop] <;> omega
      · rw [if_neg hb] at h
        simp at h
  · rw [leafBorrowRight] at h
    rw [if_neg hj] at h
    simp at h

/-! ### Interval and index primitives -/

theorem childAt_cons_succ {V : Type} (e : Int × BPTree V) (t : List (Int × BPTree V)) (i : Nat) :
    childAt (e :: t) (i + 1) = childAt t i := rfl

theorem keyAtE_cons_succ {V : Type} (e : Int × BPTree V) (t : List (Int × BPTree V)) (i : Nat) :
    keyAtE (e :: t) (i + 1) = keyAtE t i := rfl

theorem childAt_cons_zero {V : Type} (e : Int × BPTree V) (t : List (Int × BPTree V)) :
    childAt (e :: t) 0 = e.2 := rfl

theorem inLoB_of_sepLoB {lo : Option Int} {a : Int} (h : sepLoB lo a = true) :
    inLoB lo a = true := by
  cases lo with
  | none => rfl
  | some l => simp [sepLoB, inLoB] at *; omega

theorem sepLoB_of_lt_of_inLoB {lo : Option Int} {a b : Int} (h : inLoB lo a = true)
    (hab : a < b) : sepLoB lo b = true := by
  cases lo with
  | none => rfl
  | some l => simp [sepLoB, inLoB] at *; omega

theorem sepLoB_of_le_of_sepLoB {lo : Option Int} {a b : Int} (h : sepLoB lo a = true)
    (hab : a ≤ b) : sepLoB lo b = true := by
  cases lo with
  | none => rfl
  | some l => simp [sepLoB] at *; omega

theorem inLoB_of_le_of_inLoB {lo : Option Int} {a b : Int} (h : inLoB lo a = true)
    (hab : a ≤ b) : inLoB lo b = true := by
  cases lo with
  | none => rfl
  | some l => simp [inLoB] at *; omega

theorem inHiB_of_le_of_inHiB {hi : Option Int} {a b : Int} (h : inHiB hi b = true)
    (hab : a ≤ b) : inHiB hi a = true := by
  cases hi with
  | none => rfl
  | some l => simp [inHiB] at *; omega

theorem takeWhile_length_eq {α : Type _} (p : α → Bool) :
    ∀ (l : List α) (j : Nat), j ≤ l.length →
      (∀ i, i < j → ∀ h2 : i < l.length, p l[i] = true) →
      (∀ h : j < l.length, p (l.get ⟨j, h⟩) = false) →
      (l.takeWhile p).length = j := by
  intro l
  induction l with
  | nil =>
    intro j hj _ _
    simp at hj
    simp [hj]
  | cons a t ih =>
    intro j hj hall hstop
    cases j with
    | zero =>
      have hpa := hstop (by simp)
      simp at hpa
      simp [List.takeWhile_cons, hpa]
    | succ j' =>
      have hpa : p a = true := hall 0 (by omega) (by simp)
      simp only [List.takeWhile_cons, hpa, if_true, List.length_cons]
      have := ih j' (by simpa using hj)
        (fun i hi h2 => by simpa using hall (i + 1) (by omega) (by simpa using h2))
        (fun h => by simpa using hstop (by simpa using h))
      omega

theorem internalUB_eq {V : Type} (es : List (Int × BPTree V)) (K : Int) (j : Nat)
    (hjlen : j < es.length)
    (hle : ∀ i, 1 ≤ i → i ≤ j → keyAtE es i ≤ K)
    (hgt : ∀ _ : j + 1 < es.length, K < keyAtE es (j + 1)) :
    internalUB es K = j + 1 := by
  rw [internalUB]
  have h1 : ((es.drop 1).takeWhile (fun e => decide (e.1 ≤ K))).length = j := by
    apply takeWhile_length_eq
    · simp [List.length_drop]
      omega
    · intro i hi h2
      have h3 : 1 + i < es.length := by simp [List.length_drop] at h2; omega
      have hg : (es.drop 1)[i] = es[1 + i] := List.getElem_drop es
      rw [hg]
      have h4 := hle (1 + i) (by omega) (by omega)
      rw [keyAtE_eq_getElem es (1 + i) h3] at h4
      simpa using h4
    · intro h
      have h3 : 1 + j < es.length := by simp [List.length_drop] at h; omega
      have hg : (es.drop 1).get ⟨j, h⟩ = es[1 + j] := List.getElem_drop es
      rw [hg]
      have h4 := hgt (by omega)
      rw [keyAtE_eq_getElem es (j + 1) (by omega)] at h4
      simp only [decide_eq_false_iff_not, not_le]
      have h3b : j + 1 < es.length := by omega
      have h5 : es[1 + j] = es[j + 1] := by congr 1; omega
      rw [h5]
      exact h4
  omega

theorem insertIdx_eq_take_cons_drop {α : Type _} (l : List α) (n : Nat) (a : α)
    (h : n ≤ l.length) : l.insertIdx n a = l.take n ++ a :: l.drop n := by
  induction l generalizing n with
  | nil =>
    simp at h
    subst h
    simp
  | cons x t ih =>
    cases n with
    | zero => simp
    | succ n =>
      simp only [List.insertIdx_succ_cons, List.take_succ_cons, List.drop_succ_cons,
        List.cons_append]
      rw [ih n (by simpa using h)]

theorem take_append_drop_sublist {α : Type _} (l : List α) (n m : Nat) (h : n ≤ m) :
    (l.take n ++ l.drop m).Sublist l := by
  conv_rhs => rw [← List.take_append_drop n l]
  have h2 : l.drop m = (l.drop n).drop (m - n) := by
    rw [List.drop_drop]
    congr 1
    omega
  rw [h2]
  exact List.Sublist.append_left (List.drop_sublist _ _) _

theorem leafDelete_sublist {V : Type} (ps : List (Int × V)) (k : Int) :
    (leafDelete ps k).Sublist ps := by
  simp only [leafDelete]
  exact take_append_drop_sublist ps _ _ (Nat.le_add_right _ _)

theorem childAt_set_self {V : Type} (es : List (Int × BPTree V)) (i : Nat)
    (h : i < es.length) (p : Int × BPTree V) : childAt (es.set i p) i = p.2 := by
  rw [childAt, List.getD_eq_getElem _ _ (by simpa using h)]
  simp

theorem childAt_set_ne {V : Type} (es : List (Int × BPTree V)) (i : Nat)
    (p : Int × BPTree V) (j : Nat) (h : i ≠ j) :
    childAt (es.set i p) j = childAt es j := by
  by_cases hj : j < es.length
  · rw [childAt, childAt, List.getD_eq_getElem _ _ (by simpa using hj),
      List.getD_eq_getElem _ _ hj]
    rw [List.getElem_set]
    simp [h]
  · rw [childAt, childAt, List.getD_eq_default _ _ (by simpa using not_lt.mp hj),
      List.getD_eq_default _ _ (not_lt.mp hj)]

theorem keyAtE_set_self {V : Type} (es : List (Int × BPTree V)) (i : Nat)
    (h : i < es.length) (p : Int × BPTree V) : keyAtE (es.set i p) i = p.1 := by
  rw [keyAtE, List.getD_eq_getElem _ _ (by simpa using h)]
  simp

theorem keyAtE_set_ne {V : Type} (es : List (Int × BPTree V)) (i : Nat)
    (p : Int × BPTree V) (j : Nat) (h : i ≠ j) :
    keyAtE (es.set i p) j = keyAtE es j := by
  by_cases hj : j < es.length
  · rw [keyAtE, keyAtE, List.getD_eq_getElem _ _ (by simpa using hj),
      List.getD_eq_getElem _ _ hj]
    rw [List.getElem_set]
    simp [h]
  · rw [keyAtE, keyAtE, List.getD_eq_default _ _ (by simpa using not_lt.mp hj),
      List.getD_eq_default _ _ (not_lt.mp hj)]

theorem keyAtE_set_keyCh {V : Type} (es : List (Int × BPTree V)) (i : Nat)
    (c : BPTree V) (j : Nat) :
    keyAtE (es.set i (keyAtE es i, c)) j = keyAtE es j := by
  by_cases h : i = j
  · subst h
    by_cases hlt : i < es.length
    · rw [keyAtE_set_self es i hlt]
    · rw [List.set_eq_of_length_le (by omega)]
  · exact keyAtE_set_ne es i _ j h

theorem loAt_set_keyCh {V : Type} (lo : Option Int) (es : List (Int × BPTree V)) (i : Nat)
    (c : BPTree V) (j : Nat) :
    loAt lo (es.set i (keyAtE es i, c)) j = loAt lo es j := by
  rw [loAt, loAt, keyAtE_set_keyCh]

theorem hiAt_set_keyCh {V : Type} (hi : Option Int) (es : List (Int × BPTree V)) (i : Nat)
    (c : BPTree V) (j : Nat) :
    hiAt hi (es.set i (keyAtE es i, c)) j = hiAt hi es j := by
  rw [hiAt, hiAt, keyAtE_set_keyCh, List.length_set]

theorem allInB_iff {lo hi : Option Int} {ks : List Int} :
    allInB lo hi ks = true ↔ ∀ x ∈ ks, inLoB lo x = true ∧ inHiB hi x = true := by
  rw [allInB, List.all_eq_true]
  constructor
  · intro h x hx
    exact Bool.and_eq_true_iff.mp (h x hx)
  · intro h x hx
    exact Bool.and_eq_true_iff.mpr (h x hx)

theorem ascB_iff_pairwise : ∀ l : List Int, ascB l = true ↔ l.Pairwise (· < ·) := by
  intro l
  induction l with
  | nil => simp [ascB]
  | cons a t ih =>
    cases t with
    | nil => simp [ascB]
    | cons b t2 =>
      rw [ascB, Bool.and_eq_true_iff, ih]
      constructor
      · rintro ⟨hab, hp⟩
        have hab' : a < b := by simpa using hab
        refine List.Pairwise.cons ?_ hp
        intro x hx
        rcases List.mem_cons.mp hx with rfl | hx2
        · exact hab'
        · have hb := (List.pairwise_cons.mp hp).1 x hx2
          omega
      · intro hp
        obtain ⟨h1, h2⟩ := List.pairwise_cons.mp hp
        exact ⟨by simpa using h1 b (by simp), h2⟩

theorem wfB_leaf_iff {V : Type} {cfg : BPTCfg} {r : Bool} {lo hi : Option Int}
    {ps : List (Int × V)} :
    wfB cfg r lo hi (.leaf ps) = true ↔
      ((ps.map Prod.fst).Pairwise (· < ·) ∧
        (∀ p ∈ ps, inLoB lo p.1 = true ∧ inHiB hi p.1 = true) ∧
        (if r then 1 else minSize cfg.leafMax) ≤ ps.length ∧ ps.length < cfg.leafMax) := by
  rw [wfB]
  simp only [Bool.and_eq_true_iff, decide_eq_true_eq]
  rw [ascB_iff_pairwise, allInB_iff]
  constructor
  · rintro ⟨⟨⟨hasc, hin⟩, hmn⟩, hub⟩
    refine ⟨hasc, ?_, ?_, hub⟩
    · intro p hp
      exact hin p.1 (List.mem_map_of_mem _ hp)
    · cases r with
      | true => simpa using hmn
      | false => simpa using hmn
  · rintro ⟨hasc, hin, hmn, hub⟩
    refine ⟨⟨⟨hasc, ?_⟩, ?_⟩, hub⟩
    · intro x hx
      obtain ⟨p, hp, rfl⟩ := List.mem_map.mp hx
      exact hin p hp
    · cases r with
      | true => simpa using hmn
      | false => simpa using hmn

theorem loAt_cons_succ {V : Type} (lo : Option Int) (e : Int × BPTree V)
    (M : List (Int × BPTree V)) (i : Nat) :
    loAt lo (e :: M) (i + 1) = some (keyAtE M i) := by
  rw [loAt]
  simp [keyAtE_cons_succ]

theorem loAt_head_key {V : Type} (M : List (Int × BPTree V)) (i : Nat) :
    loAt (some (keyAtE M 0)) M i = some (keyAtE M i) := by
  rw [loAt]
  by_cases h : i = 0
  · subst h
    simp
  · simp [h]

theorem hiAt_cons_succ {V : Type} (hi : Option Int) (e : Int × BPTree V)
    (M : List (Int × BPTree V)) (i : Nat) :
    hiAt hi (e :: M) (i + 1) = hiAt hi M i := by
  rw [hiAt, hiAt]
  simp only [List.length_cons, keyAtE_cons_succ]
  by_cases h : i + 1 < M.length
  · rw [if_pos (by omega), if_pos h]
  · rw [if_neg (by omega), if_neg h]

theorem hiAt_cons_zero {V : Type} (hi : Option Int) (e : Int × BPTree V)
    (M : List (Int × BPTree V)) (h : M ≠ []) :
    hiAt hi (e :: M) 0 = some (keyAtE M 0) := by
  have hpos : 0 < M.length := List.length_pos.mpr h
  rw [hiAt]
  rw [if_pos (by simp; omega)]
  rw [show (0 : Nat) + 1 = 0 + 1 from rfl, keyAtE_cons_succ]

theorem seqWF_cons {V : Type} (cfg : BPTCfg) :
    ∀ (t : List (Int × BPTree V)) (e : Int × BPTree V) (lo hi : Option Int),
      wfSeqB cfg lo hi e.2 t = true ↔ SeqWF cfg lo hi (e :: t) := by
  intro t
  induction t with
  | nil =>
    intro e lo hi
    have hl : loAt lo [e] 0 = lo := by rw [loAt]; simp
    have hh : hiAt hi [e] 0 = hi := by rw [hiAt]; simp
    rw [wfSeqB]
    constructor
    · intro h
      constructor
      · intro i hilt
        have hi0 : i = 0 := by simpa using hilt
        subst hi0
        rw [childAt_cons_zero, hl, hh]
        exact h
      · intro i h1 h2
        simp at h2
        omega
    · rintro ⟨h1, _⟩
      have h2 := h1 0 (by simp)
      rw [childAt_cons_zero, hl, hh] at h2
      exact h2
  | cons sc rest ih =>
    intro e lo hi
    obtain ⟨s, c2⟩ := sc
    have hkey0 : keyAtE ((s, c2) :: rest) 0 = s := rfl
    have hl : loAt lo (e :: (s, c2) :: rest) 0 = lo := by rw [loAt]; simp
    have hlhk : ∀ i, loAt (some s) ((s, c2) :: rest) i
        = some (keyAtE ((s, c2) :: rest) i) := by
      intro i
      rw [loAt]
      by_cases h : i = 0
      · subst h
        simp [hkey0]
      · simp [h]
    rw [wfSeqB]
    simp only [Bool.and_eq_true_iff]
    rw [ih (s, c2) (some s) hi]
    constructor
    · rintro ⟨⟨⟨hsl, hsh⟩, hwe⟩, ⟨hrc, hrs⟩⟩
      constructor
      · intro i hilt
        match i with
        | 0 =>
          rw [childAt_cons_zero, hl, hiAt_cons_zero hi e _ (by simp), hkey0]
          exact hwe
        | i + 1 =>
          rw [childAt_cons_succ, loAt_cons_succ, hiAt_cons_succ]
          have h3 := hrc i (by simpa using hilt)
          rw [hlhk i] at h3
          exact h3
      · intro i h1 hilt
        match i, h1 with
        | 1, _ =>
          refine ⟨?_, ?_⟩
          · rw [show (1 : Nat) - 1 = 0 from rfl, hl]
            rw [show keyAtE (e :: (s, c2) :: rest) 1 = s from rfl]
            exact hsl
          · rw [show keyAtE (e :: (s, c2) :: rest) 1 = s from rfl]
            exact hsh
        | i + 2, _ =>
          have h3 := hrs (i + 1) (by omega) (by simpa using hilt)
          rw [hlhk ((i + 1) - 1)] at h3
          have e1 : (i + 2) - 1 = i + 1 := by omega
          have e2 : (i + 1) - 1 = i := by omega
          rw [e2] at h3
          rw [e1, loAt_cons_succ]
          rw [show keyAtE (e :: (s, c2) :: rest) (i + 2) = keyAtE ((s, c2) :: rest) (i + 1)
            from rfl]
          exact h3
    · rintro ⟨hc, hs2⟩
      refine ⟨⟨⟨?_, ?_⟩, ?_⟩, ?_, ?_⟩
      · have h3 := (hs2 1 (by omega) (by simp)).1
        rw [show (1 : Nat) - 1 = 0 from rfl, hl] at h3
        rw [show keyAtE (e :: (s, c2) :: rest) 1 = s from rfl] at h3
        exact h3
      · have h3 := (hs2 1 (by omega) (by simp)).2
        rw [show keyAtE (e :: (s, c2) :: rest) 1 = s from rfl] at h3
        exact h3
      · have h3 := hc 0 (by simp)
        rw [childAt_cons_zero, hl, hiAt_cons_zero hi e _ (by simp), hkey0] at h3
        exact h3
      · intro i hilt
        have h3 := hc (i + 1) (by simpa using hilt)
        rw [childAt_cons_succ, loAt_cons_succ, hiAt_cons_succ] at h3
        rw [hlhk i]
        exact h3
      · intro i h1 hilt
        match i, h1 with
        | i + 1, _ =>
          have h3 := hs2 (i + 2) (by omega) (by simp at hilt ⊢; omega)
          have e1 : (i + 2) - 1 = i + 1 := by omega
          rw [e1, loAt_cons_succ] at h3
          rw [show keyAtE (e :: (s, c2) :: rest) (i + 2) = keyAtE ((s, c2) :: rest) (i + 1)
            from rfl] at h3
          have e2 : (i + 1) - 1 = i := by omega
          rw [e2, hlhk i]
          exact h3

theorem wfB_node_iff {V : Type} {cfg : BPTCfg} {r : Bool} {lo hi : Option Int}
    {es : List (Int × BPTree V)} :
    wfB cfg r lo hi (.node es) = true ↔
      ((if r then 2 else minSize cfg.internalMax) ≤ es.length ∧
        es.length < cfg.internalMax ∧ es ≠ [] ∧ SeqWF cfg lo hi es) := by
  match es with
  | [] =>
    rw [wfB]
    simp
  | e :: t =>
    rw [wfB]
    simp only [Bool.and_eq_true_iff, decide_eq_true_eq]
    rw [seqWF_cons]
    constructor
    · rintro ⟨⟨h1, h2⟩, h3⟩
      refine ⟨?_, h2, by simp, h3⟩
      cases r with
      | true => simpa using h1
      | false => simpa using h1
    · rintro ⟨h1, h2, _, h3⟩
      refine ⟨⟨?_, h2⟩, h3⟩
      cases r with
      | true => simpa using h1
      | false => simpa using h1

theorem seqWF_to_x {V : Type} {cfg : BPTCfg} {lo hi : Option Int}
    {es : List (Int × BPTree V)} (h : SeqWF cfg lo hi es) (exc : Nat) :
    SeqWFx cfg lo hi es exc :=
  ⟨fun i hi2 _ => h.1 i hi2, h.2⟩

theorem seqWF_sep_lt {V : Type} {cfg : BPTCfg} {lo hi : Option Int}
    {es : List (Int × BPTree V)} (h : SeqWF cfg lo hi es) :
    ∀ i i', 1 ≤ i → i < i' → i' < es.length → keyAtE es i < keyAtE es i' := by
  intro i i'
  induction i' with
  | zero =>
    intro _ h2 _
    omega
  | succ n ihn =>
    intro h1 h2 h3
    have hn1 : 1 ≤ n := by omega
    have hstep := (h.2 (n + 1) (by omega) h3).1
    have e1 : n + 1 - 1 = n := by omega
    rw [e1, loAt, if_neg (by omega)] at hstep
    have hlt : keyAtE es n < keyAtE es (n + 1) := by simpa [sepLoB] using hstep
    by_cases he : i = n
    · subst he
      exact hlt
    · have := ihn h1 (by omega) (by omega)
      omega

theorem seqWF_sepLo_lo {V : Type} {cfg : BPTCfg} {lo hi : Option Int}
    {es : List (Int × BPTree V)} (h : SeqWF cfg lo hi es) :
    ∀ i, 1 ≤ i → i < es.length → sepLoB lo (keyAtE es i) = true := by
  intro i
  induction i with
  | zero =>
    intro h1 _
    omega
  | succ n ihn =>
    intro _ h3
    by_cases hn : n = 0
    · subst hn
      have h4 := (h.2 1 (by omega) h3).1
      rw [loAt] at h4
      simpa using h4
    · have h4 := ihn (by omega) (by omega)
      have hstep := (h.2 (n + 1) (by omega) h3).1
      have e1 : n + 1 - 1 = n := by omega
      rw [e1, loAt, if_neg hn] at hstep
      have h5 : keyAtE es n < keyAtE es (n + 1) := by simpa [sepLoB] using hstep
      exact sepLoB_of_le_of_sepLoB h4 (by omega)

theorem seqWF_set_child {V : Type} {cfg : BPTCfg} {lo hi : Option Int}
    {es : List (Int × BPTree V)} (m : Nat) (hm : m < es.length) (c : BPTree V)
    (hx : SeqWFx cfg lo hi es m)
    (hc : wfB cfg false (loAt lo es m) (hiAt hi es m) c = true) :
    SeqWF cfg lo hi (es.set m (keyAtE es m, c)) := by
  constructor
  · intro i hilt
    rw [List.length_set] at hilt
    rw [loAt_set_keyCh, hiAt_set_keyCh]
    by_cases he : i = m
    · subst he
      rw [childAt_set_self _ _ hm]
      exact hc
    · rw [childAt_set_ne _ _ _ _ (Ne.symm he)]
      exact hx.1 i hilt he
  · intro i h1 hilt
    rw [List.length_set] at hilt
    rw [loAt_set_keyCh, keyAtE_set_keyCh]
    exact hx.2 i h1 hilt

theorem seqWF_surgery2 {V : Type} {cfg : BPTCfg} {lo hi : Option Int}
    {es : List (Int × BPTree V)} (m : Nat) (hm1 : m + 1 < es.length)
    (cL cR : BPTree V) (snew : Int) (exc : Nat) (hexc : exc = m ∨ exc = m + 1)
    (hx : SeqWFx cfg lo hi es exc)
    (hcl : wfB cfg false (loAt lo es m) (some snew) cL = true)
    (hcr : wfB cfg false (some snew) (hiAt hi es (m + 1)) cR = true)
    (hsl : sepLoB (loAt lo es m) snew = true)
    (hsh : inHiB hi snew = true)
    (hs2 : ∀ _ : m + 2 < es.length, snew < keyAtE es (m + 2)) :
    SeqWF cfg lo hi ((es.set m (keyAtE es m, cL)).set (m + 1) (snew, cR)) := by
  have hlen : ((es.set m (keyAtE es m, cL)).set (m + 1) (snew, cR)).length = es.length := by
    simp [List.length_set]
  have hkey : ∀ j, keyAtE ((es.set m (keyAtE es m, cL)).set (m + 1) (snew, cR)) j
      = if j = m + 1 then snew else keyAtE es j := by
    intro j
    by_cases hj : j = m + 1
    · subst hj
      rw [if_pos rfl, keyAtE_set_self _ _ (by simp [List.length_set]; omega)]
    · rw [if_neg hj, keyAtE_set_ne _ _ _ _ (Ne.symm hj), keyAtE_set_keyCh]
  have hch : ∀ j, childAt ((es.set m (keyAtE es m, cL)).set (m + 1) (snew, cR)) j
      = if j = m + 1 then cR else if j = m then cL else childAt es j := by
    intro j
    by_cases hj : j = m + 1
    · subst hj
      rw [if_pos rfl, childAt_set_self _ _ (by simp [List.length_set]; omega)]
    · rw [if_neg hj, childAt_set_ne _ _ _ _ (Ne.symm hj)]
      by_cases hj2 : j = m
      · subst hj2
        rw [if_pos rfl, childAt_set_self _ _ (by omega)]
      · rw [if_neg hj2, childAt_set_ne _ _ _ _ (Ne.symm hj2)]
  have hlo : ∀ j, loAt lo ((es.set m (keyAtE es m, cL)).set (m + 1) (snew, cR)) j
      = if j = m + 1 then some snew else loAt lo es j := by
    intro j
    by_cases hj : j = m + 1
    · subst hj
      rw [if_pos rfl, loAt, if_neg (by omega), hkey, if_pos rfl]
    · rw [if_neg hj, loAt, loAt]
      by_cases hj0 : j = 0
      · rw [if_pos hj0, if_pos hj0]
      · rw [if_neg hj0, if_neg hj0, hkey, if_neg hj]
  have hhi : ∀ j, hiAt hi ((es.set m (keyAtE es m, cL)).set (m + 1) (snew, cR)) j
      = if j = m then some snew else hiAt hi es j := by
    intro j
    by_cases hj : j = m
    · subst hj
      rw [if_pos rfl, hiAt, hlen, if_pos hm1, hkey, if_pos rfl]
    · rw [if_neg hj, hiAt, hiAt, hlen]
      by_cases hj2 : j + 1 < es.length
      · rw [if_pos hj2, if_pos hj2, hkey, if_neg (by omega)]
      · rw [if_neg hj2, if_neg hj2]
  constructor
  · intro i hilt
    rw [hlen] at hilt
    rw [hlo, hhi, hch]
    by_cases h1 : i = m + 1
    · subst h1
      rw [if_pos rfl, if_pos rfl, if_neg (by omega)]
      exact hcr
    · rw [if_neg h1, if_neg h1]
      by_cases h2 : i = m
      · subst h2
        rw [if_pos rfl, if_pos rfl]
        exact hcl
      · rw [if_neg h2, if_neg h2]
        refine hx.1 i hilt ?_
        rcases hexc with rfl | rfl
        · exact h2
        · exact h1
  · intro i h1 hilt
    rw [hlen] at hilt
    rw [hlo, hkey]
    by_cases hA : i = m + 1
    · subst hA
      rw [if_pos rfl, if_neg (by omega)]
      have e1 : m + 1 - 1 = m := by omega
      rw [e1]
      exact ⟨hsl, hsh⟩
    · rw [if_neg hA]
      by_cases hB : i = m + 2
      · subst hB
        rw [if_pos (by omega)]
        have h5 := hs2 (by omega)
        refine ⟨by simpa [sepLoB] using h5, ?_⟩
        exact (hx.2 (m + 2) (by omega) hilt).2
      · rw [if_neg (by omega)]
        exact hx.2 i h1 hilt

theorem mem_treePairs_node {V : Type} {es : List (Int × BPTree V)} {p : Int × V} :
    p ∈ treePairs (.node es) ↔ ∃ x ∈ es, p ∈ treePairs x.2 := by
  rw [treePairs, List.mem_flatten]
  constructor
  · rintro ⟨l, hl, hp⟩
    obtain ⟨y, _, rfl⟩ := List.mem_map.mp hl
    exact ⟨y.1, y.2, hp⟩
  · rintro ⟨x, hx, hp⟩
    exact ⟨treePairs x.2, List.mem_map_of_mem _ (List.mem_attach es ⟨x, hx⟩), hp⟩

/-- All pairs of a well-formed subtree lie inside its key interval. -/
theorem treePairs_in_interval {V : Type} (cfg : BPTCfg) :
    ∀ n (t : BPTree V) (r : Bool) (lo hi : Option Int), sizeOf t ≤ n →
      wfB cfg r lo hi t = true →
      ∀ p ∈ treePairs t, inLoB lo p.1 = true ∧ inHiB hi p.1 = true := by
  intro n
  induction n with
  | zero =>
    intro t r lo hi hsz
    cases t <;> simp at hsz
  | succ n ih =>
    intro t r lo hi hsz hwf p hp
    match t with
    | .leaf ps =>
      rw [treePairs] at hp
      exact (wfB_leaf_iff.mp hwf).2.1 p hp
    | .node es =>
      obtain ⟨x, hx, hp2⟩ := mem_treePairs_node.mp hp
      obtain ⟨-, -, -, hseq⟩ := wfB_node_iff.mp hwf
      obtain ⟨i, hilt, rfl⟩ := List.mem_iff_getElem.mp hx
      have hci : childAt es i = es[i].2 := childAt_eq_getElem es i hilt
      have hwc := hseq.1 i hilt
      rw [hci] at hwc
      have hszc : sizeOf es[i].2 ≤ n := by
        have h1 := List.sizeOf_lt_of_mem (List.getElem_mem hilt)
        have h2 := sizeOf_snd_lt es[i]
        simp at hsz
        omega
      have hres := ih es[i].2 false (loAt lo es i) (hiAt hi es i) hszc hwc p hp2
      constructor
      · by_cases h0 : i = 0
        · subst h0
          have h1 := hres.1
          rw [loAt, if_pos rfl] at h1
          exact h1
        · have h1 := hres.1
          rw [loAt, if_neg h0] at h1
          have h2 : keyAtE es i ≤ p.1 := by simpa [inLoB] using h1
          have h3 := seqWF_sepLo_lo hseq i (by omega) hilt
          exact inLoB_of_le_of_inLoB (inLoB_of_sepLoB h3) h2
      · by_cases hLt : i + 1 < es.length
        · have h1 := hres.2
          rw [hiAt, if_pos hLt] at h1
          have h2 : p.1 < keyAtE es (i + 1) := by simpa [inHiB] using h1
          have h3 := (hseq.2 (i + 1) (by omega) hLt).2
          exact inHiB_of_le_of_inHiB h3 (by omega)
        · have h1 := hres.2
          rw [hiAt, if_neg hLt] at h1
          exact h1

/-- A successful borrow from the right sibling leaf restores a fully
well-formed internal page: the borrowed leaf gets exactly `GetMinSize()`
pairs, the sibling keeps at least that many, and the father's separator at
the sibling's slot becomes the sibling's new first key. -/
theorem leafBorrowRight_wf {V : Type} [Inhabited V] {cfg : BPTCfg} (hL : 2 ≤ cfg.leafMax)
    {lo hi : Option Int} (es : List (Int × BPTree V)) (j : Nat) (ps1 : List (Int × V))
    (cnt : Nat)
    (hx : SeqWFx cfg lo hi es j)
    (hcnt : cnt + ps1.length = minSize cfg.leafMax)
    (hcpos : 0 < cnt)
    (hpw : (ps1.map Prod.fst).Pairwise (· < ·))
    (hin : ∀ p ∈ ps1, inLoB (loAt lo es j) p.1 = true ∧ inHiB (hiAt hi es j) p.1 = true) :
    ∀ es2, leafBorrowRight (minSize cfg.leafMax) es j ps1 cnt = some (some es2) →
      es2.length = es.length ∧ SeqWF cfg lo hi es2 := by
  intro es2 h
  have hms1 : 1 ≤ minSize cfg.leafMax := by rw [minSize]; omega
  have hms2 : minSize cfg.leafMax < cfg.leafMax := by rw [minSize]; omega
  by_cases hj : j + 1 < es.length
  · cases hc : childAt es (j + 1) with
    | node ces =>
      rw [leafBorrowRight] at h
      simp only [if_pos hj, hc] at h
      exact Option.noConfusion h
    | leaf rps =>
      have hwr := hx.1 (j + 1) hj (by omega)
      rw [hc] at hwr
      obtain ⟨hrpw, hrin, hrlb, hrub⟩ := wfB_leaf_iff.mp hwr
      have hsepj1 := hx.2 (j + 1) (by omega) hj
      have e1 : j + 1 - 1 = j := by omega
      rw [e1] at hsepj1
      have hhij : hiAt hi es j = some (keyAtE es (j + 1)) := by
        rw [hiAt, if_pos hj]
      rw [leafBorrowRight] at h
      simp only [if_pos hj, hc] at h
      by_cases hb : cnt + minSize cfg.leafMax ≤ rps.length
      · rw [if_pos hb] at h
        simp only [Option.some.injEq] at h
        subst h
        have hrne : cnt < rps.length := by omega
        have hdc : rps.drop cnt = rps[cnt] :: rps.drop (cnt + 1) :=
          List.drop_eq_getElem_cons hrne
        have hsnew : ((rps.drop cnt).headD (0, default)).1 = rps[cnt].1 := by
          rw [hdc]
          rfl
        have hcm : rps[cnt] ∈ rps := List.getElem_mem hrne
        have hdm : rps[cnt] ∈ rps.drop cnt := by
          rw [hdc]
          exact List.mem_cons_self _ _
        have hsplit := List.take_append_drop cnt rps
        have hpwa : ((rps.take cnt).map Prod.fst ++ (rps.drop cnt).map Prod.fst).Pairwise
            (· < ·) := by
          rw [← List.map_append, hsplit]
          exact hrpw
        have hcross := (List.pairwise_append.mp hpwa).2.2
        have hkj1le : ∀ p ∈ rps, keyAtE es (j + 1) ≤ p.1 := by
          intro p hp
          have h2 := (hrin p hp).1
          rw [loAt, if_neg (by omega)] at h2
          simpa [inLoB] using h2
        have hps1lt : ∀ p ∈ ps1, p.1 < keyAtE es (j + 1) := by
          intro p hp
          have h2 := (hin p hp).2
          rw [hhij] at h2
          simpa [inHiB] using h2
        have hdroplo : ∀ p ∈ rps.drop cnt, rps[cnt].1 ≤ p.1 := by
          intro p hp
          rw [hdc] at hp
          rcases List.mem_cons.mp hp with rfl | hp2
          · omega
          · have hsplit2 := List.take_append_drop (cnt + 1) rps
            have hpwa2 : ((rps.take (cnt + 1)).map Prod.fst
                ++ (rps.drop (cnt + 1)).map Prod.fst).Pairwise (· < ·) := by
              rw [← List.map_append, hsplit2]
              exact hrpw
            have hcross2 := (List.pairwise_append.mp hpwa2).2.2
            have htlen : cnt < (rps.take (cnt + 1)).length := by
              simp [List.length_take]
              omega
            have hgt : (rps.take (cnt + 1)).get ⟨cnt, htlen⟩ = rps[cnt] :=
              List.getElem_take ..
            have hmemtake : rps[cnt] ∈ rps.take (cnt + 1) := by
              rw [← hgt]
              exact List.getElem_mem htlen
            have := hcross2 rps[cnt].1 (List.mem_map_of_mem _ hmemtake) p.1
              (List.mem_map_of_mem _ hp2)
            omega
        have hsl : sepLoB (loAt lo es j) rps[cnt].1 :=
          sepLoB_of_le_of_sepLoB hsepj1.1 (hkj1le _ hcm)
        have hsh : inHiB hi rps[cnt].1 = true := by
          by_cases hj2 : j + 2 < es.length
          · have h2 := (hrin _ hcm).2
            rw [hiAt, if_pos (by omega)] at h2
            have h3 : rps[cnt].1 < keyAtE es (j + 1 + 1) := by simpa [inHiB] using h2
            have h4 := (hx.2 (j + 2) (by omega) hj2).2
            have e2 : j + 1 + 1 = j + 2 := by omega
            rw [e2] at h3
            exact inHiB_of_le_of_inHiB h4 (by omega)
          · have h2 := (hrin _ hcm).2
            rw [hiAt, if_neg (by omega)] at h2
            exact h2
        refine ⟨by simp [List.length_set], ?_⟩
        rw [hsnew]
        apply seqWF_surgery2 j hj _ _ _ j (Or.inl rfl) hx
        · rw [wfB_leaf_iff]
          refine ⟨?_, ?_, ?_⟩
          · rw [List.map_append]
            rw [List.pairwise_append]
            refine ⟨hpw, hrpw.sublist (List.Sublist.map _ (List.take_sublist _ _)), ?_⟩
            intro a ha b hb
            obtain ⟨pa, hpa, rfl⟩ := List.mem_map.mp ha
            obtain ⟨pb, hpb, rfl⟩ := List.mem_map.mp hb
            have h2 := hps1lt pa hpa
            have h3 := hkj1le pb (List.mem_of_mem_take hpb)
            omega
          · intro p hp
            rcases List.mem_append.mp hp with hp1 | hp2
            · refine ⟨(hin p hp1).1, ?_⟩
              have h2 := hps1lt p hp1
              have h3 := hkj1le _ hcm
              simp [inHiB]
              omega
            · constructor
              · have h2 := hkj1le p (List.mem_of_mem_take hp2)
                exact inLoB_of_le_of_inLoB (inLoB_of_sepLoB hsepj1.1) h2
              · have h2 := hcross p.1 (List.mem_map_of_mem _ hp2) rps[cnt].1
                  (List.mem_map_of_mem _ hdm)
                simp [inHiB]
                omega
          · constructor
            · simp [List.length_append, List.length_take]
              omega
            · simp [List.length_append, List.length_take]
              omega
        · rw [wfB_leaf_iff]
          refine ⟨hrpw.sublist (List.Sublist.map _ (List.drop_sublist _ _)), ?_, ?_⟩
          · intro p hp
            refine ⟨?_, ?_⟩
            · have h2 := hdroplo p hp
              simp [inLoB]
              omega
            · exact (hrin p (List.mem_of_mem_drop hp)).2
          · constructor
            · simp [List.length_drop]
              omega
            · simp [List.length_drop]
              omega
        · exact hsl
        · exact hsh
        · intro h2
          have h3 := (hrin _ hcm).2
          rw [hiAt, if_pos (by omega)] at h3
          have e2 : j + 1 + 1 = j + 2 := by omega
          rw [e2] at h3
          simpa [inHiB] using h3
      · rw [if_neg hb] at h
        simp at h
  · rw [leafBorrowRight, if_neg hj] at h
    simp at h

theorem keyAt0_mem {V : Type} [Inhabited V] (ps ps' : List (Int × V)) (hne : ps ≠ [])
    (hsub : ps'.Sublist ps) : ∃ p ∈ ps, keyAt0AfterDelete ps ps' = p.1 := by
  match ps' with
  | [] =>
    obtain ⟨q, qs, rfl⟩ := List.exists_cons_of_ne_nil hne
    exact ⟨q, by simp, by rw [keyAt0AfterDelete]; rfl⟩
  | p0 :: t0 =>
    exact ⟨p0, hsub.subset (List.mem_cons_self _ _), by rw [keyAt0AfterDelete]⟩

/-- A returning RemoveRecursively step on a well-formed internal page with
at least two live slots keeps the page size and restores well-formedness:
the only returning paths are the in-place delete, the two borrows (which
rebalance two adjacent leaves and update the separator), and the recursive
descent; every merge path hangs. -/
theorem removeNodeStep_wf {V : Type} [Inhabited V] (cfg : BPTCfg)
    (hL : 2 ≤ cfg.leafMax) (hI : 4 ≤ cfg.internalMax) (k : Int) :
    ∀ n (es : List (Int × BPTree V)) (lo hi : Option Int), sizeOf es ≤ n →
      2 ≤ es.length → SeqWF cfg lo hi es →
      ∀ es', removeNodeStep cfg es k = some es' →
        es'.length = es.length ∧ SeqWF cfg lo hi es' := by
  intro n
  induction n with
  | zero =>
    intro es lo hi hsz hlen2
    match es with
    | [] => simp at hlen2
    | e :: t => simp at hsz
  | succ n ih =>
    intro es lo hi hsz hlen2 hseq es' heq
    match es with
    | [] => simp at hlen2
    | e :: t =>
      have hms1 : 1 ≤ minSize cfg.leafMax := by rw [minSize]; omega
      have hms2 : minSize cfg.leafMax < cfg.leafMax := by rw [minSize]; omega
      have hmsI : 2 ≤ minSize cfg.internalMax := by rw [minSize]; omega
      have hidx : internalUB (e :: t) k - 1 < (e :: t).length := internalUB_pred_lt e t k
      rw [removeNodeStep] at heq
      split at heq
      next ps hct =>
        have hwl := hseq.1 _ hidx
        rw [hct] at hwl
        obtain ⟨hppw, hpin, hplb, hpub⟩ := wfB_leaf_iff.mp hwl
        simp only [leafChildStep] at heq
        generalize hidxg : internalUB (e :: t) k - 1 = idx at heq hct hidx hwl hpin
        set ps1 := leafDelete ps k with hps1def
        have hsub : ps1.Sublist ps := by
          rw [hps1def]
          exact leafDelete_sublist ps k
        have hpw1 : (ps1.map Prod.fst).Pairwise (· < ·) := hppw.sublist (hsub.map _)
        have hin1 : ∀ p ∈ ps1, inLoB (loAt lo (e :: t) idx) p.1 = true ∧
            inHiB (hiAt hi (e :: t) idx) p.1 = true :=
          fun p hp => hpin p (hsub.subset hp)
        set es1 := (e :: t).set idx (keyAtE (e :: t) idx, BPTree.leaf ps1) with hes1def
        have hlen1 : es1.length = (e :: t).length := by
          rw [hes1def]
          simp
        have hloAt1 : ∀ i2, loAt lo es1 i2 = loAt lo (e :: t) i2 := by
          intro i2
          rw [hes1def, loAt_set_keyCh]
        have hhiAt1 : ∀ i2, hiAt hi es1 i2 = hiAt hi (e :: t) i2 := by
          intro i2
          rw [hes1def, hiAt_set_keyCh]
        have hkeyes1 : ∀ i2, keyAtE es1 i2 = keyAtE (e :: t) i2 := by
          intro i2
          rw [hes1def, keyAtE_set_keyCh]
        by_cases h1 : minSize cfg.leafMax ≤ ps1.length
        · rw [if_pos h1] at heq
          simp only [Option.some.injEq] at heq
          subst heq
          refine ⟨hlen1, ?_⟩
          rw [hes1def]
          apply seqWF_set_child idx hidx _ (seqWF_to_x hseq idx)
          rw [wfB_leaf_iff]
          refine ⟨hpw1, hin1, by simpa using h1, ?_⟩
          have := hsub.length_le
          omega
        · rw [if_neg h1] at heq
          have hpsne : ps ≠ [] := by
            intro hnil
            rw [hnil] at hplb
            simp at hplb
            omega
          have hkey0 : ∃ p ∈ ps, keyAt0AfterDelete ps ps1 = p.1 :=
            keyAt0_mem ps ps1 hpsne hsub
          obtain ⟨p0, hp0, hk0e⟩ := hkey0
          have hk0lo := (hpin p0 hp0).1
          have hk0hi := (hpin p0 hp0).2
          have hJ : internalUB es1 (keyAt0AfterDelete ps ps1) = idx + 1 := by
            apply internalUB_eq
            · rw [hlen1]
              exact hidx
            · intro i2 h2a h2b
              rw [hkeyes1, hk0e]
              have h5 : keyAtE (e :: t) idx ≤ p0.1 := by
                have h6 := hk0lo
                rw [loAt, if_neg (by omega)] at h6
                simpa [inLoB] using h6
              by_cases hieq : i2 = idx
              · subst hieq
                exact h5
              · have hmono := seqWF_sep_lt hseq i2 idx h2a (by omega) hidx
                omega
            · intro h2
              rw [hkeyes1, hk0e]
              have h3 := hk0hi
              rw [hiAt, if_pos (by rw [hlen1] at h2; exact h2)] at h3
              simpa [inHiB] using h3
          rw [hJ] at heq
          simp only [Nat.add_sub_cancel] at heq
          set cnt := minSize cfg.leafMax - ps1.length with hcntdef
          have hcnt : cnt + ps1.length = minSize cfg.leafMax := by
            rw [hcntdef]
            omega
          have hcpos : 0 < cnt := by
            rw [hcntdef]
            omega
          have hx1 : SeqWFx cfg lo hi es1 idx := by
            constructor
            · intro i2 hi2 hne
              rw [hlen1] at hi2
              rw [hloAt1, hhiAt1, hes1def, childAt_set_ne _ _ _ _ (Ne.symm hne)]
              exact hseq.1 i2 hi2
            · intro i2 h2a h2b
              rw [hlen1] at h2b
              rw [hloAt1, hkeyes1]
              exact hseq.2 i2 h2a h2b
          have hin1' : ∀ p ∈ ps1, inLoB (loAt lo es1 idx) p.1 = true ∧
              inHiB (hiAt hi es1 idx) p.1 = true := by
            intro p hp
            rw [hloAt1, hhiAt1]
            exact hin1 p hp
          by_cases hj0 : 0 < idx
          · rw [if_pos hj0] at heq
            obtain ⟨m, rfl⟩ : ∃ m, idx = m + 1 := ⟨idx - 1, by omega⟩
            simp only [Nat.add_sub_cancel] at heq
            split at heq
            next ces hcs => exact Option.noConfusion heq
            next lps hcs =>
              have hcs' : childAt (e :: t) m = BPTree.leaf lps := by
                rw [hes1def, childAt_set_ne _ _ _ _ (by omega)] at hcs
                exact hcs
              have hwls := hseq.1 m (by omega)
              rw [hcs'] at hwls
              obtain ⟨hlpw, hlin, hllb, hlub⟩ := wfB_leaf_iff.mp hwls
              have hhim : hiAt hi (e :: t) m = some (keyAtE (e :: t) (m + 1)) := by
                rw [hiAt, if_pos (by omega)]
              have hlom1 : loAt lo (e :: t) (m + 1) = some (keyAtE (e :: t) (m + 1)) := by
                rw [loAt, if_neg (by omega)]
              have hsepm1 := hseq.2 (m + 1) (by omega) hidx
              rw [show m + 1 - 1 = m from by omega] at hsepm1
              have hlpslt : ∀ p ∈ lps, p.1 < keyAtE (e :: t) (m + 1) := by
                intro p hp
                have h2 := (hlin p hp).2
                rw [hhim] at h2
                simpa [inHiB] using h2
              have hps1ge : ∀ p ∈ ps1, keyAtE (e :: t) (m + 1) ≤ p.1 := by
                intro p hp
                have h2 := (hin1 p hp).1
                rw [hlom1] at h2
                simpa [inLoB] using h2
              by_cases hb : cnt + minSize cfg.leafMax ≤ lps.length
              · rw [if_pos hb] at heq
                simp only [Option.some.injEq] at heq
                subst heq
                set D := lps.length - cnt with hDdef
                have hDpos : 1 ≤ D := by
                  rw [hDdef]
                  omega
                have hDlt : D < lps.length := by
                  rw [hDdef]
                  omega
                have hdcL : lps.drop D = lps[D] :: lps.drop (D + 1) :=
                  List.drop_eq_getElem_cons hDlt
                have hsnew : ((lps.drop D ++ ps1).headD (0, default)).1 = lps[D].1 := by
                  rw [hdcL, List.cons_append]
                  rfl
                have hDm : lps[D] ∈ lps := List.getElem_mem hDlt
                have hsplit := List.take_append_drop D lps
                have hpwa : ((lps.take D).map Prod.fst
                    ++ (lps.drop D).map Prod.fst).Pairwise (· < ·) := by
                  rw [← List.map_append, hsplit]
                  exact hlpw
                have hcross := (List.pairwise_append.mp hpwa).2.2
                have hDmd : lps[D] ∈ lps.drop D := by
                  rw [hdcL]
                  exact List.mem_cons_self _ _
                have htake0 : lps ≠ [] := by
                  intro hnil
                  rw [hnil] at hDlt
                  simp at hDlt
                have hdroplo : ∀ p ∈ lps.drop D, lps[D].1 ≤ p.1 := by
                  intro p hp
                  rw [hdcL] at hp
                  rcases List.mem_cons.mp hp with rfl | hp2
                  · omega
                  · have hsplit2 := List.take_append_drop (D + 1) lps
                    have hpwa2 : ((lps.take (D + 1)).map Prod.fst
                        ++ (lps.drop (D + 1)).map Prod.fst).Pairwise (· < ·) := by
                      rw [← List.map_append, hsplit2]
                      exact hlpw
                    have hcross2 := (List.pairwise_append.mp hpwa2).2.2
                    have htlen : D < (lps.take (D + 1)).length := by
                      simp [List.length_take]
                      omega
                    have hgt : (lps.take (D + 1)).get ⟨D, htlen⟩ = lps[D] :=
                      List.getElem_take ..
                    have hmemtake : lps[D] ∈ lps.take (D + 1) := by
                      rw [← hgt]
                      exact List.getElem_mem htlen
                    have := hcross2 lps[D].1 (List.mem_map_of_mem _ hmemtake) p.1
                      (List.mem_map_of_mem _ hp2)
                    omega
                have h0lps : 0 < lps.length := by omega
                have hlps0m : lps[0] ∈ lps.take D := by
                  have htlen0 : 0 < (lps.take D).length := by
                    simp [List.length_take]
                    omega
                  have hgt0 : (lps.take D).get ⟨0, htlen0⟩ = lps[0] :=
                    List.getElem_take ..
                  rw [← hgt0]
                  exact List.getElem_mem htlen0
                have hsl : sepLoB (loAt lo es1 m) lps[D].1 = true := by
                  rw [hloAt1]
                  have h2 := (hlin _ (List.getElem_mem h0lps)).1
                  have h3 := hcross lps[0].1 (List.mem_map_of_mem _ hlps0m)
                    lps[D].1 (List.mem_map_of_mem _ hDmd)
                  exact sepLoB_of_lt_of_inLoB h2 h3
                have hsh : inHiB hi lps[D].1 = true := by
                  have h2 := hlpslt _ hDm
                  exact inHiB_of_le_of_inHiB hsepm1.2 (by omega)
                refine ⟨by simp [List.length_set, hlen1], ?_⟩
                rw [hsnew]
                apply seqWF_surgery2 m (by rw [hlen1]; omega) _ _ _ (m + 1) (Or.inr rfl) hx1
                · rw [wfB_leaf_iff]
                  refine ⟨hlpw.sublist (List.Sublist.map _ (List.take_sublist _ _)), ?_, ?_, ?_⟩
                  · intro p hp
                    constructor
                    · rw [hloAt1]
                      exact (hlin p (List.mem_of_mem_take hp)).1
                    · have h2 := hcross p.1 (List.mem_map_of_mem _ hp) lps[D].1
                        (List.mem_map_of_mem _ hDmd)
                      simp [inHiB]
                      omega
                  · simp [List.length_take]
                    omega
                  · simp [List.length_take]
                    omega
                · rw [wfB_leaf_iff]
                  refine ⟨?_, ?_, ?_, ?_⟩
                  · rw [List.map_append, List.pairwise_append]
                    refine ⟨hlpw.sublist (List.Sublist.map _ (List.drop_sublist _ _)),
                      hpw1, ?_⟩
                    intro a ha b hb2
                    obtain ⟨pa, hpa, rfl⟩ := List.mem_map.mp ha
                    obtain ⟨pb, hpb, rfl⟩ := List.mem_map.mp hb2
                    have h2 := hlpslt pa (List.mem_of_mem_drop hpa)
                    have h3 := hps1ge pb hpb
                    omega
                  · intro p hp
                    rcases List.mem_append.mp hp with hp1 | hp2
                    · refine ⟨?_, ?_⟩
                      · have h2 := hdroplo p hp1
                        simp [inLoB]
                        omega
                      · rw [hhiAt1]
                        have h2 := hlpslt p (List.mem_of_mem_drop hp1)
                        by_cases hm2 : m + 2 < (e :: t).length
                        · rw [hiAt, if_pos hm2]
                          rw [show keyAtE (e :: t) (m + 1 + 1) = keyAtE (e :: t) (m + 2)
                            from rfl]
                          have h3 := seqWF_sep_lt hseq (m + 1) (m + 2) (by omega) (by omega) hm2
                          simp [inHiB]
                          omega
                        · rw [hiAt, if_neg hm2]
                          exact inHiB_of_le_of_inHiB hsepm1.2 (by omega)
                    · refine ⟨?_, ?_⟩
                      · have h2 := hps1ge p hp2
                        have h3 := hlpslt _ hDm
                        simp [inLoB]
                        omega
                      · rw [hhiAt1]
                        exact (hin1 p hp2).2
                  · simp [List.length_append, List.length_drop]
                    omega
                  · simp [List.length_append, List.length_drop]
                    omega
                · exact hsl
                · exact hsh
                · intro h2
                  rw [hlen1] at h2
                  rw [hkeyes1]
                  have h3 := hlpslt _ hDm
                  have h4 := seqWF_sep_lt hseq (m + 1) (m + 2) (by omega) (by omega) h2
                  omega
              · rw [if_neg hb] at heq
                split at heq
                next hlbr => exact Option.noConfusion heq
                next es2 hlbr =>
                  simp only [Option.some.injEq] at heq
                  subst heq
                  obtain ⟨hl2, hseq2⟩ := leafBorrowRight_wf hL es1 (m + 1) ps1 cnt hx1
                    hcnt hcpos hpw1 hin1' es2 hlbr
                  exact ⟨by rw [hl2, hlen1], hseq2⟩
                next hlbr => exact Option.noConfusion heq
          · rw [if_neg hj0] at heq
            have hidx0 : idx = 0 := by omega
            subst hidx0
            split at heq
            next hlbr => exact Option.noConfusion heq
            next es2 hlbr =>
              simp only [Option.some.injEq] at heq
              subst heq
              obtain ⟨hl2, hseq2⟩ := leafBorrowRight_wf hL es1 0 ps1 cnt hx1
                hcnt hcpos hpw1 hin1' es2 hlbr
              exact ⟨by rw [hl2, hlen1], hseq2⟩
            next hlbr =>
              rw [if_pos (by rw [hlen1]; simp only [List.length_cons] at hlen2 ⊢; omega)] at heq
              exact Option.noConfusion heq
      next ces hct =>
        have hwn := hseq.1 _ hidx
        rw [hct] at hwn
        obtain ⟨hnlb, hnub, hnne, hnseq⟩ := wfB_node_iff.mp hwn
        have hmsI : 2 ≤ minSize cfg.internalMax := by rw [minSize]; omega
        have hces2 : 2 ≤ ces.length := by
          have h2 : minSize cfg.internalMax ≤ ces.length := by simpa using hnlb
          omega
        split at heq
        next hrr => exact Option.noConfusion heq
        next c' hrr =>
          obtain ⟨ces', hstep, hms, rfl⟩ := removeRec_node_some hrr
          have hszc : sizeOf ces ≤ n := by
            have h2 := sizeOf_childAt_lt (e :: t) _ hidx
            rw [hct] at h2
            simp at h2 hsz
            omega
          obtain ⟨hlenc, hseqc⟩ := ih ces _ _ hszc hces2 hnseq ces' hstep
          simp only [Option.some.injEq] at heq
          subst heq
          refine ⟨by simp [List.length_set], ?_⟩
          apply seqWF_set_child _ hidx _ (seqWF_to_x hseq _)
          rw [wfB_node_iff]
          refine ⟨by rw [hlenc]; simpa using hnlb, by rwa [hlenc], ?_, hseqc⟩
          intro hnil
          rw [hnil] at hlenc
          simp at hlenc
          omega

/-- Remove keeps the tree state well-formed whenever it returns. -/
theorem removeTree_wf {V : Type} [Inhabited V] (cfg : BPTCfg)
    (hL : 2 ≤ cfg.leafMax) (hI : 4 ≤ cfg.internalMax) (s : Option (BPTree V)) (k : Int)
    (s' : Option (BPTree V)) (hwf : wfTreeB cfg s = true)
    (h : removeTree cfg s k = some s') : wfTreeB cfg s' = true := by
  match s with
  | none =>
    rw [removeTree] at h
    simp only [Option.some.injEq] at h
    subst h
    rfl
  | some (.leaf ps) =>
    rw [wfTreeB] at hwf
    obtain ⟨hpw, hin, hlb, hub⟩ := wfB_leaf_iff.mp hwf
    simp only [removeTree] at h
    by_cases h0 : (leafDelete ps k).length = 0
    · rw [if_pos h0] at h
      simp only [Option.some.injEq] at h
      subst h
      rfl
    · rw [if_neg h0] at h
      simp only [Option.some.injEq] at h
      subst h
      rw [wfTreeB, wfB_leaf_iff]
      have hsub := leafDelete_sublist ps k
      refine ⟨hpw.sublist (hsub.map _), fun p hp => hin p (hsub.subset hp), by simp; omega, ?_⟩
      have := hsub.length_le
      omega
  | some (.node es) =>
    rw [wfTreeB] at hwf
    obtain ⟨hlb, hub, hne, hseq⟩ := wfB_node_iff.mp hwf
    have hlen2 : 2 ≤ es.length := by simpa using hlb
    rw [removeTree] at h
    rcases hstep : removeNodeStep cfg es k with _ | es1
    · simp only [hstep] at h
      exact Option.noConfusion h
    · simp only [hstep] at h
      obtain ⟨hleneq, hseq'⟩ := removeNodeStep_wf cfg hL hI k (sizeOf es) es none none
        (le_refl _) hlen2 hseq es1 hstep
      rw [if_neg (by omega)] at h
      simp only [Option.some.injEq] at h
      subst h
      rw [wfTreeB, wfB_node_iff]
      refine ⟨by rw [hleneq]; exact hlb, by rwa [hleneq], ?_, hseq'⟩
      intro hnil
      rw [hnil] at hleneq
      simp at hleneq
      omega

/-- Well-formedness implies the stored size bounds. -/
theorem szOkB_of_wfB {V : Type} (cfg : BPTCfg) :
    ∀ n (t : BPTree V) (r : Bool) (lo hi : Option Int), sizeOf t ≤ n →
      wfB cfg r lo hi t = true → szOkB cfg r t = true := by
  intro n
  induction n with
  | zero =>
    intro t r lo hi hsz
    cases t <;> simp at hsz
  | succ n ih =>
    intro t r lo hi hsz hwf
    match t with
    | .leaf ps =>
      obtain ⟨-, -, hlb, hub⟩ := wfB_leaf_iff.mp hwf
      rw [szOkB_leaf_iff]
      cases r with
      | true => exact .inl rfl
      | false => exact .inr ⟨by simpa using hlb, hub⟩
    | .node es =>
      obtain ⟨hlb, hub, hne, hseq⟩ := wfB_node_iff.mp hwf
      have hmsI : minSize cfg.internalMax ≤ cfg.internalMax := by rw [minSize]; omega
      rw [szOkB_node_iff]
      constructor
      · cases r with
        | true => exact .inl rfl
        | false => exact .inr ⟨by simpa using hlb, hub⟩
      · intro x hx
        obtain ⟨i, hilt, rfl⟩ := List.mem_iff_getElem.mp hx
        have hci := childAt_eq_getElem es i hilt
        have h2 := hseq.1 i hilt
        rw [hci] at h2
        apply ih _ false _ _ ?_ h2
        have h3 := List.sizeOf_lt_of_mem (List.getElem_mem hilt)
        have h4 := sizeOf_snd_lt es[i]
        simp at hsz
        omega

theorem getElem_idx_congr {α : Type _} (l : List α) {i j : Nat} (h : i = j)
    (hi2 : i < l.length) (hj : j < l.length) : l[i] = l[j] := by
  subst h
  rfl

theorem pairwise_keys_getElem {V : Type} {ps : List (Int × V)}
    (hpw : (ps.map Prod.fst).Pairwise (· < ·)) :
    ∀ i j (hi : i < ps.length) (hj : j < ps.length), i < j → ps[i].1 < ps[j].1 := by
  intro i j hi hj hij
  have := List.pairwise_iff_getElem.mp hpw i j (by simpa using hi) (by simpa using hj) hij
  simpa using this

theorem takeWhile_getElem_prop {α : Type _} (p : α → Bool) (l : List α) (i : Nat)
    (hi : i < (l.takeWhile p).length) (hl : i < l.length) : p l[i] = true := by
  have hpre : l.takeWhile p <+: l := List.takeWhile_prefix p
  have h4 : (l.takeWhile p)[i] ∈ l.takeWhile p := List.getElem_mem hi
  have h5 := List.mem_takeWhile_imp h4
  rwa [hpre.getElem hi] at h5

theorem takeWhile_stop_prop {α : Type _} (p : α → Bool) (l : List α)
    (h : (l.takeWhile p).length < l.length) :
    p l[(l.takeWhile p).length] = false := by
  have h2 := head_drop_takeWhile p l
  rw [List.drop_eq_getElem_cons h] at h2
  have h3 := h2 l[(l.takeWhile p).length] (by simp)
  simpa using h3

theorem internalUB_le_spec {V : Type} (es : List (Int × BPTree V)) (K : Int) (j : Nat)
    (h2 : j + 1 ≤ internalUB es K - 1) (hlen : j + 1 < es.length) :
    keyAtE es (j + 1) ≤ K := by
  have h3 : j < ((es.drop 1).takeWhile (fun e => decide (e.1 ≤ K))).length := by
    rw [internalUB] at h2
    omega
  have h4 : j < (es.drop 1).length := by
    simp only [List.length_drop]
    omega
  have h5 := takeWhile_getElem_prop _ _ _ h3 h4
  have h4b : 1 + j < es.length := by
    simp only [List.length_drop] at h4
    omega
  have h6 : (es.drop 1)[j] = es[1 + j] := List.getElem_drop es
  rw [h6, getElem_idx_congr es (show 1 + j = j + 1 by omega) h4b hlen] at h5
  rw [keyAtE_eq_getElem es (j + 1) hlen]
  simpa using h5

theorem internalUB_gt_spec {V : Type} (es : List (Int × BPTree V)) (K : Int)
    (hlen : internalUB es K < es.length) :
    K < keyAtE es (internalUB es K) := by
  have hlen' : ((es.drop 1).takeWhile (fun e => decide (e.1 ≤ K))).length
      < (es.drop 1).length := by
    rw [internalUB] at hlen
    simp only [List.length_drop]
    omega
  have h5 := takeWhile_stop_prop _ _ hlen'
  have hb : 1 + ((es.drop 1).takeWhile (fun e => decide (e.1 ≤ K))).length < es.length := by
    simp only [List.length_drop] at hlen'
    omega
  have h6 : (es.drop 1)[((es.drop 1).takeWhile (fun e => decide (e.1 ≤ K))).length]
      = es[1 + ((es.drop 1).takeWhile (fun e => decide (e.1 ≤ K))).length] :=
    List.getElem_drop es
  rw [h6] at h5
  rw [internalUB, keyAtE_eq_getElem es _ (by rw [internalUB] at hlen; exact hlen)]
  simpa using h5

theorem leafUB_of_mem {V : Type} (ps : List (Int × V)) (k : Int)
    (hpw : (ps.map Prod.fst).Pairwise (· < ·)) {i0 : Nat} (hi0 : i0 < ps.length)
    (hk : ps[i0].1 = k) :
    leafUB ps k = i0 + 1 := by
  rw [leafUB]
  apply takeWhile_length_eq
  · omega
  · intro i hilt h2
    simp only [decide_eq_true_eq]
    by_cases he : i = i0
    · subst he
      omega
    · have h3 := pairwise_keys_getElem hpw i i0 h2 hi0 (by omega)
      omega
  · intro h2
    show decide (ps[i0 + 1].1 ≤ k) = false
    have h3 := pairwise_keys_getElem hpw i0 (i0 + 1) hi0 h2 (by omega)
    simp only [decide_eq_false_iff_not, not_le]
    omega

theorem getD_insertIdx {α : Type _} (a d : α) :
    ∀ (l : List α) (n : Nat), n ≤ l.length → ∀ (j : Nat),
      (l.insertIdx n a).getD j d
        = if j < n then l.getD j d else if j = n then a else l.getD (j - 1) d := by
  intro l
  induction l with
  | nil =>
    intro n hn j
    simp at hn
    subst hn
    match j with
    | 0 => simp
    | j + 1 => simp
  | cons x t ih =>
    intro n hn j
    cases n with
    | zero =>
      rw [List.insertIdx_zero]
      match j with
      | 0 => simp
      | j + 1 =>
        simp only [if_neg (show ¬ j + 1 < 0 from by omega),
          if_neg (show ¬ j + 1 = 0 from by omega)]
        simp
    | succ n =>
      rw [List.insertIdx_succ_cons]
      match j with
      | 0 => simp
      | j + 1 =>
        rw [List.getD_cons_succ, ih n (by simpa using hn) j]
        by_cases h1 : j < n
        · simp only [if_pos h1, if_pos (show j + 1 < n + 1 from by omega), List.getD_cons_succ]
        · by_cases h2 : j = n
          · simp only [if_neg h1, if_neg (show ¬ j + 1 < n + 1 from by omega),
              if_pos h2, if_pos (show j + 1 = n + 1 from by omega)]
          · simp only [if_neg h1, if_neg (show ¬ j + 1 < n + 1 from by omega),
              if_neg h2, if_neg (show ¬ j + 1 = n + 1 from by omega)]
            rw [show j + 1 - 1 = (j - 1) + 1 from by omega, List.getD_cons_succ]

theorem getD_take {α : Type _} (d : α) (l : List α) (n j : Nat) (h : j < n) :
    (l.take n).getD j d = l.getD j d := by
  by_cases h2 : j < l.length
  · rw [List.getD_eq_getElem _ _ (by simp [List.length_take]; omega),
      List.getD_eq_getElem _ _ h2]
    exact List.getElem_take ..
  · rw [List.getD_eq_default _ _ (by simp [List.length_take]; omega),
      List.getD_eq_default _ _ (by omega)]

theorem getD_drop {α : Type _} (d : α) (l : List α) (n j : Nat) :
    (l.drop n).getD j d = l.getD (n + j) d := by
  by_cases h2 : n + j < l.length
  · rw [List.getD_eq_getElem _ _ (by simp [List.length_drop]; omega),
      List.getD_eq_getElem _ _ h2]
    exact List.getElem_drop l
  · rw [List.getD_eq_default _ _ (by simp [List.length_drop]; omega),
      List.getD_eq_default _ _ (by omega)]

theorem keyAtE_insertIdx {V : Type} (es : List (Int × BPTree V)) (n : Nat)
    (hn : n ≤ es.length) (e : Int × BPTree V) (j : Nat) :
    keyAtE (es.insertIdx n e) j
      = if j < n then keyAtE es j else if j = n then e.1 else keyAtE es (j - 1) := by
  simp only [keyAtE, getD_insertIdx e (0, BPTree.leaf []) es n hn j]
  by_cases h1 : j < n
  · simp only [if_pos h1]
  · simp only [if_neg h1]
    by_cases h2 : j = n
    · simp only [if_pos h2]
    · simp only [if_neg h2]

theorem childAt_insertIdx {V : Type} (es : List (Int × BPTree V)) (n : Nat)
    (hn : n ≤ es.length) (e : Int × BPTree V) (j : Nat) :
    childAt (es.insertIdx n e) j
      = if j < n then childAt es j else if j = n then e.2 else childAt es (j - 1) := by
  simp only [childAt, getD_insertIdx e (0, BPTree.leaf []) es n hn j]
  by_cases h1 : j < n
  · simp only [if_pos h1]
  · simp only [if_neg h1]
    by_cases h2 : j = n
    · simp only [if_pos h2]
    · simp only [if_neg h2]

theorem keyAtE_take {V : Type} (es : List (Int × BPTree V)) (n j : Nat) (h : j < n) :
    keyAtE (es.take n) j = keyAtE es j := by
  rw [keyAtE, keyAtE, getD_take _ es n j h]

theorem childAt_take {V : Type} (es : List (Int × BPTree V)) (n j : Nat) (h : j < n) :
    childAt (es.take n) j = childAt es j := by
  rw [childAt, childAt, getD_take _ es n j h]

theorem keyAtE_drop {V : Type} (es : List (Int × BPTree V)) (n j : Nat) :
    keyAtE (es.drop n) j = keyAtE es (n + j) := by
  rw [keyAtE, keyAtE, getD_drop]

theorem childAt_drop {V : Type} (es : List (Int × BPTree V)) (n j : Nat) :
    childAt (es.drop n) j = childAt es (n + j) := by
  rw [childAt, childAt, getD_drop]

/-- A well-formed child sequence stays well-formed when cut before slot
`st`, with the separator at `st` as new upper bound (the left half of an
internal split). -/
theorem seqWF_take {V : Type} {cfg : BPTCfg} {lo hi : Option Int}
    {es : List (Int × BPTree V)} (h : SeqWF cfg lo hi es) (st : Nat)
    (h1 : 1 ≤ st) (h2 : st < es.length) :
    SeqWF cfg lo (some (keyAtE es st)) (es.take st) := by
  have hlen : (es.take st).length = st := by
    simp only [List.length_take]
    omega
  constructor
  · intro i hilt
    rw [hlen] at hilt
    have hloeq : loAt lo (es.take st) i = loAt lo es i := by
      rw [loAt, loAt]
      by_cases h0 : i = 0
      · rw [if_pos h0, if_pos h0]
      · rw [if_neg h0, if_neg h0, keyAtE_take es st i hilt]
    have hhieq : hiAt (some (keyAtE es st)) (es.take st) i = hiAt hi es i := by
      rw [hiAt, hiAt, hlen]
      by_cases hc : i + 1 < st
      · rw [if_pos hc, if_pos (by omega), keyAtE_take es st (i + 1) hc]
      · have he : i + 1 = st := by omega
        rw [if_neg hc, if_pos (by omega), he]
    rw [hloeq, hhieq, childAt_take es st i hilt]
    exact h.1 i (by omega)
  · intro i hge hilt
    rw [hlen] at hilt
    have hloeq : loAt lo (es.take st) (i - 1) = loAt lo es (i - 1) := by
      rw [loAt, loAt]
      by_cases h0 : i - 1 = 0
      · rw [if_pos h0, if_pos h0]
      · rw [if_neg h0, if_neg h0, keyAtE_take es st (i - 1) (by omega)]
    rw [keyAtE_take es st i hilt, hloeq]
    refine ⟨(h.2 i hge (by omega)).1, ?_⟩
    have hlt := seqWF_sep_lt h i st hge hilt h2
    simpa [inHiB] using hlt

/-- A well-formed child sequence stays well-formed when cut from slot `st`
on, with the separator at `st` as new lower bound (the right half of an
internal split). -/
theorem seqWF_drop {V : Type} {cfg : BPTCfg} {lo hi : Option Int}
    {es : List (Int × BPTree V)} (h : SeqWF cfg lo hi es) (st : Nat)
    (h1 : 1 ≤ st) (h2 : st < es.length) :
    SeqWF cfg (some (keyAtE es st)) hi (es.drop st) := by
  have hlen : (es.drop st).length = es.length - st := by
    simp only [List.length_drop]
  constructor
  · intro i hilt
    rw [hlen] at hilt
    have hloeq : loAt (some (keyAtE es st)) (es.drop st) i = loAt lo es (st + i) := by
      rw [loAt, loAt]
      by_cases h0 : i = 0
      · subst h0
        rw [if_pos rfl, if_neg (by omega), Nat.add_zero]
      · rw [if_neg h0, if_neg (by omega), keyAtE_drop]
    have hhieq : hiAt hi (es.drop st) i = hiAt hi es (st + i) := by
      rw [hiAt, hiAt, hlen]
      by_cases hc : i + 1 < es.length - st
      · rw [if_pos hc, if_pos (by omega), keyAtE_drop, ← Nat.add_assoc]
      · rw [if_neg hc, if_neg (by omega)]
    rw [hloeq, hhieq, childAt_drop]
    exact h.1 (st + i) (by omega)
  · intro i hge hilt
    rw [hlen] at hilt
    have hloeq : loAt (some (keyAtE es st)) (es.drop st) (i - 1)
        = loAt lo es (st + i - 1) := by
      rw [loAt, loAt]
      by_cases h0 : i - 1 = 0
      · rw [if_pos h0, if_neg (by omega)]
        have he : st + i - 1 = st := by omega
        rw [he]
      · rw [if_neg h0, if_neg (by omega), keyAtE_drop]
        have he : st + (i - 1) = st + i - 1 := by omega
        rw [he]
    rw [keyAtE_drop, hloeq]
    have he2 : st + i - 1 = st + i - 1 := rfl
    have hr := h.2 (st + i) (by omega) (by omega)
    exact hr

/-- Inserting a promoted separator and right sibling just after the child
that split preserves the well-formedness of the child sequence. -/
theorem seqWF_insertIdx {V : Type} {cfg : BPTCfg} {lo hi : Option Int}
    {es : List (Int × BPTree V)} (m : Nat) (hm : m < es.length)
    (cL nn : BPTree V) (sep : Int)
    (hx : SeqWFx cfg lo hi es m)
    (hcl : wfB cfg false (loAt lo es m) (some sep) cL = true)
    (hcr : wfB cfg false (some sep) (hiAt hi es m) nn = true)
    (hsl : sepLoB (loAt lo es m) sep = true)
    (hshi : inHiB hi sep = true)
    (hnext : ∀ _ : m + 1 < es.length, sep < keyAtE es (m + 1)) :
    SeqWF cfg lo hi ((es.set m (keyAtE es m, cL)).insertIdx (m + 1) (sep, nn)) := by
  have hmE : m + 1 ≤ (es.set m (keyAtE es m, cL)).length := by
    simp only [List.length_set]
    omega
  have hlen2 : ((es.set m (keyAtE es m, cL)).insertIdx (m + 1) (sep, nn)).length
      = es.length + 1 := by
    rw [List.length_insertIdx _ _ hmE, List.length_set]
  have hkey : ∀ j, keyAtE ((es.set m (keyAtE es m, cL)).insertIdx (m + 1) (sep, nn)) j
      = if j ≤ m then keyAtE es j else if j = m + 1 then sep else keyAtE es (j - 1) := by
    intro j
    rw [keyAtE_insertIdx _ _ hmE _ j]
    by_cases hA : j < m + 1
    · rw [if_pos hA, if_pos (show j ≤ m from by omega), keyAtE_set_keyCh]
    · rw [if_neg hA, if_neg (show ¬ j ≤ m from by omega)]
      by_cases hB : j = m + 1
      · rw [if_pos hB, if_pos hB]
      · rw [if_neg hB, if_neg hB, keyAtE_set_keyCh]
  have hch : ∀ j, childAt ((es.set m (keyAtE es m, cL)).insertIdx (m + 1) (sep, nn)) j
      = if j < m then childAt es j
        else if j = m then cL
        else if j = m + 1 then nn else childAt es (j - 1) := by
    intro j
    rw [childAt_insertIdx _ _ hmE _ j]
    by_cases hA : j < m + 1
    · rw [if_pos hA]
      by_cases hB : j = m
      · subst hB
        rw [if_neg (by omega), if_pos rfl, childAt_set_self _ _ hm]
      · rw [if_pos (show j < m from by omega), childAt_set_ne _ _ _ _ (Ne.symm hB)]
    · rw [if_neg hA, if_neg (show ¬ j < m from by omega),
        if_neg (show ¬ j = m from by omega)]
      by_cases hB : j = m + 1
      · rw [if_pos hB, if_pos hB]
      · rw [if_neg hB, if_neg hB, childAt_set_ne _ _ _ _ (show m ≠ j - 1 from by omega)]
  have hlo : ∀ j, loAt lo ((es.set m (keyAtE es m, cL)).insertIdx (m + 1) (sep, nn)) j
      = if j ≤ m then loAt lo es j
        else if j = m + 1 then some sep else loAt lo es (j - 1) := by
    intro j
    rw [loAt]
    by_cases h0 : j = 0
    · subst h0
      rw [if_pos rfl, if_pos (by omega), loAt, if_pos rfl]
    · rw [if_neg h0, hkey j]
      by_cases hA : j ≤ m
      · rw [if_pos hA, if_pos hA, loAt, if_neg h0]
      · rw [if_neg hA, if_neg hA]
        by_cases hB : j = m + 1
        · rw [if_pos hB, if_pos hB]
        · rw [if_neg hB, if_neg hB, loAt, if_neg (show ¬ j - 1 = 0 from by omega)]
  have hhi : ∀ j, hiAt hi ((es.set m (keyAtE es m, cL)).insertIdx (m + 1) (sep, nn)) j
      = if j < m then hiAt hi es j
        else if j = m then some sep
        else if j = m + 1 then hiAt hi es m else hiAt hi es (j - 1) := by
    intro j
    rw [hiAt, hlen2]
    by_cases hA : j < m
    · rw [if_pos (show j + 1 < es.length + 1 from by omega), hkey (j + 1),
        if_pos (show j + 1 ≤ m from by omega), if_pos hA, hiAt,
        if_pos (show j + 1 < es.length from by omega)]
    · rw [if_neg hA]
      by_cases hB : j = m
      · subst hB
        rw [if_pos (show j + 1 < es.length + 1 from by omega), hkey (j + 1),
          if_neg (show ¬ j + 1 ≤ j from by omega), if_pos rfl, if_pos rfl]
      · rw [if_neg hB]
        by_cases hC : j = m + 1
        · subst hC
          rw [if_pos rfl]
          by_cases hD : m + 1 < es.length
          · rw [if_pos (show m + 1 + 1 < es.length + 1 from by omega), hkey (m + 1 + 1),
              if_neg (show ¬ m + 1 + 1 ≤ m from by omega),
              if_neg (show ¬ m + 1 + 1 = m + 1 from by omega), hiAt, if_pos hD,
              Nat.add_sub_cancel]
          · rw [if_neg (show ¬ m + 1 + 1 < es.length + 1 from by omega), hiAt, if_neg hD]
        · rw [if_neg hC]
          by_cases hD : j + 1 < es.length + 1
          · rw [if_pos hD, hkey (j + 1), if_neg (show ¬ j + 1 ≤ m from by omega),
              if_neg (show ¬ j + 1 = m + 1 from by omega), hiAt,
              if_pos (show j - 1 + 1 < es.length from by omega)]
            have he : j + 1 - 1 = j - 1 + 1 := by omega
            rw [he]
          · rw [if_neg hD, hiAt, if_neg (show ¬ j - 1 + 1 < es.length from by omega)]
  constructor
  · intro i hilt
    rw [hlen2] at hilt
    rw [hlo i, hhi i, hch i]
    by_cases hA : i < m
    · rw [if_pos (show i ≤ m from by omega), if_pos hA, if_pos hA]
      exact hx.1 i (by omega) (by omega)
    · by_cases hB : i = m
      · subst hB
        rw [if_pos (le_refl i), if_neg (by omega), if_pos rfl, if_neg hA, if_pos rfl]
        exact hcl
      · by_cases hC : i = m + 1
        · subst hC
          rw [if_neg (by omega), if_neg hA, if_neg hB, if_pos rfl, if_pos rfl, if_pos rfl,
            if_neg hA, if_neg hB]
          exact hcr
        · rw [if_neg (show ¬ i ≤ m from by omega), if_neg hC, if_neg hA, if_neg hB,
            if_neg hC, if_neg hA, if_neg hB, if_neg hC]
          exact hx.1 (i - 1) (by omega) (by omega)
  · intro i hge hilt
    rw [hlen2] at hilt
    rw [hlo (i - 1), hkey i]
    by_cases hA : i ≤ m
    · rw [if_pos (show i - 1 ≤ m from by omega), if_pos hA]
      exact hx.2 i hge (by omega)
    · by_cases hB : i = m + 1
      · subst hB
        rw [if_pos (show m + 1 - 1 ≤ m from by omega), if_neg hA, if_pos rfl]
        have he : m + 1 - 1 = m := by omega
        rw [he]
        exact ⟨hsl, hshi⟩
      · by_cases hC : i = m + 2
        · subst hC
          rw [if_neg (show ¬ m + 2 - 1 ≤ m from by omega),
            if_pos (show m + 2 - 1 = m + 1 from by omega), if_neg hA, if_neg hB]
          have hmlt : m + 1 < es.length := by omega
          have h5 := hnext hmlt
          have he : m + 2 - 1 = m + 1 := by omega
          rw [he]
          refine ⟨by simpa [sepLoB] using h5, (hx.2 (m + 1) (by omega) hmlt).2⟩
        · rw [if_neg (show ¬ i - 1 ≤ m from by omega),
            if_neg (show ¬ i - 1 = m + 1 from by omega), if_neg hA, if_neg hB]
          have hr := hx.2 (i - 1) (by omega) (by omega)
          have he : i - 1 - 1 = i - 2 := by omega
          have he2 : i - 1 - 1 = i - 1 - 1 := rfl
          exact hr


theorem mem_treePairs_idx {V : Type} {es : List (Int × BPTree V)} {p : Int × V} :
    p ∈ treePairs (.node es) ↔ ∃ i, i < es.length ∧ p ∈ treePairs (childAt es i) := by
  rw [mem_treePairs_node]
  constructor
  · rintro ⟨x, hx, hp⟩
    obtain ⟨i, hilt, rfl⟩ := List.mem_iff_getElem.mp hx
    refine ⟨i, hilt, ?_⟩
    rw [childAt_eq_getElem es i hilt]
    exact hp
  · rintro ⟨i, hilt, hp⟩
    refine ⟨es[i], List.getElem_mem hilt, ?_⟩
    rw [← childAt_eq_getElem es i hilt]
    exact hp

theorem mem_node_other {V : Type} {es : List (Int × BPTree V)} (m : Nat)
    (hm : m < es.length) (p : Int × V) :
    p ∈ treePairs (.node es)
      ↔ (∃ i, i < es.length ∧ i ≠ m ∧ p ∈ treePairs (childAt es i))
        ∨ p ∈ treePairs (childAt es m) := by
  rw [mem_treePairs_idx]
  constructor
  · rintro ⟨i, hilt, hp⟩
    by_cases he : i = m
    · subst he
      exact Or.inr hp
    · exact Or.inl ⟨i, hilt, he, hp⟩
  · rintro (⟨i, hilt, _, hp⟩ | hp)
    · exact ⟨i, hilt, hp⟩
    · exact ⟨m, hm, hp⟩

theorem mem_node_set {V : Type} {es : List (Int × BPTree V)} (m : Nat)
    (hm : m < es.length) (K : Int) (c : BPTree V) (p : Int × V) :
    p ∈ treePairs (.node (es.set m (K, c)))
      ↔ (∃ i, i < es.length ∧ i ≠ m ∧ p ∈ treePairs (childAt es i))
        ∨ p ∈ treePairs c := by
  rw [mem_treePairs_idx]
  constructor
  · rintro ⟨i, hilt, hp⟩
    rw [List.length_set] at hilt
    by_cases he : i = m
    · subst he
      rw [childAt_set_self _ _ hilt] at hp
      exact Or.inr hp
    · rw [childAt_set_ne _ _ _ _ (Ne.symm he)] at hp
      exact Or.inl ⟨i, hilt, he, hp⟩
  · rintro (⟨i, hilt, hne, hp⟩ | hp)
    · refine ⟨i, by simpa using hilt, ?_⟩
      rw [childAt_set_ne _ _ _ _ (Ne.symm hne)]
      exact hp
    · refine ⟨m, by simpa using hm, ?_⟩
      rw [childAt_set_self _ _ hm]
      exact hp

theorem mem_node_set_insert {V : Type} {es : List (Int × BPTree V)} (m : Nat)
    (hm : m < es.length) (K sep : Int) (cL nn : BPTree V) (p : Int × V) :
    p ∈ treePairs (.node ((es.set m (K, cL)).insertIdx (m + 1) (sep, nn)))
      ↔ (∃ i, i < es.length ∧ i ≠ m ∧ p ∈ treePairs (childAt es i))
        ∨ p ∈ treePairs cL ∨ p ∈ treePairs nn := by
  have hmE : m + 1 ≤ (es.set m (K, cL)).length := by
    simp only [List.length_set]
    omega
  rw [mem_treePairs_idx]
  constructor
  · rintro ⟨i, hilt, hp⟩
    rw [List.length_insertIdx _ _ hmE, List.length_set] at hilt
    rw [childAt_insertIdx _ _ hmE _ i] at hp
    by_cases hA : i < m + 1
    · rw [if_pos hA] at hp
      by_cases hB : i = m
      · subst hB
        rw [childAt_set_self _ _ hm] at hp
        exact Or.inr (Or.inl hp)
      · rw [childAt_set_ne _ _ _ _ (Ne.symm hB)] at hp
        exact Or.inl ⟨i, by omega, hB, hp⟩
    · rw [if_neg hA] at hp
      by_cases hB : i = m + 1
      · rw [if_pos hB] at hp
        exact Or.inr (Or.inr hp)
      · rw [if_neg hB, childAt_set_ne _ _ _ _ (show m ≠ i - 1 from by omega)] at hp
        exact Or.inl ⟨i - 1, by omega, by omega, hp⟩
  · rintro (⟨i, hilt, hne, hp⟩ | hp | hp)
    · by_cases hA : i < m
      · refine ⟨i, ?_, ?_⟩
        · rw [List.length_insertIdx _ _ hmE, List.length_set]
          omega
        · rw [childAt_insertIdx _ _ hmE _ i, if_pos (by omega),
            childAt_set_ne _ _ _ _ (show m ≠ i from by omega)]
          exact hp
      · refine ⟨i + 1, ?_, ?_⟩
        · rw [List.length_insertIdx _ _ hmE, List.length_set]
          omega
        · rw [childAt_insertIdx _ _ hmE _ (i + 1), if_neg (by omega),
            if_neg (show ¬ i + 1 = m + 1 from by omega)]
          have he : i + 1 - 1 = i := rfl
          rw [he, childAt_set_ne _ _ _ _ (show m ≠ i from by omega)]
          exact hp
    · refine ⟨m, ?_, ?_⟩
      · rw [List.length_insertIdx _ _ hmE, List.length_set]
        omega
      · rw [childAt_insertIdx _ _ hmE _ m, if_pos (by omega), childAt_set_self _ _ hm]
        exact hp
    · refine ⟨m + 1, ?_, ?_⟩
      · rw [List.length_insertIdx _ _ hmE, List.length_set]
        omega
      · rw [childAt_insertIdx _ _ hmE _ (m + 1), if_neg (by omega), if_pos rfl]
        exact hp

theorem mem_node_split {V : Type} {es : List (Int × BPTree V)} (st : Nat)
    (hst : st ≤ es.length) (p : Int × V) :
    p ∈ treePairs (.node (es.take st)) ∨ p ∈ treePairs (.node (es.drop st))
      ↔ p ∈ treePairs (.node es) := by
  rw [mem_treePairs_idx, mem_treePairs_idx, mem_treePairs_idx]
  constructor
  · rintro (⟨i, hilt, hp⟩ | ⟨i, hilt, hp⟩)
    · rw [List.length_take] at hilt
      have hi2 : i < st := by omega
      rw [childAt_take es st i hi2] at hp
      exact ⟨i, by omega, hp⟩
    · rw [List.length_drop] at hilt
      rw [childAt_drop] at hp
      exact ⟨st + i, by omega, hp⟩
  · rintro ⟨i, hilt, hp⟩
    by_cases hA : i < st
    · refine Or.inl ⟨i, ?_, ?_⟩
      · rw [List.length_take]
        omega
      · rw [childAt_take es st i hA]
        exact hp
    · refine Or.inr ⟨i - st, ?_, ?_⟩
      · rw [List.length_drop]
        omega
      · rw [childAt_drop]
        have he : st + (i - st) = i := by omega
        rw [he]
        exact hp

theorem headD_drop {α : Type _} (l : List α) (n : Nat) (h : n < l.length) (e : α) :
    (l.drop n).headD e = l[n] := by
  rw [List.drop_eq_getElem_cons h]
  rfl

theorem pairwise_keys_iff {V : Type} {ps : List (Int × V)} :
    (ps.map Prod.fst).Pairwise (· < ·)
      ↔ ∀ i j (hi2 : i < ps.length) (hj : j < ps.length), i < j → ps[i].1 < ps[j].1 := by
  rw [List.pairwise_iff_getElem]
  constructor
  · intro h i j hi2 hj hij
    have := h i j (by simpa using hi2) (by simpa using hj) hij
    simpa using this
  · intro h i j hi2 hj hij
    have := h i j (by simpa using hi2) (by simpa using hj) hij
    simpa using this


theorem leafUB_le_length {V : Type} (ps : List (Int × V)) (k : Int) :
    leafUB ps k ≤ ps.length := (List.takeWhile_sublist _).length_le

theorem leafUB_le_spec {V : Type} (ps : List (Int × V)) (k : Int) (j : Nat)
    (hj : j < leafUB ps k) (hjlen : j < ps.length) : ps[j].1 ≤ k := by
  have h5 := takeWhile_getElem_prop (fun p => decide (p.1 ≤ k)) ps j
    (by rw [leafUB] at hj; exact hj) hjlen
  simpa using h5

theorem leafUB_stop_spec {V : Type} (ps : List (Int × V)) (k : Int)
    (hlt : leafUB ps k < ps.length) : k < (ps[leafUB ps k]).1 := by
  have h5 := takeWhile_stop_prop (fun p => decide (p.1 ≤ k)) ps
    (by rw [leafUB] at hlt; exact hlt)
  simp only [decide_eq_false_iff_not, not_le] at h5
  exact h5

/-- The leaf case of `InsertRecursively`: a failed insert leaves the page
unchanged, and a successful insert means the key was absent, and yields
either an in-place insert or a well-formed split with the promoted
separator keys correct. -/
theorem insertLeaf_wf {V : Type} (cfg : BPTCfg) (hdr : List (Int × V) → Int)
    (hL : 2 ≤ cfg.leafMax) (k : Int) (v : V) (r : Bool) (lo hi : Option Int)
    (ps : List (Int × V)) (hwf : wfB cfg r lo hi (.leaf ps) = true)
    (hlo : inLoB lo k = true) (hhi : inHiB hi k = true)
    (t' : BPTree V) (promo : Option (Int × BPTree V)) (succ : Bool)
    (heq : insertRec cfg hdr (.leaf ps) k v = (t', promo, succ)) :
    (succ = false → t' = .leaf ps ∧ promo = none) ∧
    (succ = true →
      k ∉ (treePairs (BPTree.leaf ps)).map Prod.fst ∧
      (promo = none → wfB cfg r lo hi t' = true ∧
          (∀ p : Int × V, p ∈ treePairs t' ↔ p ∈ treePairs (BPTree.leaf ps) ∨ p = (k, v))) ∧
      (∀ sep nn, promo = some (sep, nn) →
          wfB cfg false lo (some sep) t' = true ∧
          wfB cfg false (some sep) hi nn = true ∧
          sepLoB lo sep = true ∧ inHiB hi sep = true ∧
          (∀ p : Int × V, p ∈ treePairs t' ∨ p ∈ treePairs nn
            ↔ p ∈ treePairs (BPTree.leaf ps) ∨ p = (k, v)))) := by
  obtain ⟨hpw, hin, hmn, hub⟩ := wfB_leaf_iff.mp hwf
  simp only [insertRec] at heq
  by_cases hdup :
      (if leafUB ps k = 0 then hdr ps else (ps.getD (leafUB ps k - 1) (0, v)).1) = k
  · rw [if_pos hdup] at heq
    simp only [Prod.mk.injEq] at heq
    obtain ⟨rfl, rfl, rfl⟩ := heq
    exact ⟨fun _ => ⟨rfl, rfl⟩, fun h => nomatch h⟩
  · have hub2 := leafUB_le_length ps k
    have hlen : (ps.insertIdx (leafUB ps k) (k, v)).length = ps.length + 1 :=
      List.length_insertIdx _ _ hub2
    have hpwD : ∀ i j, i < j → j < ps.length →
        (ps.getD i (0, v)).1 < (ps.getD j (0, v)).1 := by
      intro i j hij hj
      rw [List.getD_eq_getElem ps _ (by omega), List.getD_eq_getElem ps _ hj]
      exact pairwise_keys_getElem hpw i j (by omega) hj hij
    have hleD : ∀ j, j < leafUB ps k → (ps.getD j (0, v)).1 ≤ k := by
      intro j hj
      have hjlen : j < ps.length := by omega
      rw [List.getD_eq_getElem ps _ hjlen]
      exact leafUB_le_spec ps k j hj hjlen
    have hstopD : leafUB ps k < ps.length → k < (ps.getD (leafUB ps k) (0, v)).1 := by
      intro hlt
      rw [List.getD_eq_getElem ps _ hlt]
      exact leafUB_stop_spec ps k hlt
    have hstrictD : ∀ j, j < leafUB ps k → (ps.getD j (0, v)).1 < k := by
      intro j hj
      by_cases hje : j = leafUB ps k - 1
      · have h1 : (ps.getD (leafUB ps k - 1) (0, v)).1 ≠ k := by
          intro hcon
          exact hdup (by rw [if_neg (by omega)]; exact hcon)
        have h2 := hleD j hj
        rw [hje] at h2 ⊢
        omega
      · have h2 := hpwD j (leafUB ps k - 1) (by omega) (by omega)
        have h3 := hleD (leafUB ps k - 1) (by omega)
        omega
    have hg : ∀ a (ha : a < (ps.insertIdx (leafUB ps k) (k, v)).length),
        ((ps.insertIdx (leafUB ps k) (k, v))[a]).1
          = if a < leafUB ps k then (ps.getD a (0, v)).1
            else if a = leafUB ps k then k else (ps.getD (a - 1) (0, v)).1 := by
      intro a ha
      rw [← List.getD_eq_getElem (ps.insertIdx (leafUB ps k) (k, v)) (0, v) ha,
        getD_insertIdx (k, v) (0, v) ps (leafUB ps k) hub2 a]
      by_cases h1 : a < leafUB ps k
      · simp only [if_pos h1]
      · simp only [if_neg h1]
        by_cases h2 : a = leafUB ps k
        · simp only [if_pos h2]
        · simp only [if_neg h2]
    have hpw' : ((ps.insertIdx (leafUB ps k) (k, v)).map Prod.fst).Pairwise (· < ·) := by
      rw [pairwise_keys_iff]
      intro i j hi2 hj hij
      rw [hg i hi2, hg j hj]
      rw [hlen] at hi2 hj
      by_cases hi3 : i < leafUB ps k
      · rw [if_pos hi3]
        by_cases hj3 : j < leafUB ps k
        · rw [if_pos hj3]
          exact hpwD i j hij (by omega)
        · rw [if_neg hj3]
          by_cases hj4 : j = leafUB ps k
          · rw [if_pos hj4]
            exact hstrictD i hi3
          · rw [if_neg hj4]
            exact hpwD i (j - 1) (by omega) (by omega)
      · rw [if_neg hi3]
        by_cases hi4 : i = leafUB ps k
        · rw [if_pos hi4, if_neg (by omega), if_neg (by omega)]
          by_cases hj5 : j - 1 = leafUB ps k
          · rw [hj5]
            exact hstopD (by omega)
          · have h6 := hstopD (by omega)
            have h7 := hpwD (leafUB ps k) (j - 1) (by omega) (by omega)
            omega
        · rw [if_neg hi4, if_neg (by omega), if_neg (by omega)]
          exact hpwD (i - 1) (j - 1) (by omega) (by omega)
    have hin' : ∀ p ∈ ps.insertIdx (leafUB ps k) (k, v),
        inLoB lo p.1 = true ∧ inHiB hi p.1 = true := by
      intro p hp
      rcases (List.mem_insertIdx hub2).mp hp with h | h
      · subst h
        exact ⟨hlo, hhi⟩
      · exact hin p h
    have hknotin : k ∉ (treePairs (BPTree.leaf ps)).map Prod.fst := by
      intro hk
      rw [treePairs] at hk
      obtain ⟨p0, hp0, hp0k⟩ := List.mem_map.mp hk
      obtain ⟨i0, hi0, rfl⟩ := List.mem_iff_getElem.mp hp0
      have hub0 := leafUB_of_mem ps k hpw hi0 hp0k
      apply hdup
      rw [hub0, if_neg (by omega)]
      have he : i0 + 1 - 1 = i0 := rfl
      rw [he, List.getD_eq_getElem ps _ hi0]
      exact hp0k
    rw [if_neg hdup, if_neg (by omega : ¬ cfg.leafMax ≤ ps.length), hlen] at heq
    by_cases hsp : ps.length + 1 < cfg.leafMax
    · rw [if_pos hsp] at heq
      simp only [Prod.mk.injEq] at heq
      obtain ⟨rfl, rfl, rfl⟩ := heq
      refine ⟨fun h => (nomatch h),
        fun _ => ⟨hknotin, fun _ => ⟨?_, ?_⟩, fun sep nn h => (nomatch h)⟩⟩
      · rw [wfB_leaf_iff]
        exact ⟨hpw', hin', by rw [hlen]; omega, by rw [hlen]; omega⟩
      · intro p
        rw [treePairs, treePairs, List.mem_insertIdx hub2]
        tauto
    · rw [if_neg hsp] at heq
      simp only [Prod.mk.injEq] at heq
      obtain ⟨rfl, rfl, rfl⟩ := heq
      have hfull : ps.length + 1 = cfg.leafMax := by omega
      have hstart1 : 1 ≤ (ps.length + 1) / 2 := by omega
      have hstartlt : (ps.length + 1) / 2 < (ps.insertIdx (leafUB ps k) (k, v)).length := by
        rw [hlen]
        omega
      have hsep : (((ps.insertIdx (leafUB ps k) (k, v)).drop ((ps.length + 1) / 2)).headD
            (k, v)).1
          = ((ps.insertIdx (leafUB ps k) (k, v))[(ps.length + 1) / 2]).1 := by
        rw [headD_drop _ _ hstartlt]
      have hlenT : ((ps.insertIdx (leafUB ps k) (k, v)).take ((ps.length + 1) / 2)).length
          = (ps.length + 1) / 2 := by
        rw [List.length_take, hlen]
        omega
      have hlenD : ((ps.insertIdx (leafUB ps k) (k, v)).drop ((ps.length + 1) / 2)).length
          = ps.length + 1 - (ps.length + 1) / 2 := by
        rw [List.length_drop, hlen]
      refine ⟨fun h => (nomatch h), fun _ => ⟨hknotin, fun hno => (nomatch hno), ?_⟩⟩
      intro sep nn h
      simp only [Option.some.injEq, Prod.mk.injEq] at h
      obtain ⟨rfl, rfl⟩ := h
      refine ⟨?_, ?_, ?_, ?_, ?_⟩
      · rw [hsep, wfB_leaf_iff]
        refine ⟨hpw'.sublist ((List.take_sublist _ _).map _), ?_, ?_, ?_⟩
        · intro p hp
          refine ⟨(hin' p (List.take_subset _ _ hp)).1, ?_⟩
          obtain ⟨i, hilt, rfl⟩ := List.mem_iff_getElem.mp hp
          have hlt2 : i < (ps.length + 1) / 2 := by
            rw [hlenT] at hilt
            exact hilt
          have hib : i < (ps.insertIdx (leafUB ps k) (k, v)).length := by
            rw [hlen]
            omega
          have hgeq : ((ps.insertIdx (leafUB ps k) (k, v)).take ((ps.length + 1) / 2))[i]
              = (ps.insertIdx (leafUB ps k) (k, v))[i] :=
            List.getElem_take ..
          rw [hgeq]
          have h7 := pairwise_keys_getElem hpw' i ((ps.length + 1) / 2) (by rw [hlen]; omega)
            hstartlt hlt2
          simpa [inHiB] using h7
        · rw [hlenT]
          have he : (if false = true then 1 else minSize cfg.leafMax)
              = minSize cfg.leafMax := rfl
          rw [he, minSize]
          omega
        · rw [hlenT]
          omega
      · rw [hsep, wfB_leaf_iff]
        refine ⟨hpw'.sublist ((List.drop_sublist _ _).map _), ?_, ?_, ?_⟩
        · intro p hp
          refine ⟨?_, (hin' p (List.drop_subset _ _ hp)).2⟩
          obtain ⟨i, hilt, rfl⟩ := List.mem_iff_getElem.mp hp
          have hlt2 : (ps.length + 1) / 2 + i < (ps.insertIdx (leafUB ps k) (k, v)).length := by
            rw [hlenD] at hilt
            rw [hlen]
            omega
          have hgeq : ((ps.insertIdx (leafUB ps k) (k, v)).drop ((ps.length + 1) / 2))[i]
              = (ps.insertIdx (leafUB ps k) (k, v))[(ps.length + 1) / 2 + i] :=
            List.getElem_drop _
          rw [hgeq]
          by_cases hi0 : i = 0
          · subst hi0
            have he2 : (ps.length + 1) / 2 + 0 = (ps.length + 1) / 2 := rfl
            simp [inLoB, he2]
          · have h7 := pairwise_keys_getElem hpw' ((ps.length + 1) / 2)
              ((ps.length + 1) / 2 + i) hstartlt hlt2 (by omega)
            simp only [inLoB, decide_eq_true_eq]
            omega
        · rw [hlenD]
          have he : (if false = true then 1 else minSize cfg.leafMax)
              = minSize cfg.leafMax := rfl
          rw [he, minSize]
          omega
        · rw [hlenD]
          omega
      · rw [hsep]
        have h0b : 0 < (ps.insertIdx (leafUB ps k) (k, v)).length := by
          rw [hlen]
          omega
        have h0in : (ps.insertIdx (leafUB ps k) (k, v))[0]
            ∈ ps.insertIdx (leafUB ps k) (k, v) := List.getElem_mem h0b
        have h0lo := (hin' _ h0in).1
        have h0lt := pairwise_keys_getElem hpw' 0 ((ps.length + 1) / 2) h0b hstartlt (by omega)
        exact sepLoB_of_lt_of_inLoB h0lo h0lt
      · rw [hsep]
        exact (hin' _ (List.getElem_mem hstartlt)).2
      · intro p
        rw [treePairs, treePairs, treePairs]
        have hsplit2 : p ∈ (ps.insertIdx (leafUB ps k) (k, v)).take ((ps.length + 1) / 2)
            ∨ p ∈ (ps.insertIdx (leafUB ps k) (k, v)).drop ((ps.length + 1) / 2)
            ↔ p ∈ ps.insertIdx (leafUB ps k) (k, v) := by
          rw [← List.mem_append, List.take_append_drop]
        rw [hsplit2, List.mem_insertIdx hub2]
        tauto


set_option maxHeartbeats 1600000 in
/-- `InsertRecursively` preserves well-formedness: a failed insert changes
nothing, and a successful insert means the probe key was absent and yields
either a well-formed in-place update or a well-formed split whose promoted
separator strictly separates the two halves, with the contents extended by
exactly the new pair. -/
theorem insertRec_wf {V : Type} (cfg : BPTCfg) (hdr : List (Int × V) → Int)
    (hL : 2 ≤ cfg.leafMax) (hI : 3 ≤ cfg.internalMax) (k : Int) (v : V) :
    ∀ n (t : BPTree V) (r : Bool) (lo hi : Option Int), sizeOf t ≤ n →
      wfB cfg r lo hi t = true → inLoB lo k = true → inHiB hi k = true →
      ∀ t' promo succ, insertRec cfg hdr t k v = (t', promo, succ) →
      (succ = false → t' = t ∧ promo = none) ∧
      (succ = true →
        k ∉ (treePairs t).map Prod.fst ∧
        (promo = none → wfB cfg r lo hi t' = true ∧
            (∀ p : Int × V, p ∈ treePairs t' ↔ p ∈ treePairs t ∨ p = (k, v))) ∧
        (∀ sep nn, promo = some (sep, nn) →
            wfB cfg false lo (some sep) t' = true ∧
            wfB cfg false (some sep) hi nn = true ∧
            sepLoB lo sep = true ∧ inHiB hi sep = true ∧
            (∀ p : Int × V, p ∈ treePairs t' ∨ p ∈ treePairs nn
              ↔ p ∈ treePairs t ∨ p = (k, v)))) := by
  intro n
  induction n with
  | zero =>
    intro t r lo hi hsz
    cases t <;> simp at hsz
  | succ n ih =>
    intro t r lo hi hsz hwf hlo hhi t' promo succ heq
    match t with
    | .leaf ps =>
      exact insertLeaf_wf cfg hdr hL k v r lo hi ps hwf hlo hhi t' promo succ heq
    | .node [] =>
      rw [wfB] at hwf
      simp at hwf
    | .node (e :: t0) =>
      obtain ⟨hminb, hub, -, hseq⟩ := wfB_node_iff.mp hwf
      have hub1 := internalUB_le e t0 k
      have hge1 : 1 ≤ internalUB (e :: t0) k := Nat.le_add_right 1 _
      have hmlt : internalUB (e :: t0) k - 1 < (e :: t0).length := internalUB_pred_lt e t0 k
      have hklo : inLoB (loAt lo (e :: t0) (internalUB (e :: t0) k - 1)) k = true := by
        rw [loAt]
        by_cases h0 : internalUB (e :: t0) k - 1 = 0
        · rw [if_pos h0]
          exact hlo
        · rw [if_neg h0]
          have h1 := internalUB_le_spec (e :: t0) k (internalUB (e :: t0) k - 2)
            (by omega) (by omega)
          rw [show internalUB (e :: t0) k - 2 + 1 = internalUB (e :: t0) k - 1 from
            by omega] at h1
          simpa [inLoB] using h1
      have hkhi : inHiB (hiAt hi (e :: t0) (internalUB (e :: t0) k - 1)) k = true := by
        rw [hiAt]
        by_cases hc : internalUB (e :: t0) k - 1 + 1 < (e :: t0).length
        · rw [if_pos hc]
          have h1 := internalUB_gt_spec (e :: t0) k (by omega)
          rw [show internalUB (e :: t0) k - 1 + 1 = internalUB (e :: t0) k from by omega]
          simpa [inHiB] using h1
        · rw [if_neg hc]
          exact hhi
      have hchwf := hseq.1 (internalUB (e :: t0) k - 1) hmlt
      have hszc : sizeOf (childAt (e :: t0) (internalUB (e :: t0) k - 1)) ≤ n := by
        have h1 := sizeOf_childAt_lt (e :: t0) _ hmlt
        simp at hsz h1
        omega
      rcases hcr : insertRec cfg hdr (childAt (e :: t0) (internalUB (e :: t0) k - 1)) k v
        with ⟨c', promo0, succ0⟩
      obtain ⟨IH1, IH2⟩ := ih _ false _ _ hszc hchwf hklo hkhi c' promo0 succ0 hcr
      have hknotinN : succ0 = true → k ∉ (treePairs (BPTree.node (e :: t0))).map Prod.fst := by
        intro hs hk
        obtain ⟨IHk, -⟩ := IH2 hs
        obtain ⟨p0, hp0, hp0k⟩ := List.mem_map.mp hk
        rcases (mem_node_other (internalUB (e :: t0) k - 1) hmlt p0).mp hp0 with
          ⟨i, hilt, hne, hpi⟩ | hpm
        · have hint := treePairs_in_interval cfg (sizeOf (childAt (e :: t0) i)) _ false _ _
            (le_refl _) (hseq.1 i hilt) p0 hpi
          rcases Nat.lt_or_ge i (internalUB (e :: t0) k - 1) with hlt2 | hge2
          · have h2 := hint.2
            rw [hiAt, if_pos (by omega)] at h2
            have h3 : p0.1 < keyAtE (e :: t0) (i + 1) := by simpa [inHiB] using h2
            have h4 := internalUB_le_spec (e :: t0) k i (by omega) (by omega)
            omega
          · have hgt2 : internalUB (e :: t0) k - 1 < i := by omega
            have h2 := hint.1
            rw [loAt, if_neg (by omega)] at h2
            have h3 : keyAtE (e :: t0) i ≤ p0.1 := by simpa [inLoB] using h2
            have h4 := internalUB_gt_spec (e :: t0) k (by omega)
            by_cases hie : i = internalUB (e :: t0) k
            · rw [hie] at h3
              omega
            · have h5 := seqWF_sep_lt hseq (internalUB (e :: t0) k) i (by omega)
                (by omega) hilt
              omega
        · refine IHk ?_
          have h6 := List.mem_map_of_mem Prod.fst hpm
          rwa [hp0k] at h6
      rcases promo0 with _ | ⟨sep0, nn0⟩
      · simp only [insertRec, hcr] at heq
        rw [if_pos (Or.inl (by rw [List.length_set]; exact hub))] at heq
        simp only [Prod.mk.injEq] at heq
        obtain ⟨rfl, rfl, rfl⟩ := heq
        cases succ0 with
        | false =>
          refine ⟨fun _ => ?_, fun h => (nomatch h)⟩
          obtain ⟨rfl, -⟩ := IH1 rfl
          rw [set_keyCh_self _ _ hmlt]
          exact ⟨rfl, rfl⟩
        | true =>
          obtain ⟨-, IHnone, -⟩ := IH2 rfl
          obtain ⟨IHwf, IHpairs⟩ := IHnone rfl
          refine ⟨fun h => (nomatch h),
            fun _ => ⟨hknotinN rfl, fun _ => ⟨?_, ?_⟩, fun sep nn h => (nomatch h)⟩⟩
          · rw [wfB_node_iff]
            refine ⟨by simpa [List.length_set] using hminb,
              by simpa [List.length_set] using hub,
              List.ne_nil_of_length_pos (by simp [List.length_set]), ?_⟩
            exact seqWF_set_child _ hmlt c' (seqWF_to_x hseq _) IHwf
          · intro p
            rw [mem_node_set _ hmlt, mem_node_other (internalUB (e :: t0) k - 1) hmlt p]
            have h1 := IHpairs p
            constructor
            · rintro (hA | hC)
              · exact Or.inl (Or.inl hA)
              · rcases h1.mp hC with h | h
                · exact Or.inl (Or.inr h)
                · exact Or.inr h
            · rintro ((hA | hC) | hE)
              · exact Or.inl hA
              · exact Or.inr (h1.mpr (Or.inl hC))
              · exact Or.inr (h1.mpr (Or.inr hE))
      · have hsucc0 : succ0 = true := by
          cases succ0 with
          | false => exact absurd (IH1 rfl).2 (by simp)
          | true => rfl
        subst hsucc0
        obtain ⟨-, -, IHsome⟩ := IH2 rfl
        obtain ⟨IHwfL, IHwfR, IHsl, IHhi2, IHpairs⟩ := IHsome sep0 nn0 rfl
        have hshi : inHiB hi sep0 = true := by
          by_cases hc : internalUB (e :: t0) k - 1 + 1 < (e :: t0).length
          · have h2 := IHhi2
            rw [hiAt, if_pos hc] at h2
            have h3 : sep0 < keyAtE (e :: t0) (internalUB (e :: t0) k - 1 + 1) := by
              simpa [inHiB] using h2
            have h4 := (hseq.2 (internalUB (e :: t0) k - 1 + 1) (by omega) hc).2
            exact inHiB_of_le_of_inHiB h4 (by omega)
          · have h2 := IHhi2
            rw [hiAt, if_neg hc] at h2
            exact h2
        have hnext : ∀ _ : internalUB (e :: t0) k - 1 + 1 < (e :: t0).length,
            sep0 < keyAtE (e :: t0) (internalUB (e :: t0) k - 1 + 1) := by
          intro hc
          have h2 := IHhi2
          rw [hiAt, if_pos hc] at h2
          simpa [inHiB] using h2
        have hlenS : ((e :: t0).set (internalUB (e :: t0) k - 1)
            (keyAtE (e :: t0) (internalUB (e :: t0) k - 1), c')).length = t0.length + 1 := by
          simp [List.length_set]
        have hpos : internalUB ((e :: t0).set (internalUB (e :: t0) k - 1)
              (keyAtE (e :: t0) (internalUB (e :: t0) k - 1), c')) sep0
            = internalUB (e :: t0) k - 1 + 1 := by
          apply internalUB_eq
          · rw [hlenS]
            simp only [List.length_cons] at hmlt
            omega
          · intro i h1i him
            rw [keyAtE_set_keyCh]
            have hm1 : keyAtE (e :: t0) (internalUB (e :: t0) k - 1) < sep0 := by
              have h2 := IHsl
              rw [loAt, if_neg (by omega)] at h2
              simpa [sepLoB] using h2
            by_cases hieq : i = internalUB (e :: t0) k - 1
            · rw [hieq]
              omega
            · have h3 := seqWF_sep_lt hseq i (internalUB (e :: t0) k - 1) h1i
                (by omega) hmlt
              omega
          · intro hlt
            rw [keyAtE_set_keyCh]
            apply hnext
            rw [hlenS] at hlt
            simp only [List.length_cons]
            omega
        have hseq2 : SeqWF cfg lo hi (((e :: t0).set (internalUB (e :: t0) k - 1)
            (keyAtE (e :: t0) (internalUB (e :: t0) k - 1), c')).insertIdx
              (internalUB (e :: t0) k - 1 + 1) (sep0, nn0)) :=
          seqWF_insertIdx _ hmlt c' nn0 sep0 (seqWF_to_x hseq _) IHwfL IHwfR IHsl hshi hnext
        have hInsLen : ((((e :: t0).set (internalUB (e :: t0) k - 1)
            (keyAtE (e :: t0) (internalUB (e :: t0) k - 1), c')).insertIdx
              (internalUB (e :: t0) k - 1 + 1) (sep0, nn0))).length = t0.length + 2 := by
          rw [List.length_insertIdx _ _ (by rw [hlenS]; simp only [List.length_cons] at hmlt; omega),
            hlenS]
        simp only [insertRec, hcr] at heq
        rw [if_neg (by rw [List.length_set]; omega :
          ¬ cfg.internalMax ≤ ((e :: t0).set (internalUB (e :: t0) k - 1)
            (keyAtE (e :: t0) (internalUB (e :: t0) k - 1), c')).length), hpos] at heq
        by_cases hsp : t0.length + 2 < cfg.internalMax
        · rw [if_pos (Or.inl (by rw [hInsLen]; exact hsp))] at heq
          simp only [Prod.mk.injEq] at heq
          obtain ⟨rfl, rfl, rfl⟩ := heq
          refine ⟨fun h => (nomatch h),
            fun _ => ⟨hknotinN rfl, fun _ => ⟨?_, ?_⟩, fun sep nn h => (nomatch h)⟩⟩
          · rw [wfB_node_iff, hInsLen]
            refine ⟨?_, hsp, List.ne_nil_of_length_pos (by rw [hInsLen]; omega), hseq2⟩
            have h2 : (if r then 2 else minSize cfg.internalMax) ≤ (e :: t0).length := hminb
            simp only [List.length_cons] at h2
            omega
          · intro p
            rw [mem_node_set_insert _ hmlt,
              mem_node_other (internalUB (e :: t0) k - 1) hmlt p]
            have h1 := IHpairs p
            constructor
            · rintro (hA | hC)
              · exact Or.inl (Or.inl hA)
              · rcases h1.mp hC with h | h
                · exact Or.inl (Or.inr h)
                · exact Or.inr h
            · rintro ((hA | hC) | hE)
              · exact Or.inl hA
              · exact Or.inr (h1.mpr (Or.inl hC))
              · exact Or.inr (h1.mpr (Or.inr hE))
        · have hM : t0.length + 2 = cfg.internalMax := by
            simp only [List.length_cons] at hub
            omega
          rw [if_neg (by rw [hInsLen]; simp; omega)] at heq
          rw [hInsLen] at heq
          simp only [Prod.mk.injEq] at heq
          obtain ⟨rfl, rfl, rfl⟩ := heq
          have hst1 : 1 ≤ (t0.length + 2) / 2 := by omega
          have hstlt : (t0.length + 2) / 2 < (((e :: t0).set (internalUB (e :: t0) k - 1)
              (keyAtE (e :: t0) (internalUB (e :: t0) k - 1), c')).insertIdx
                (internalUB (e :: t0) k - 1 + 1) (sep0, nn0)).length := by
            rw [hInsLen]
            omega
          have hsepN : ((((((e :: t0).set (internalUB (e :: t0) k - 1)
              (keyAtE (e :: t0) (internalUB (e :: t0) k - 1), c')).insertIdx
                (internalUB (e :: t0) k - 1 + 1) (sep0, nn0))).drop
                  ((t0.length + 2) / 2)).headD e).1
              = keyAtE (((e :: t0).set (internalUB (e :: t0) k - 1)
                  (keyAtE (e :: t0) (internalUB (e :: t0) k - 1), c')).insertIdx
                    (internalUB (e :: t0) k - 1 + 1) (sep0, nn0)) ((t0.length + 2) / 2) := by
            rw [headD_drop _ _ hstlt]
            exact (keyAtE_eq_getElem _ _ hstlt).symm
          refine ⟨fun h => (nomatch h),
            fun _ => ⟨hknotinN rfl, fun hno => (nomatch hno), ?_⟩⟩
          intro sep nn h
          simp only [Option.some.injEq, Prod.mk.injEq] at h
          obtain ⟨rfl, rfl⟩ := h
          refine ⟨?_, ?_, ?_, ?_, ?_⟩
          · rw [hsepN, wfB_node_iff]
            refine ⟨?_, ?_, ?_, seqWF_take hseq2 _ hst1 hstlt⟩
            · rw [List.length_take, hInsLen]
              have he2 : (if false = true then 2 else minSize cfg.internalMax)
                  = minSize cfg.internalMax := rfl
              rw [he2, minSize]
              omega
            · rw [List.length_take, hInsLen]
              omega
            · refine List.ne_nil_of_length_pos ?_
              rw [List.length_take, hInsLen]
              omega
          · rw [hsepN, wfB_node_iff]
            refine ⟨?_, ?_, ?_, seqWF_drop hseq2 _ hst1 hstlt⟩
            · rw [List.length_drop, hInsLen]
              have he2 : (if false = true then 2 else minSize cfg.internalMax)
                  = minSize cfg.internalMax := rfl
              rw [he2, minSize]
              omega
            · rw [List.length_drop, hInsLen]
              omega
            · refine List.ne_nil_of_length_pos ?_
              rw [List.length_drop, hInsLen]
              omega
          · rw [hsepN]
            exact seqWF_sepLo_lo hseq2 _ hst1 hstlt
          · rw [hsepN]
            exact (hseq2.2 _ hst1 hstlt).2
          · intro p
            rw [mem_node_split _ (by rw [hInsLen]; omega) p, mem_node_set_insert _ hmlt,
              mem_node_other (internalUB (e :: t0) k - 1) hmlt p]
            have h1 := IHpairs p
            constructor
            · rintro (hA | hC)
              · exact Or.inl (Or.inl hA)
              · rcases h1.mp hC with h | h
                · exact Or.inl (Or.inr h)
                · exact Or.inr h
            · rintro ((hA | hC) | hE)
              · exact Or.inl hA
              · exact Or.inr (h1.mpr (Or.inl hC))
              · exact Or.inr (h1.mpr (Or.inr hE))


/-- `BPlusTree::Insert` at the header level preserves well-formedness; a
failed insert leaves the state unchanged, and a successful one means the key
was absent and adds exactly the new pair. -/
theorem insertTree_wf {V : Type} (cfg : BPTCfg) (hdr : List (Int × V) → Int)
    (hL : 2 ≤ cfg.leafMax) (hI : 3 ≤ cfg.internalMax) (root : Option (BPTree V))
    (k : Int) (v : V) (s' : Option (BPTree V)) (succ : Bool)
    (hwf : wfTreeB cfg root = true)
    (heq : insertTree cfg hdr root k v = (s', succ)) :
    wfTreeB cfg s' = true ∧
    (succ = false → s' = root) ∧
    (succ = true →
      k ∉ (rootPairs root).map Prod.fst ∧
      (∀ p : Int × V, p ∈ rootPairs s' ↔ p ∈ rootPairs root ∨ p = (k, v))) := by
  match root with
  | none =>
    rw [insertTree, if_neg (by omega)] at heq
    simp only [Prod.mk.injEq] at heq
    obtain ⟨rfl, rfl⟩ := heq
    refine ⟨?_, fun h => (nomatch h), fun _ => ⟨by simp [rootPairs], ?_⟩⟩
    · rw [wfTreeB, wfB_leaf_iff]
      refine ⟨by simp, by simp [inLoB, inHiB], by simp, ?_⟩
      simp only [List.length_cons, List.length_nil]
      omega
    · intro p
      simp [rootPairs, treePairs]
  | some t =>
    rw [wfTreeB] at hwf
    rcases hcr : insertRec cfg hdr t k v with ⟨t1, promo0, succ0⟩
    obtain ⟨IH1, IH2⟩ := insertRec_wf cfg hdr hL hI k v (sizeOf t) t true none none
      (le_refl _) hwf rfl rfl t1 promo0 succ0 hcr
    rcases promo0 with _ | ⟨sep0, nn0⟩
    · rw [insertTree, hcr] at heq
      simp only [Prod.mk.injEq] at heq
      obtain ⟨rfl, rfl⟩ := heq
      cases succ0 with
      | false =>
        obtain ⟨rfl, -⟩ := IH1 rfl
        exact ⟨by rw [wfTreeB]; exact hwf, fun _ => rfl, fun h => (nomatch h)⟩
      | true =>
        obtain ⟨IHk, IHnone, -⟩ := IH2 rfl
        obtain ⟨IHwf, IHpairs⟩ := IHnone rfl
        exact ⟨by rw [wfTreeB]; exact IHwf, fun h => (nomatch h),
          fun _ => ⟨IHk, fun p => IHpairs p⟩⟩
    · have hsucc0 : succ0 = true := by
        cases succ0 with
        | false => exact absurd (IH1 rfl).2 (by simp)
        | true => rfl
      subst hsucc0
      obtain ⟨IHk, -, IHsome⟩ := IH2 rfl
      obtain ⟨IHwfL, IHwfR, -, -, IHpairs⟩ := IHsome sep0 nn0 rfl
      simp only [insertTree, hcr] at heq
      rw [if_neg (by omega : ¬ cfg.internalMax ≤ 1)] at heq
      simp only [Prod.mk.injEq] at heq
      obtain ⟨rfl, rfl⟩ := heq
      refine ⟨?_, fun h => (nomatch h), fun _ => ⟨IHk, ?_⟩⟩
      · rw [wfTreeB, wfB_node_iff]
        refine ⟨by simp, ?_, by simp, ?_⟩
        · simp only [List.length_cons, List.length_nil]
          omega
        · constructor
          · intro i hilt
            simp only [List.length_cons, List.length_nil] at hilt
            match i, hilt with
            | 0, _ =>
              rw [loAt, if_pos rfl, hiAt, if_pos (by simp)]
              exact IHwfL
            | 1, _ =>
              rw [loAt, if_neg (by omega), hiAt, if_neg (by simp)]
              exact IHwfR
            | n + 2, h => exact absurd h (by omega)
          · intro i h1 hilt
            simp only [List.length_cons, List.length_nil] at hilt
            match i, h1, hilt with
            | 1, _, _ =>
              refine ⟨?_, rfl⟩
              rw [loAt, if_pos rfl]
              rfl
            | n + 2, _, h => exact absurd h (by omega)
      · intro p
        have h1 := IHpairs p
        rw [rootPairs, rootPairs, mem_treePairs_idx]
        constructor
        · rintro ⟨i, hilt, hp⟩
          simp only [List.length_cons, List.length_nil] at hilt
          match i, hilt, hp with
          | 0, _, hp => exact h1.mp (Or.inl hp)
          | 1, _, hp => exact h1.mp (Or.inr hp)
          | n + 2, h, _ => exact absurd h (by omega)
        · intro h2
          rcases h1.mpr h2 with h | h
          · exact ⟨0, by simp, h⟩
          · exact ⟨1, by simp, h⟩


/-- Every state reached by a sequence of inserts from the fresh empty tree
is well-formed. -/
theorem applyInserts_wf {V : Type} (cfg : BPTCfg) (hdr : List (Int × V) → Int)
    (hL : 2 ≤ cfg.leafMax) (hI : 3 ≤ cfg.internalMax) (l : List (Int × V)) :
    wfTreeB cfg (applyInserts cfg hdr l) = true := by
  rw [applyInserts]
  have h : ∀ (l : List (Int × V)) (s : Option (BPTree V)), wfTreeB cfg s = true →
      wfTreeB cfg (l.foldl (fun s kv => (insertTree cfg hdr s kv.1 kv.2).1) s) = true := by
    intro l
    induction l with
    | nil =>
      intro s hs
      exact hs
    | cons x xs ih =>
      intro s hs
      rw [List.foldl_cons]
      refine ih _ ?_
      show wfTreeB cfg (insertTree cfg hdr s x.1 x.2).1 = true
      rcases hone : insertTree cfg hdr s x.1 x.2 with ⟨s1, sc⟩
      exact (insertTree_wf cfg hdr hL hI s x.1 x.2 s1 sc hs hone).1
  exact h l none rfl

/-- Every state reached by a committed operation sequence from the fresh
empty tree is well-formed. -/
theorem applyOps_wf {V : Type} [Inhabited V] (cfg : BPTCfg) (hdr : List (Int × V) → Int)
    (hL : 2 ≤ cfg.leafMax) (hI : 4 ≤ cfg.internalMax) (ops : List (TreeOp V))
    (s : Option (BPTree V)) (hres : applyOps cfg hdr ops = some s) :
    wfTreeB cfg s = true := by
  rw [applyOps] at hres
  have h : ∀ (ops : List (TreeOp V)) (s0 : Option (BPTree V)), wfTreeB cfg s0 = true →
      ∀ s, ops.foldlM (applyOp cfg hdr) s0 = some s → wfTreeB cfg s = true := by
    intro ops
    induction ops with
    | nil =>
      intro s0 h0 s hs
      simp only [List.foldlM_nil] at hs
      cases hs
      exact h0
    | cons op rest ih =>
      intro s0 h0 s hs
      rw [List.foldlM_cons] at hs
      match op with
      | .ins k v =>
        have hw : wfTreeB cfg (insertTree cfg hdr s0 k v).1 = true := by
          rcases hone : insertTree cfg hdr s0 k v with ⟨s1, sc⟩
          exact (insertTree_wf cfg hdr hL (by omega) s0 k v s1 sc h0 hone).1
        exact ih _ hw s hs
      | .rem k =>
        rcases hop : removeTree cfg s0 k with _ | s1
        · rw [show applyOp cfg hdr s0 (.rem k) = removeTree cfg s0 k from rfl, hop] at hs
          exact Option.noConfusion hs
        · rw [show applyOp cfg hdr s0 (.rem k) = removeTree cfg s0 k from rfl, hop] at hs
          exact ih s1 (removeTree_wf cfg hL hI s0 k s1 h0 hop) s hs
  exact h ops none rfl s hres


/-- C5 (counterexample).  With configured maxima 3/3 the five ascending
inserts 1..5 are a legal operation sequence (the out-of-bounds header read
is never consulted on this run, so its value — here the zero function — is
irrelevant) and they reach a state whose non-root right leaf holds 3 pairs:
the claimed bound `size < configured max_size = 3` is violated (the code
keeps pages up to the *stored* `max_size_ = configured + 1` exclusive). -/
theorem reachable_sizes_claim_false :
    applyOps (treeCfg 3 3) (fun _ => 0)
        [TreeOp.ins 1 1, TreeOp.ins 2 2, TreeOp.ins 3 3, TreeOp.ins 4 4, TreeOp.ins 5 5]
      = some (some (BPTree.node [(0, BPTree.leaf [(1, 1), (2, 2)]),
          (3, BPTree.leaf [(3, 3), (4, 4), (5, 5)])]))
    ∧ claimSizesB (treeCfg 3 3)
        (some (BPTree.node [(0, BPTree.leaf [(1, 1), (2, 2)]),
          (3, BPTree.leaf [(3, 3), (4, 4), (5, 5)])])) = false := by
  constructor
  · simp [applyOps, applyOp, insertTree, insertRec, leafUB, internalUB, treeCfg, childAt,
      keyAtE, minSize, List.takeWhile]
  · rw [Bool.eq_false_iff]
    intro hcon
    rw [claimSizesB] at hcon
    obtain ⟨-, hch⟩ := sizesOkB_node_iff.mp hcon
    have h2 := hch (3, BPTree.leaf [(3, 3), (4, 4), (5, 5)]) (by simp)
    rcases sizesOkB_leaf_iff.mp h2 with h | ⟨-, h⟩
    · exact absurd h (by simp)
    · simp [treeCfg] at h

/-- C5 (amended).  In every tree state reachable by terminating sequences
of Insert and Remove operations, every leaf and every internal node other
than the root has size in `[min_size, max_size_)` where `max_size_` is the
*stored* maximum (the configured maximum plus one, b_plus_tree.cpp lines
18-19): sizes reach the configured maximum inclusively, one more than the
claim's half-open bound.  (Requires a configured leaf maximum of at least 1
and internal maximum of at least 3, so`GetMinSize()` arithmetic and the
borrow paths behave.) -/
theorem reachable_sizes_bounded {V : Type} [Inhabited V] (cfg : BPTCfg)
    (hdr : List (Int × V) → Int) (hL : 2 ≤ cfg.leafMax) (hI : 4 ≤ cfg.internalMax)
    (ops : List (TreeOp V)) (s : Option (BPTree V))
    (hres : applyOps cfg hdr ops = some s) :
    storedSizesB cfg s = true := by
  have hwf := applyOps_wf cfg hdr hL hI ops s hres
  match s with
  | none => rfl
  | some t =>
    rw [wfTreeB] at hwf
    have h2 := szOkB_of_wfB cfg (sizeOf t) t true none none (le_refl _) hwf
    rw [storedSizesB]
    exact h2

/-- Witness for C5: inserting keys 1 and 2 and removing key 1 on configured
maxima 3/3 reaches the singleton leaf, which satisfies the amended size
bounds. -/
theorem reachable_sizes_bounded_witness :
    storedSizesB (treeCfg 3 3) (some (BPTree.leaf [((2 : Int), (20 : Int))])) = true :=
  reachable_sizes_bounded (treeCfg 3 3) (fun _ => 0) (by decide) (by decide)
    [TreeOp.ins 1 10, TreeOp.ins 2 20, TreeOp.rem 1]
    (some (BPTree.leaf [(2, 20)]))
    (by simp [applyOps, applyOp, insertTree, insertRec, removeTree, leafDelete, leafUB,
      treeCfg, List.takeWhile])


/-- Inserting a key already stored in a well-formed subtree is rejected:
the duplicate check compares the probe key with the slot before the upper
bound, which holds exactly that key, so the subtree, the promotion and the
success flag all come back unchanged/empty/false. -/
theorem insertRec_dup {V : Type} (cfg : BPTCfg) (hdr : List (Int × V) → Int)
    (k : Int) (v : V) :
    ∀ n (t : BPTree V) (r : Bool) (lo hi : Option Int), sizeOf t ≤ n →
      wfB cfg r lo hi t = true →
      k ∈ (treePairs t).map Prod.fst →
      insertRec cfg hdr t k v = (t, none, false) := by
  intro n
  induction n with
  | zero =>
    intro t r lo hi hsz
    cases t <;> simp at hsz
  | succ n ih =>
    intro t r lo hi hsz hwf hk
    match t with
    | .leaf ps =>
      obtain ⟨hpw, -, -, -⟩ := wfB_leaf_iff.mp hwf
      rw [treePairs] at hk
      obtain ⟨p0, hp0, hp0k⟩ := List.mem_map.mp hk
      obtain ⟨i0, hi0, rfl⟩ := List.mem_iff_getElem.mp hp0
      have hub0 := leafUB_of_mem ps k hpw hi0 hp0k
      simp only [insertRec]
      rw [hub0, if_neg (by omega : ¬ i0 + 1 = 0)]
      rw [show i0 + 1 - 1 = i0 from rfl, List.getD_eq_getElem ps _ hi0]
      rw [if_pos hp0k]
    | .node [] =>
      rw [wfB] at hwf
      simp at hwf
    | .node (e :: t0) =>
      obtain ⟨-, -, -, hseq⟩ := wfB_node_iff.mp hwf
      have hub1 := internalUB_le e t0 k
      have hge1 : 1 ≤ internalUB (e :: t0) k := Nat.le_add_right 1 _
      have hmlt : internalUB (e :: t0) k - 1 < (e :: t0).length := internalUB_pred_lt e t0 k
      obtain ⟨p0, hp0, hp0k⟩ := List.mem_map.mp hk
      rcases (mem_node_other (internalUB (e :: t0) k - 1) hmlt p0).mp hp0 with
        ⟨i, hilt, hne, hpi⟩ | hpm
      · exfalso
        have hint := treePairs_in_interval cfg (sizeOf (childAt (e :: t0) i)) _ false _ _
          (le_refl _) (hseq.1 i hilt) p0 hpi
        rcases Nat.lt_or_ge i (internalUB (e :: t0) k - 1) with hlt2 | hge2
        · have h2 := hint.2
          rw [hiAt, if_pos (by omega)] at h2
          have h3 : p0.1 < keyAtE (e :: t0) (i + 1) := by simpa [inHiB] using h2
          have h4 := internalUB_le_spec (e :: t0) k i (by omega) (by omega)
          omega
        · have hgt2 : internalUB (e :: t0) k - 1 < i := by omega
          have h2 := hint.1
          rw [loAt, if_neg (by omega)] at h2
          have h3 : keyAtE (e :: t0) i ≤ p0.1 := by simpa [inLoB] using h2
          have h4 := internalUB_gt_spec (e :: t0) k (by omega)
          by_cases hie : i = internalUB (e :: t0) k
          · rw [hie] at h3
            omega
          · have h5 := seqWF_sep_lt hseq (internalUB (e :: t0) k) i (by omega)
              (by omega) hilt
            omega
      · have hkin : k ∈ (treePairs (childAt (e :: t0)
            (internalUB (e :: t0) k - 1))).map Prod.fst := by
          have h6 := List.mem_map_of_mem Prod.fst hpm
          rwa [hp0k] at h6
        have hchwf := hseq.1 (internalUB (e :: t0) k - 1) hmlt
        have hszc : sizeOf (childAt (e :: t0) (internalUB (e :: t0) k - 1)) ≤ n := by
          have h1 := sizeOf_childAt_lt (e :: t0) _ hmlt
          simp at hsz h1
          omega
        have hrec := ih _ false _ _ hszc hchwf hkin
        simp only [insertRec, hrec]
        rw [if_pos (Or.inr trivial)]
        rw [set_keyCh_self _ _ hmlt]

/-- On a strictly-sorted pair list the filter for one stored key keeps
exactly its slot. -/
theorem filter_key_unique {V : Type} {k : Int} {w : V} :
    ∀ {ps : List (Int × V)}, (ps.map Prod.fst).Pairwise (· < ·) → (k, w) ∈ ps →
      ps.filter (fun p => p.1 == k) = [(k, w)] := by
  intro ps
  induction ps with
  | nil =>
    intro _ hk
    cases hk
  | cons a t iht =>
    intro hpw hk
    rw [List.map_cons, List.pairwise_cons] at hpw
    rcases List.mem_cons.mp hk with rfl | hk2
    · rw [List.filter_cons, if_pos (by simp)]
      have ht : t.filter (fun p => p.1 == k) = [] := by
        rw [List.filter_eq_nil_iff]
        intro p hp
        have h2 := hpw.1 p.1 (List.mem_map_of_mem _ hp)
        simp only [beq_iff_eq]
        omega
      rw [ht]
    · have halt : a.1 < k := hpw.1 k (List.mem_map_of_mem Prod.fst hk2)
      rw [List.filter_cons, if_neg (by simp only [beq_iff_eq]; omega)]
      exact iht hpw.2 hk2

/-- `BPlusTree::GetValue` on a well-formed subtree containing `(k, w)`
returns exactly `[w]`: the descent lands in the unique child whose key
interval admits `k`, and the leaf filter keeps the single matching slot. -/
theorem getValue_found {V : Type} (cfg : BPTCfg) (k : Int) (w : V) :
    ∀ n (t : BPTree V) (r : Bool) (lo hi : Option Int), sizeOf t ≤ n →
      wfB cfg r lo hi t = true → (k, w) ∈ treePairs t →
      getValue t k = [w] := by
  intro n
  induction n with
  | zero =>
    intro t r lo hi hsz
    cases t <;> simp at hsz
  | succ n ih =>
    intro t r lo hi hsz hwf hk
    match t with
    | .leaf ps =>
      obtain ⟨hpw, -, -, -⟩ := wfB_leaf_iff.mp hwf
      rw [treePairs] at hk
      rw [getValue, filter_key_unique hpw hk]
      rfl
    | .node [] =>
      rw [wfB] at hwf
      simp at hwf
    | .node (e :: t0) =>
      obtain ⟨-, -, -, hseq⟩ := wfB_node_iff.mp hwf
      have hub1 := internalUB_le e t0 k
      have hge1 : 1 ≤ internalUB (e :: t0) k := Nat.le_add_right 1 _
      have hmlt : internalUB (e :: t0) k - 1 < (e :: t0).length := internalUB_pred_lt e t0 k
      rcases (mem_node_other (internalUB (e :: t0) k - 1) hmlt (k, w)).mp hk with
        ⟨i, hilt, hne, hpi⟩ | hpm
      · exfalso
        have hint := treePairs_in_interval cfg (sizeOf (childAt (e :: t0) i)) _ false _ _
          (le_refl _) (hseq.1 i hilt) (k, w) hpi
        rcases Nat.lt_or_ge i (internalUB (e :: t0) k - 1) with hlt2 | hge2
        · have h2 := hint.2
          rw [hiAt, if_pos (by omega)] at h2
          have h3 : k < keyAtE (e :: t0) (i + 1) := by simpa [inHiB] using h2
          have h4 := internalUB_le_spec (e :: t0) k i (by omega) (by omega)
          omega
        · have hgt2 : internalUB (e :: t0) k - 1 < i := by omega
          have h2 := hint.1
          rw [loAt, if_neg (by omega)] at h2
          have h3 : keyAtE (e :: t0) i ≤ k := by simpa [inLoB] using h2
          have h4 := internalUB_gt_spec (e :: t0) k (by omega)
          by_cases hie : i = internalUB (e :: t0) k
          · rw [hie] at h3
            omega
          · have h5 := seqWF_sep_lt hseq (internalUB (e :: t0) k) i (by omega)
              (by omega) hilt
            omega
      · have hchwf := hseq.1 (internalUB (e :: t0) k - 1) hmlt
        have hszc : sizeOf (childAt (e :: t0) (internalUB (e :: t0) k - 1)) ≤ n := by
          have h1 := sizeOf_childAt_lt (e :: t0) _ hmlt
          simp at hsz h1
          omega
        rw [getValue]
        exact ih _ false _ _ hszc hchwf hpm


/-- C1.  For every sequence of Insert calls run from the fresh empty tree,
after a successful Insert(k, v) a GetValue(k) returns `true` with result
list `[v]`; a second Insert(k, v') then returns `false` leaving the state
unchanged, and GetValue(k) still returns `[v]`.  The statement quantifies
over the header-overlay function `hdr` modelling the out-of-bounds
`KeyAt(-1)` read, so it covers every position of `k` in its leaf, in
particular `k` below every key already stored there. -/
theorem insert_then_get {V : Type} (cfg : BPTCfg) (hdr : List (Int × V) → Int)
    (hL : 2 ≤ cfg.leafMax) (hI : 3 ≤ cfg.internalMax)
    (l : List (Int × V)) (k : Int) (v v2 : V) (s1 : Option (BPTree V))
    (hins : insertTree cfg hdr (applyInserts cfg hdr l) k v = (s1, true)) :
    getValueTree s1 k = (true, [v]) ∧
    insertTree cfg hdr s1 k v2 = (s1, false) ∧
    getValueTree (insertTree cfg hdr s1 k v2).1 k = (true, [v]) := by
  have hwf0 := applyInserts_wf cfg hdr hL hI l
  obtain ⟨hwf1, -, hsucc⟩ := insertTree_wf cfg hdr hL hI (applyInserts cfg hdr l) k v s1
    true hwf0 hins
  obtain ⟨-, hpairs⟩ := hsucc rfl
  have hkv : (k, v) ∈ rootPairs s1 := (hpairs (k, v)).mpr (Or.inr rfl)
  match s1 with
  | none => cases hkv
  | some t1 =>
    rw [rootPairs] at hkv
    rw [wfTreeB] at hwf1
    have hget : getValue t1 k = [v] :=
      getValue_found cfg k v (sizeOf t1) t1 true none none (le_refl _) hwf1 hkv
    have ha : getValueTree (some t1) k = (true, [v]) := by
      rw [getValueTree, hget]
      rfl
    have hdup : insertRec cfg hdr t1 k v2 = (t1, none, false) :=
      insertRec_dup cfg hdr k v2 (sizeOf t1) t1 true none none (le_refl _) hwf1
        (by rw [← (show (k, v).1 = k from rfl)]; exact List.mem_map_of_mem Prod.fst hkv)
    have hb : insertTree cfg hdr (some t1) k v2 = (some t1, false) := by
      simp only [insertTree, hdup]
    refine ⟨ha, hb, ?_⟩
    rw [hb]
    exact ha

/-- Witness for C1: inserting key 1 and then key 2 with configured maxima
3/3, probing the second insert. -/
theorem insert_then_get_witness :
    getValueTree (some (BPTree.leaf [((1 : Int), (10 : Int)), (2, 20)])) 2 = (true, [20]) ∧
    insertTree (treeCfg 3 3) (fun _ => 0)
        (some (BPTree.leaf [((1 : Int), (10 : Int)), (2, 20)])) 2 99
      = (some (BPTree.leaf [(1, 10), (2, 20)]), false) ∧
    getValueTree (insertTree (treeCfg 3 3) (fun _ => 0)
        (some (BPTree.leaf [((1 : Int), (10 : Int)), (2, 20)])) 2 99).1 2 = (true, [20]) :=
  insert_then_get (treeCfg 3 3) (fun _ => 0) (by decide) (by decide)
    [(1, 10)] 2 20 99 (some (BPTree.leaf [(1, 10), (2, 20)]))
    (by simp [applyInserts, insertTree, insertRec, leafUB, treeCfg, List.takeWhile])


end BusTub
